import Mathlib

/-!
Interval plan generator (`PlanGenerator.js`).

A shallow embedding of `generatePlanWithData` and of the helpers declared inside it
(`isIntervalOverlappingLocal`, `isIntervalInPastLocal`, `isIntervalInPausedLocal`,
`findNextValidStartLocal`, `getNextStartPositionLocal`, `generateSingleIntervalLocal`),
followed by the properties established about them.

Modelling conventions.

* The numbers of the source are IEEE doubles. Every number the code handles is the
  result of `parseInt`, the literal `1`, or a sum or difference of such numbers, hence an
  integer-valued double. A number is modelled by the `Int` it denotes, and every sum or
  difference is rounded to the nearest double, ties to even (`roundDouble`, `jsAdd`,
  `jsSub`): up to `2 ^ 53` in absolute value the arithmetic is exact, beyond it rounds
  as the source does. Comparisons of doubles are exact. Doubles have a largest finite
  value (about `1.8e308`); sums beyond it, which give `Infinity` in the source, are not
  modelled.
* The parallel arrays `stepsData`, `limitsData`, `pausedIntervalsData` and
  `allGeneratedIntervalsData`, all indexed by `sessionIdx` and all of length
  `sessionsData.length`, are modelled as one list of `Session` records.
* The `while (changed)` loop of `findNextValidStartLocal` has no bound in the source.
  It is modelled with a fuel argument counting loop iterations: `none` means that the
  loop is still running when the fuel is used up, `some r` that it has returned `r`.
* A token is kept structured (`Token`); `Token.render` gives the string of the source,
  the numbers printed as the template literal prints a double (`jsNumberToString`).
-/

namespace PlanGenerator

/-- A closed integer range, the two-element array `[start, end]` of the source. -/
abbrev Range := Int × Int

/-- The data of one session: `stepsData[i]`, `limitsData[i]`, `pausedIntervalsData[i]`
and `allGeneratedIntervalsData[i]`. -/
structure Session where
  step : Int
  limit : Int
  paused : List Range
  hist : List Range
deriving DecidableEq, Repr

/-- The first component of the pair returned by `generateSingleIntervalLocal`. -/
inductive Token where
  | limite : Token
  | pause : Token
  | reused : Token
  | interval (a b : Int) : Token
deriving DecidableEq, Repr

/-- The least `e` from the given one on with `m / 2 ^ e < 2 ^ 53`, searched for `fuel`
steps: the number of low bits that do not fit in the 53 bits of a mantissa. -/
def mantissaShift (m : Nat) : Nat → Nat → Nat
  | 0, e => e
  | fuel + 1, e =>
      if m / 2 ^ e < 9007199254740992 then e else mantissaShift m fuel (e + 1)

/-- The double nearest to the integer `z`, ties to even, as an integer: `z` itself up
to `2 ^ 53` in absolute value, and beyond it the nearest integer with 53 significant
bits. -/
def roundDouble (z : Int) : Int :=
  let m := z.natAbs
  if m ≤ 9007199254740992 then z
  else
    let e := mantissaShift m m 0
    let q := m / 2 ^ e
    let r := m % 2 ^ e
    let half := 2 ^ (e - 1)
    let q1 := if half < r ∨ (r = half ∧ q % 2 = 1) then q + 1 else q
    if z < 0 then -((q1 * 2 ^ e : Nat) : Int) else ((q1 * 2 ^ e : Nat) : Int)

/-- The operator `+` on two integer-valued doubles. -/
def jsAdd (a b : Int) : Int :=
  roundDouble (a + b)

/-- The operator `-` on two integer-valued doubles. -/
def jsSub (a b : Int) : Int :=
  roundDouble (a - b)

/-- The decimal number with the fewest significant digits that rounds to the double
`x`, searched with `k = 1, 2, ...` significant digits among the two multiples of
`10 ^ (d - k)` around `x`; of two that round to `x` the closer one is taken. `d` is the
number of digits of `x`. -/
def shortestFrom (x d : Nat) : Nat → Nat → Nat
  | 0, _ => x
  | fuel + 1, k =>
      let unit := 10 ^ (d - k)
      let lo := x / unit * unit
      let hi := lo + unit
      if roundDouble lo = x ∧ roundDouble hi = x then
        (if x - lo < hi - x then lo
         else if hi - x < x - lo then hi
         else if (lo / unit) % 2 = 0 then lo else hi)
      else if roundDouble lo = x then lo
      else if roundDouble hi = x then hi
      else shortestFrom x d fuel (k + 1)

/-- The string of a non-negative integer-valued double: the shortest decimal that
rounds to it, written out in full up to 21 digits and in exponent form beyond. -/
def natToJsString (x : Nat) : String :=
  let d := (Nat.toDigits 10 x).length
  let v := shortestFrom x d d 1
  let digits := Nat.toDigits 10 v
  if digits.length ≤ 21 then String.mk digits
  else
    let sig := ((digits.reverse).dropWhile (fun c => c = '0')).reverse
    let mantissa : List Char :=
      match sig with
      | [] => ['0']
      | [c] => [c]
      | c :: rest => c :: '.' :: rest
    String.mk mantissa ++ "e+" ++ String.mk (Nat.toDigits 10 (digits.length - 1))

/-- The string a template literal gives for an integer-valued double. -/
def jsNumberToString (z : Int) : String :=
  if z < 0 then "-" ++ natToJsString z.natAbs else natToJsString z.natAbs

/-- The string the source builds for a token: a literal, or the template
`currentStart-proposedEnd`. -/
def Token.render : Token → String
  | .limite => "Limite"
  | .pause => "pause"
  | .reused => "X"
  | .interval a b => jsNumberToString a ++ "-" ++ jsNumberToString b

/-- Lines 38-45: closed-interval overlap of `[start, stop]` with some range of the list. -/
def isIntervalOverlappingLocal (start stop : Int) : List Range → Bool
  | [] => false
  | (intervalStart, intervalEnd) :: rest =>
      if start ≤ intervalEnd ∧ intervalStart ≤ stop then true
      else isIntervalOverlappingLocal start stop rest

/-- Lines 47-54: `[start, stop]` lies inside one historical range. -/
def isIntervalInPastLocal (start stop : Int) : List Range → Bool
  | [] => false
  | (histStart, histEnd) :: rest =>
      if histStart ≤ start ∧ stop ≤ histEnd then true
      else isIntervalInPastLocal start stop rest

/-- Lines 56-58. -/
def isIntervalInPausedLocal (start stop : Int) (s : Session) : Bool :=
  isIntervalOverlappingLocal start stop s.paused

/-- Line 68: `[...pausedList].sort((a, b) => a[0] - b[0])`, a stable sort on the start
of the range. Insertion sort with `≤` on the starts is stable. -/
def sortByStart (l : List Range) : List Range :=
  l.insertionSort (fun a b => a.1 ≤ b.1)

/-- The scan `for (const [ps, pe] of sortedPaused) if (ps <= x && x <= pe) { ...; break }`:
the first range of the list that contains `x`. -/
def firstContaining (x : Int) : List Range → Option Range
  | [] => none
  | (ps, pe) :: rest =>
      if ps ≤ x ∧ x ≤ pe then some (ps, pe) else firstContaining x rest

/-- Lines 81-90: the candidate is reset to `1` and pushed past the first range that
contains `1`, wrapping to `1` once more when that leaves the track. -/
def wrapToStart (limit : Int) (sortedPaused : List Range) : Int :=
  match firstContaining 1 sortedPaused with
  | none => 1
  | some (_, pe) => if jsAdd pe 1 > limit then 1 else jsAdd pe 1

/-- Lines 74-94, one iteration of the `while` body. `none` is `changed = false`;
`some n` is `changed = true` with the new value of `newStart`. -/
def scanPass (limit : Int) (sortedPaused : List Range) (newStart : Int) : Option Int :=
  match firstContaining newStart sortedPaused with
  | none => none
  | some (_, pausedEnd) =>
      if jsAdd pausedEnd 1 > limit then some (wrapToStart limit sortedPaused)
      else some (jsAdd pausedEnd 1)

/-- Lines 73-97: the `while (changed)` loop, one unit of fuel per iteration. -/
def advanceLoop (limit : Int) (sortedPaused : List Range) : Nat → Int → Option Int
  | 0, _ => none
  | fuel + 1, newStart =>
      match scanPass limit sortedPaused newStart with
      | none => some newStart
      | some next => advanceLoop limit sortedPaused fuel next

/-- Lines 60-98. -/
def findNextValidStartLocal (fuel : Nat) (s : Session) (currentStart : Int) : Option Int :=
  if s.paused.length = 0 then
    some (if currentStart > s.limit then 1 else currentStart)
  else
    advanceLoop s.limit (sortByStart s.paused) fuel currentStart

/-- Lines 100-114. -/
def getNextStartPositionLocal (fuel : Nat) (s : Session) : Option Int :=
  match s.hist.getLast? with
  | none => some 1
  | some (_, lastEnd) =>
      findNextValidStartLocal fuel s (if lastEnd ≥ s.limit then 1 else jsAdd lastEnd 1)

/-- Line 119: `proposedEnd = currentStart + step - 1`, the sum first, then the
difference. -/
def proposedEndOf (currentStart step : Int) : Int :=
  jsSub (jsAdd currentStart step) 1

/-- Lines 116-139: the token and the next cursor. -/
def generateSingleIntervalLocal (fuel : Nat) (s : Session) (start step : Int) :
    Option (Token × Int) :=
  match findNextValidStartLocal fuel s start with
  | none => none
  | some currentStart =>
      let proposedEnd := proposedEndOf currentStart step
      if proposedEnd > s.limit then
        match findNextValidStartLocal fuel s 1 with
        | none => none
        | some nextStart => some (Token.limite, nextStart)
      else if isIntervalInPausedLocal currentStart proposedEnd s then
        match findNextValidStartLocal fuel s (jsAdd proposedEnd 1) with
        | none => none
        | some nextStart => some (Token.pause, nextStart)
      else if isIntervalInPastLocal currentStart proposedEnd s.hist then
        match findNextValidStartLocal fuel s (jsAdd proposedEnd 1) with
        | none => none
        | some nextStart => some (Token.reused, nextStart)
      else
        match findNextValidStartLocal fuel s (jsAdd proposedEnd 1) with
        | none => none
        | some nextStart => some (Token.interval currentStart proposedEnd, nextStart)

/-- Lines 142-144: `currentPositions`, one initial cursor per session. -/
def initialPositions (fuel : Nat) : List Session → Option (List Int)
  | [] => some []
  | s :: rest =>
      match getNextStartPositionLocal fuel s with
      | none => none
      | some p =>
          match initialPositions fuel rest with
          | none => none
          | some ps => some (p :: ps)

/-- Lines 149-163: the inner loop over the sessions for one drop. It returns the row
of tokens and the updated `currentPositions`. The list of positions always has the
length of the list of sessions; the last case is never reached from
`generatePlanTokens`. -/
def generateRow (fuel : Nat) : List Session → List Int → Option (List Token × List Int)
  | [], _ => some ([], [])
  | _ :: _, [] => none
  | s :: rest, currentPos :: positions =>
      match generateSingleIntervalLocal fuel s currentPos s.step with
      | none => none
      | some (intervalStr, nextStart) =>
          match generateRow fuel rest positions with
          | none => none
          | some (row, next) => some (intervalStr :: row, nextStart :: next)

/-- Lines 148-166: the outer loop over the drops, rows in generation order. -/
def generateRows (fuel : Nat) (sessions : List Session) :
    Nat → List Int → Option (List (List Token))
  | 0, _ => some []
  | drops + 1, positions =>
      match generateRow fuel sessions positions with
      | none => none
      | some (row, next) =>
          match generateRows fuel sessions drops next with
          | none => none
          | some rows => some (row :: rows)

/-- The plan of `generatePlanWithData` before each row is joined into a string. -/
def generatePlanTokens (fuel : Nat) (numDrops : Int) (sessions : List Session) :
    Option (List (List Token)) :=
  match initialPositions fuel sessions with
  | none => none
  | some positions => generateRows fuel sessions numDrops.toNat positions

/-- Line 165: `rowIntervals.join('\t')`. -/
def renderRow (row : List Token) : String :=
  "\t".intercalate (row.map Token.render)

/-- Lines 28-173: `newPlan`, the list of rows joined by a tab. -/
def generatePlanWithData (fuel : Nat) (numDrops : Int) (sessions : List Session) :
    Option (List String) :=
  (generatePlanTokens fuel numDrops sessions).map (fun rows => rows.map renderRow)

/-- The calls of `generateSingleIntervalLocal` made for one session over successive
drops, starting from cursor `cursor`: the token and the next cursor of each call. -/
def sessionColumn (fuel : Nat) (s : Session) : Nat → Int → Option (List (Token × Int))
  | 0, _ => some []
  | drops + 1, cursor =>
      match generateSingleIntervalLocal fuel s cursor s.step with
      | none => none
      | some (tok, nextStart) =>
          match sessionColumn fuel s drops nextStart with
          | none => none
          | some col => some ((tok, nextStart) :: col)


/-- Position `x` lies inside some range of the list. -/
def inPausedRange (l : List Range) (x : Int) : Prop :=
  ∃ q ∈ l, q.1 ≤ x ∧ x ≤ q.2

/-- Every range of the list ends where the sum `pausedEnd + 1` of the loop behaves as
on the integers: at `-2 ^ 53` or later, and either below `2 ^ 53`, where the sum is
exact, or with a limit below `2 ^ 53`, where the rounded sum is beyond the limit as the
exact one is. -/
def SafeEnds (limit : Int) (l : List Range) : Prop :=
  ∀ q ∈ l, -9007199254740992 ≤ q.2 ∧ (q.2 < 9007199254740992 ∨ limit < 9007199254740992)

/-- The number of ranges of the list that end at `x` or later. It bounds the number of
iterations the loop can still make from `x` without wrapping. -/
def rangesEndingFrom (l : List Range) (x : Int) : Nat :=
  l.countP (fun q => decide (x ≤ q.2))

/-- The value `v` at which the search from `x` comes to rest, described without
reference to the order of the ranges: `x` itself when it is unpaused; else the first
unpaused position after `x` when it is within the limit; else, after the wrap, the
first unpaused position from `1` on, which is `1` or within the limit. -/
def NextValid (limit : Int) (l : List Range) (x v : Int) : Prop :=
  (¬ inPausedRange l x ∧ v = x) ∨
  (inPausedRange l x ∧ x ≤ v ∧ v ≤ limit ∧ ¬ inPausedRange l v ∧
    ∀ y, x ≤ y → y < v → inPausedRange l y) ∨
  (inPausedRange l x ∧ (∀ y, x ≤ y → y ≤ limit → inPausedRange l y) ∧
    ¬ inPausedRange l v ∧ 1 ≤ v ∧ (v = 1 ∨ v ≤ limit) ∧
    ∀ y, 1 ≤ y → y < v → inPausedRange l y)

/-- The search from `x` never comes to rest: `x` and every position from `x` to the
limit are paused, and so are `1` and every position from `1` to the limit. -/
def NoNextValid (limit : Int) (l : List Range) (x : Int) : Prop :=
  inPausedRange l x ∧ (∀ y, x ≤ y → y ≤ limit → inPausedRange l y) ∧
  inPausedRange l 1 ∧ ∀ y, 1 ≤ y → y ≤ limit → inPausedRange l y

/-- A number of loop iterations that suffices for every call made on the sessions. -/
def fuelBound : List Session → Nat
  | [] => 0
  | s :: rest => (2 * s.paused.length + 1) + fuelBound rest

/-! ### The text handler `handleGeneratePlan`

The pasted text is handled as a list of characters. The string functions of JavaScript
that the handler uses are modelled as follows: `trim` and the class `\s` strip the white
space and line terminator characters of the language; `split` on a one-character
separator; `parseInt` without radix reads optional white space, an optional sign, an
optional `0x` or `0X` prefix and the longest run of digits of the radix, and gives `NaN`
(here `none`) when there is no digit; its value is the double nearest to the integer
the digits denote (the language lets an implementation approximate the digits after the
twentieth; a run of digits beyond the largest double, which gives `Infinity`, is not
modelled). The text of the error messages is not modelled, only their kind. -/

/-- The characters matched by `\s` and stripped by `trim`. -/
def isJsSpace (c : Char) : Bool :=
  let n := c.toNat
  n = 9 || n = 10 || n = 11 || n = 12 || n = 13 || n = 32 || n = 160 || n = 5760 ||
    (8192 ≤ n && n ≤ 8202) || n = 8232 || n = 8233 || n = 8239 || n = 8287 ||
    n = 12288 || n = 65279

/-- The method `trim`. -/
def jsTrim (s : List Char) : List Char :=
  (((s.dropWhile isJsSpace).reverse).dropWhile isJsSpace).reverse

/-- The method `split` with a one-character separator. -/
def jsSplit (sep : Char) : List Char → List (List Char)
  | [] => [[]]
  | c :: rest =>
      if c = sep then [] :: jsSplit sep rest
      else
        match jsSplit sep rest with
        | [] => [[c]]
        | hd :: tl => (c :: hd) :: tl

/-- The value of a digit in the given radix. -/
def digitValue (radix : Nat) (c : Char) : Option Nat :=
  let n := c.toNat
  let d : Option Nat :=
    if 48 ≤ n ∧ n ≤ 57 then some (n - 48)
    else if 97 ≤ n ∧ n ≤ 122 then some (n - 87)
    else if 65 ≤ n ∧ n ≤ 90 then some (n - 55)
    else none
  match d with
  | none => none
  | some v => if v < radix then some v else none

/-- The longest run of digits at the head of the list, read in the given radix; `acc`
is `none` until a digit has been read. -/
def parseDigits (radix : Nat) : List Char → Option Nat → Option Nat
  | [], acc => acc
  | c :: rest, acc =>
      match digitValue radix c with
      | none => acc
      | some d => parseDigits radix rest (some (acc.getD 0 * radix + d))

/-- The function `parseInt` called with one argument; `none` is `NaN`. -/
def jsParseInt (s : List Char) : Option Int :=
  let t := s.dropWhile isJsSpace
  let signed : Bool × List Char :=
    match t with
    | c :: r => if c = '-' then (true, r) else if c = '+' then (false, r) else (false, t)
    | [] => (false, t)
  let based : Nat × List Char :=
    match signed.2 with
    | c :: d :: r =>
        if c = '0' ∧ (d = 'x' ∨ d = 'X') then (16, r) else (10, signed.2)
    | _ => (10, signed.2)
  match parseDigits based.1 based.2 none with
  | none => none
  | some n => some (roundDouble (if signed.1 then -(n : Int) else (n : Int)))

/-- The kinds of error thrown by the parsing step of `handleGeneratePlan`. -/
inductive ParseError where
  | tooFewLines : ParseError
  | invalidSteps : ParseError
  | countMismatch : ParseError
  | noLimitsLine : ParseError
  | invalidPaused : ParseError
deriving DecidableEq, Repr

/-- What `handleGeneratePlan` ends with: one of its messages, or the generated plan. -/
inductive Outcome where
  | emptyInput : Outcome
  | parsingError (e : ParseError) : Outcome
  | invalidDrops : Outcome
  | generated (plan : List String) : Outcome
deriving DecidableEq, Repr

/-- Lines 190-194: the trimmed, non-empty lines of the text. -/
def inputLines (text : List Char) : List (List Char) :=
  ((jsSplit '\n' (jsTrim text)).map jsTrim).filter (fun line => !line.isEmpty)

/-- Lines 202-206: the steps of line 1; `none` when a step is not a number. -/
def parseStepsLine : List (List Char) → Option (List Int)
  | [] => some []
  | part :: rest =>
      match jsParseInt (jsTrim part) with
      | none => none
      | some v =>
          match parseStepsLine rest with
          | none => none
          | some vs => some (v :: vs)

/-- Lines 224-239: the test made on a candidate limits line. -/
def isLimitsLine (count : Nat) (line : List Char) : Bool :=
  let parts := jsSplit '\t' line
  parts.length = count &&
    parts.all (fun part => !(jsTrim part).isEmpty && (jsParseInt (jsTrim part)).isSome)

/-- Lines 221-243: the index of the limits line among the lines from index `2` on,
searched from the bottom up. The argument is the list of those lines, and the index
returned counts from the first of them. -/
def findLimitsFrom (count : Nat) : List (List Char) → Option Nat
  | [] => none
  | line :: rest =>
      match findLimitsFrom count rest with
      | some i => some (i + 1)
      | none => if isLimitsLine count line then some 0 else none

/-- Lines 250-258: the limits of the limits line. -/
def parseLimitsLine (line : List Char) : List Int :=
  (jsSplit '\t' line).map (fun part =>
    if (jsTrim part).isEmpty then 0 else (jsParseInt (jsTrim part)).getD 0)

/-- Lines 271-280: one cell of a historical line. -/
def parseHistCell (part : List Char) : Option Range :=
  if part.contains '-' then
    match (jsSplit '-' part).map (fun x => jsParseInt (jsTrim x)) with
    | some a :: some b :: _ => some (a, b)
    | _ => none
  else none

/-- Lines 266-281: the cells of one historical line, one per session; a line with
another number of cells is skipped. -/
def parseHistLine (count : Nat) (line : List Char) : List (Option Range) :=
  let parts := jsSplit '\t' line
  if parts.length = count then parts.map parseHistCell else []

/-- Lines 298-316: one cell of a paused line. The outer `none` is a thrown error, the
inner `none` a cell that holds no range. -/
def parsePausedCell (raw : Option (List Char)) : Option (Option Range) :=
  let part : List Char :=
    match raw with
    | none => ['x']
    | some p => if p.isEmpty then ['x'] else jsTrim p
  if part.isEmpty ∨ part = ['x'] ∨ part = ['X'] then some none
  else
    let partClean := part.filter (fun c => !isJsSpace c)
    if partClean.contains '-' then
      match (jsSplit '-' partClean).map jsParseInt with
      | some a :: some b :: _ => if a > b then none else some (some (a, b))
      | _ => none
    else
      match jsParseInt partClean with
      | none => none
      | some v => some (some (v, v))

/-- Lines 290-317, the cells `0` to `count - 1` of one paused line, missing cells
read as `x`; `none` when a cell throws. -/
def parsePausedCells : Nat → List (List Char) → Option (List (Option Range))
  | 0, _ => some []
  | count + 1, parts =>
      match parsePausedCell parts.head? with
      | none => none
      | some cell =>
          match parsePausedCells count parts.tail with
          | none => none
          | some cells => some (cell :: cells)

/-- Lines 289-318: all the paused lines. -/
def parsePausedLines (count : Nat) : List (List Char) → Option (List (List (Option Range)))
  | [] => some []
  | line :: rest =>
      match parsePausedCells count (jsSplit '\t' line) with
      | none => none
      | some cells =>
          match parsePausedLines count rest with
          | none => none
          | some more => some (cells :: more)

/-- The ranges found in column `i` of the parsed lines, in line order. -/
def columnRanges (i : Nat) (rows : List (List (Option Range))) : List Range :=
  rows.filterMap (fun row => (row[i]?).join)

/-- The session records handed to `generatePlanWithData`, one per entry of `steps`. -/
def buildSessions (limits : List Int) (paused hist : List (List (Option Range))) :
    Nat → List Int → List Session
  | _, [] => []
  | i, step :: rest =>
      ⟨step, limits.getD i 0, columnRanges i paused, columnRanges i hist⟩ ::
        buildSessions limits paused hist (i + 1) rest

/-- Lines 189-322: the parsing step of `handleGeneratePlan`. -/
def parseInput (text : List Char) : Except ParseError (List Session) :=
  let lines := inputLines text
  if lines.length < 4 then Except.error ParseError.tooFewLines
  else
    match parseStepsLine (jsSplit '\t' (lines.getD 0 [])) with
    | none => Except.error ParseError.invalidSteps
    | some steps =>
        let count := (jsSplit '\t' (lines.getD 1 [])).length
        if steps.length ≠ count then Except.error ParseError.countMismatch
        else
          match findLimitsFrom count (lines.drop 2) with
          | none => Except.error ParseError.noLimitsLine
          | some offset =>
              let limits := parseLimitsLine (lines.getD (offset + 2) [])
              let hist := ((lines.drop 2).take offset).map (parseHistLine count)
              match parsePausedLines count (lines.drop (offset + 3)) with
              | none => Except.error ParseError.invalidPaused
              | some paused => Except.ok (buildSessions limits paused hist 0 steps)

/-- Lines 176-351: `handleGeneratePlan` on the pasted text and the drop count. `none`
means that generation is still running when the fuel is used up. -/
def handleGeneratePlan (fuel : Nat) (inputText : String) (dropsCount : Int) :
    Option Outcome :=
  if (jsTrim inputText.data).isEmpty then some Outcome.emptyInput
  else
    match parseInput inputText.data with
    | Except.error e => some (Outcome.parsingError e)
    | Except.ok sessions =>
        if dropsCount ≤ 0 then some Outcome.invalidDrops
        else
          match generatePlanWithData fuel dropsCount sessions with
          | none => none
          | some plan => some (Outcome.generated plan)

/-! ## Rounding to the nearest double -/

/-- Up to `2 ^ 53` in absolute value every integer is a double. -/
theorem roundDouble_of_exact (z : Int) (h1 : -9007199254740992 ≤ z)
    (h2 : z ≤ 9007199254740992) : roundDouble z = z := by
  unfold roundDouble
  simp only
  rw [if_pos (by omega)]

/-- The shift found by the search is at least the starting one, and when it is larger
the mantissa at the shift before it did not fit in 53 bits. -/
theorem mantissaShift_spec (m : Nat) :
    ∀ (fuel e0 : Nat), e0 ≤ mantissaShift m fuel e0 ∧
      (e0 < mantissaShift m fuel e0 →
        9007199254740992 ≤ m / 2 ^ (mantissaShift m fuel e0 - 1)) := by
  intro fuel
  induction fuel with
  | zero =>
    intro e0
    simp [mantissaShift]
  | succ n ih =>
    intro e0
    unfold mantissaShift
    by_cases ht : m / 2 ^ e0 < 9007199254740992
    · rw [if_pos ht]
      exact ⟨le_refl _, fun h => absurd h (lt_irrefl _)⟩
    · rw [if_neg ht]
      obtain ⟨h1, h2⟩ := ih (e0 + 1)
      refine ⟨by omega, fun _ => ?_⟩
      by_cases he : e0 + 1 < mantissaShift m n (e0 + 1)
      · exact h2 he
      · have e : mantissaShift m n (e0 + 1) - 1 = e0 := by omega
        rw [e]
        omega

/-- Beyond `2 ^ 53` the rounded mantissa, scaled back, is at least `2 ^ 53`. -/
theorem scaled_mantissa_ge (m q1 : Nat) (h : 9007199254740992 < m)
    (hq : m / 2 ^ mantissaShift m m 0 ≤ q1) :
    9007199254740992 ≤ q1 * 2 ^ mantissaShift m m 0 := by
  obtain ⟨n, hn⟩ : ∃ n, m = n + 1 := ⟨m - 1, by omega⟩
  have hstart : mantissaShift m m 0 = mantissaShift m n 1 := by
    have e1 : mantissaShift m m 0 = mantissaShift m (n + 1) 0 :=
      congrArg (fun f => mantissaShift m f 0) hn
    rw [e1, mantissaShift, if_neg (by simp only [pow_zero, Nat.div_one]; omega)]
  obtain ⟨h1, h2⟩ := mantissaShift_spec m n 1
  rw [hstart] at hq ⊢
  have hprev : 9007199254740992 ≤ m / 2 ^ (mantissaShift m n 1 - 1) := by
    by_cases he : 1 < mantissaShift m n 1
    · exact h2 he
    · have e : mantissaShift m n 1 - 1 = 0 := by omega
      rw [e]
      simp only [pow_zero, Nat.div_one]
      omega
  have hsplit : 2 ^ mantissaShift m n 1 = 2 ^ (mantissaShift m n 1 - 1) * 2 := by
    rw [← Nat.pow_succ]
    congr 1
    omega
  have hq52 : 4503599627370496 ≤ m / 2 ^ mantissaShift m n 1 := by
    rw [hsplit, ← Nat.div_div_eq_div_mul]
    omega
  have he : 2 ≤ 2 ^ mantissaShift m n 1 := by
    have : 2 ^ 1 ≤ 2 ^ mantissaShift m n 1 := Nat.pow_le_pow_right (by decide) h1
    simpa using this
  calc 9007199254740992 = 4503599627370496 * 2 := by norm_num
    _ ≤ q1 * 2 ^ mantissaShift m n 1 := Nat.mul_le_mul (le_trans hq52 hq) he

theorem roundDouble_ge_of_large (z : Int) (h : 9007199254740992 < z) :
    9007199254740992 ≤ roundDouble z := by
  have hm : 9007199254740992 < z.natAbs := by omega
  unfold roundDouble
  simp only
  rw [if_neg (by omega), if_neg (by omega)]
  have key := scaled_mantissa_ge z.natAbs
    (if 2 ^ (mantissaShift z.natAbs z.natAbs 0 - 1) <
          z.natAbs % 2 ^ mantissaShift z.natAbs z.natAbs 0 ∨
        (z.natAbs % 2 ^ mantissaShift z.natAbs z.natAbs 0 =
            2 ^ (mantissaShift z.natAbs z.natAbs 0 - 1) ∧
          z.natAbs / 2 ^ mantissaShift z.natAbs z.natAbs 0 % 2 = 1)
      then z.natAbs / 2 ^ mantissaShift z.natAbs z.natAbs 0 + 1
      else z.natAbs / 2 ^ mantissaShift z.natAbs z.natAbs 0) hm (by split <;> omega)
  exact_mod_cast key

theorem roundDouble_le_of_small (z : Int) (h : z < -9007199254740992) :
    roundDouble z ≤ -9007199254740992 := by
  have hm : 9007199254740992 < z.natAbs := by omega
  unfold roundDouble
  simp only
  rw [if_neg (by omega), if_pos (by omega)]
  have key := scaled_mantissa_ge z.natAbs
    (if 2 ^ (mantissaShift z.natAbs z.natAbs 0 - 1) <
          z.natAbs % 2 ^ mantissaShift z.natAbs z.natAbs 0 ∨
        (z.natAbs % 2 ^ mantissaShift z.natAbs z.natAbs 0 =
            2 ^ (mantissaShift z.natAbs z.natAbs 0 - 1) ∧
          z.natAbs / 2 ^ mantissaShift z.natAbs z.natAbs 0 % 2 = 1)
      then z.natAbs / 2 ^ mantissaShift z.natAbs z.natAbs 0 + 1
      else z.natAbs / 2 ^ mantissaShift z.natAbs z.natAbs 0) hm (by split <;> omega)
  exact neg_le_neg (by exact_mod_cast key)

/-- Rounding does not cross a double: a bound `k` that is itself exact stays a bound. -/
theorem le_roundDouble (k z : Int) (hk1 : -9007199254740992 ≤ k)
    (hk2 : k ≤ 9007199254740992) (h : k ≤ z) : k ≤ roundDouble z := by
  by_cases hz : z ≤ 9007199254740992
  · rw [roundDouble_of_exact z (by omega) hz]
    exact h
  · have := roundDouble_ge_of_large z (by omega)
    omega

theorem roundDouble_le (k z : Int) (hk1 : -9007199254740992 ≤ k)
    (hk2 : k ≤ 9007199254740992) (h : z ≤ k) : roundDouble z ≤ k := by
  by_cases hz : -9007199254740992 ≤ z
  · rw [roundDouble_of_exact z hz (by omega)]
    exact h
  · have := roundDouble_le_of_small z (by omega)
    omega

theorem jsAdd_exact (a b : Int) (h1 : -9007199254740992 ≤ a + b)
    (h2 : a + b ≤ 9007199254740992) : jsAdd a b = a + b :=
  roundDouble_of_exact (a + b) h1 h2

theorem jsSub_exact (a b : Int) (h1 : -9007199254740992 ≤ a - b)
    (h2 : a - b ≤ 9007199254740992) : jsSub a b = a - b :=
  roundDouble_of_exact (a - b) h1 h2

/-- The arithmetic of the source at and beyond `2 ^ 53`: `2 ^ 53 + 1` rounds back to
`2 ^ 53`, `2 ^ 53 + 3` rounds up to `2 ^ 53 + 4`, `parseInt` of the digits of
`2 ^ 53 + 1` is `2 ^ 53`, and numbers are printed with the fewest digits that
distinguish them, in exponent form from `1e21` on. -/
theorem double_arithmetic_examples :
    jsAdd 9007199254740992 1 = 9007199254740992 ∧
    jsAdd 9007199254740994 1 = 9007199254740996 ∧
    proposedEndOf 9007199254740992 2 = 9007199254740992 ∧
    proposedEndOf 1 9007199254740992 = 9007199254740991 ∧
    jsParseInt "9007199254740993".toList = some 9007199254740992 ∧
    jsNumberToString 1152921504606846976 = "1152921504606847000" ∧
    (Token.interval 1 1000000000000000000000).render = "1-1e+21" ∧
    (Token.interval 9007199254740992 9007199254740992).render =
      "9007199254740992-9007199254740992" := by
  refine ⟨by decide, by decide, by decide, by decide, by decide, by decide, by decide,
    by decide⟩

/-! ## Basic facts about the predicates and the scan -/

theorem isIntervalOverlappingLocal_iff (start stop : Int) (l : List Range) :
    isIntervalOverlappingLocal start stop l = true ↔
      ∃ r ∈ l, start ≤ r.2 ∧ r.1 ≤ stop := by
  induction l with
  | nil => simp [isIntervalOverlappingLocal]
  | cons hd tl ih =>
    obtain ⟨a, b⟩ := hd
    by_cases h : start ≤ b ∧ a ≤ stop
    · simp [isIntervalOverlappingLocal, h]
    · simp only [isIntervalOverlappingLocal, h, if_false, ih, List.mem_cons]
      constructor
      · rintro ⟨r, hr, h1⟩
        exact ⟨r, Or.inr hr, h1⟩
      · rintro ⟨r, hr | hr, h1⟩
        · subst hr; exact absurd h1 h
        · exact ⟨r, hr, h1⟩

theorem isIntervalInPastLocal_iff (start stop : Int) (l : List Range) :
    isIntervalInPastLocal start stop l = true ↔
      ∃ r ∈ l, r.1 ≤ start ∧ stop ≤ r.2 := by
  induction l with
  | nil => simp [isIntervalInPastLocal]
  | cons hd tl ih =>
    obtain ⟨a, b⟩ := hd
    by_cases h : a ≤ start ∧ stop ≤ b
    · simp [isIntervalInPastLocal, h]
    · simp only [isIntervalInPastLocal, h, if_false, ih, List.mem_cons]
      constructor
      · rintro ⟨r, hr, h1⟩
        exact ⟨r, Or.inr hr, h1⟩
      · rintro ⟨r, hr | hr, h1⟩
        · subst hr; exact absurd h1 h
        · exact ⟨r, hr, h1⟩

theorem firstContaining_eq_none_iff (x : Int) (l : List Range) :
    firstContaining x l = none ↔ ∀ r ∈ l, ¬ (r.1 ≤ x ∧ x ≤ r.2) := by
  induction l with
  | nil => simp [firstContaining]
  | cons hd tl ih =>
    obtain ⟨a, b⟩ := hd
    by_cases h : a ≤ x ∧ x ≤ b
    · simp only [firstContaining, h, List.mem_cons]
      simp only [and_self, if_true]
      constructor
      · intro h0; cases h0
      · intro h0; exact absurd h (h0 (a, b) (Or.inl rfl))
    · simp only [firstContaining, h, if_false, ih, List.mem_cons]
      constructor
      · rintro h0 r (hr | hr)
        · subst hr; exact h
        · exact h0 r hr
      · intro h0 r hr
        exact h0 r (Or.inr hr)

theorem firstContaining_some (x : Int) (l : List Range) (r : Range)
    (h : firstContaining x l = some r) : r ∈ l ∧ r.1 ≤ x ∧ x ≤ r.2 := by
  induction l with
  | nil => simp [firstContaining] at h
  | cons hd tl ih =>
    obtain ⟨a, b⟩ := hd
    by_cases h1 : a ≤ x ∧ x ≤ b
    · simp only [firstContaining, h1, and_self, if_true, Option.some.injEq] at h
      subst h
      exact ⟨List.mem_cons_self _ _, h1⟩
    · simp only [firstContaining, h1, if_false] at h
      obtain ⟨h2, h3⟩ := ih h
      exact ⟨List.mem_cons_of_mem _ h2, h3⟩

theorem mem_sortByStart (r : Range) (l : List Range) : r ∈ sortByStart l ↔ r ∈ l :=
  (List.perm_insertionSort _ l).mem_iff

/-- When the loop returns, no range of the sorted list contains the result. -/
theorem advanceLoop_some_not_contained (limit : Int) (sorted : List Range) :
    ∀ (fuel : Nat) (x r : Int), advanceLoop limit sorted fuel x = some r →
      firstContaining r sorted = none := by
  intro fuel
  induction fuel with
  | zero => intro x r h; simp [advanceLoop] at h
  | succ n ih =>
    intro x r h
    unfold advanceLoop at h
    cases hp : scanPass limit sorted x with
    | none =>
      rw [hp] at h
      simp only [Option.some.injEq] at h
      subst h
      unfold scanPass at hp
      cases hf : firstContaining x sorted with
      | none => rfl
      | some q =>
        rw [hf] at hp
        obtain ⟨q1, q2⟩ := q
        simp only at hp
        split at hp <;> cases hp
    | some y =>
      rw [hp] at h
      exact ih y r h

/-- A value that no range contains is returned unchanged by the loop. -/
theorem advanceLoop_of_not_contained (limit : Int) (sorted : List Range) (fuel : Nat)
    (x : Int) (h : firstContaining x sorted = none) :
    advanceLoop limit sorted (fuel + 1) x = some x := by
  simp [advanceLoop, scanPass, h]

/-- More fuel does not change a returned value. -/
theorem advanceLoop_mono (limit : Int) (sorted : List Range) :
    ∀ (fuel : Nat) (x r : Int) (extra : Nat), advanceLoop limit sorted fuel x = some r →
      advanceLoop limit sorted (fuel + extra) x = some r := by
  intro fuel
  induction fuel with
  | zero => intro x r extra h; simp [advanceLoop] at h
  | succ n ih =>
    intro x r extra h
    have e : n + 1 + extra = (n + extra) + 1 := by omega
    rw [e]
    unfold advanceLoop at h ⊢
    cases hp : scanPass limit sorted x with
    | none => rw [hp] at h; simpa using h
    | some y =>
      rw [hp] at h
      simp only
      exact ih y r extra h

theorem advanceLoop_det (limit : Int) (sorted : List Range) (f1 f2 : Nat) (x a b : Int)
    (h1 : advanceLoop limit sorted f1 x = some a)
    (h2 : advanceLoop limit sorted f2 x = some b) : a = b := by
  have e1 := advanceLoop_mono limit sorted f1 x a f2 h1
  have e2 := advanceLoop_mono limit sorted f2 x b f1 h2
  rw [Nat.add_comm] at e2
  rw [e1] at e2
  exact Option.some.inj e2


/-! ## Facts about `findNextValidStartLocal` -/

theorem findNextValidStartLocal_det (f1 f2 : Nat) (s : Session) (x a b : Int)
    (h1 : findNextValidStartLocal f1 s x = some a)
    (h2 : findNextValidStartLocal f2 s x = some b) : a = b := by
  unfold findNextValidStartLocal at h1 h2
  by_cases h0 : s.paused.length = 0
  · rw [if_pos h0] at h1 h2
    rw [h1] at h2; exact Option.some.inj h2
  · rw [if_neg h0] at h1 h2
    exact advanceLoop_det _ _ f1 f2 x a b h1 h2

/-- The value returned lies in no paused range. -/
theorem findNextValidStartLocal_not_paused (fuel : Nat) (s : Session) (x r : Int)
    (h : findNextValidStartLocal fuel s x = some r) :
    ∀ p ∈ s.paused, ¬ (p.1 ≤ r ∧ r ≤ p.2) := by
  unfold findNextValidStartLocal at h
  split at h
  · rename_i h0
    intro p hp
    rw [List.length_eq_zero] at h0
    rw [h0] at hp
    cases hp
  · intro p hp
    have h1 := advanceLoop_some_not_contained _ _ fuel x r h
    rw [firstContaining_eq_none_iff] at h1
    exact h1 p ((mem_sortByStart p s.paused).2 hp)

/-- The function is idempotent: a returned value is a fixed point. -/
theorem findNextValidStartLocal_idem (fuel : Nat) (s : Session) (x r : Int)
    (h : findNextValidStartLocal fuel s x = some r) :
    findNextValidStartLocal fuel s r = some r := by
  unfold findNextValidStartLocal at h ⊢
  split at h
  · simp only [Option.some.injEq] at h
    rw [if_pos (by assumption)]
    subst h
    split <;> simp_all
  · rw [if_neg (by assumption)]
    have h1 := advanceLoop_some_not_contained _ _ fuel x r h
    cases fuel with
    | zero => simp [advanceLoop] at h
    | succ n => exact advanceLoop_of_not_contained _ _ n r h1

theorem one_le_jsAdd_one (pe : Int) (h : 0 ≤ pe) : 1 ≤ jsAdd pe 1 :=
  le_roundDouble 1 (pe + 1) (by omega) (by omega) (by omega)

theorem wrapToStart_pos (limit : Int) (sorted : List Range)
    (hp : ∀ p ∈ sorted, 0 ≤ p.2) : 1 ≤ wrapToStart limit sorted := by
  unfold wrapToStart
  cases hf : firstContaining 1 sorted with
  | none => simp
  | some q =>
    obtain ⟨q1, q2⟩ := q
    have := hp _ (firstContaining_some _ _ _ hf).1
    simp only at this ⊢
    have hj := one_le_jsAdd_one q2 this
    split <;> omega

theorem advanceLoop_pos (limit : Int) (sorted : List Range)
    (hp : ∀ p ∈ sorted, 0 ≤ p.2) :
    ∀ (fuel : Nat) (x r : Int), 1 ≤ x → advanceLoop limit sorted fuel x = some r →
      1 ≤ r := by
  intro fuel
  induction fuel with
  | zero => intro x r _ h; simp [advanceLoop] at h
  | succ n ih =>
    intro x r hx h
    unfold advanceLoop at h
    cases hs : scanPass limit sorted x with
    | none =>
      rw [hs] at h
      simp only [Option.some.injEq] at h
      omega
    | some y =>
      rw [hs] at h
      refine ih y r ?_ h
      unfold scanPass at hs
      cases hf : firstContaining x sorted with
      | none => rw [hf] at hs; cases hs
      | some q =>
        rw [hf] at hs
        obtain ⟨q1, q2⟩ := q
        have h2 := hp _ (firstContaining_some _ _ _ hf).1
        simp only at hs h2
        have hj := one_le_jsAdd_one q2 h2
        split at hs
        · simp only [Option.some.injEq] at hs
          rw [← hs]
          exact wrapToStart_pos limit sorted hp
        · simp only [Option.some.injEq] at hs
          omega

/-- From a start of at least `1`, with paused ranges ending at `0` or later, the
value returned is at least `1`. -/
theorem findNextValidStartLocal_pos (fuel : Nat) (s : Session) (x r : Int)
    (hp : ∀ p ∈ s.paused, 0 ≤ p.2) (hx : 1 ≤ x)
    (h : findNextValidStartLocal fuel s x = some r) : 1 ≤ r := by
  unfold findNextValidStartLocal at h
  split at h
  · simp only [Option.some.injEq] at h
    split at h <;> omega
  · refine advanceLoop_pos s.limit (sortByStart s.paused) ?_ fuel x r hx h
    intro p hp1
    exact hp p ((mem_sortByStart p s.paused).1 hp1)

/-! ## The token decision of `generateSingleIntervalLocal` -/

/-- The result of `generateSingleIntervalLocal` spelled out: the candidate start, the
token chosen by the ordered tests, and the next cursor. -/
theorem generateSingleIntervalLocal_spec (fuel : Nat) (s : Session) (start step : Int)
    (tok : Token) (next : Int)
    (h : generateSingleIntervalLocal fuel s start step = some (tok, next)) :
    ∃ c, findNextValidStartLocal fuel s start = some c ∧
      ((proposedEndOf c step > s.limit ∧ tok = Token.limite ∧
          findNextValidStartLocal fuel s 1 = some next) ∨
       (proposedEndOf c step ≤ s.limit ∧
          findNextValidStartLocal fuel s (jsAdd (proposedEndOf c step) 1) = some next ∧
          ((isIntervalInPausedLocal c (proposedEndOf c step) s = true ∧ tok = Token.pause) ∨
           (isIntervalInPausedLocal c (proposedEndOf c step) s = false ∧
              isIntervalInPastLocal c (proposedEndOf c step) s.hist = true ∧
              tok = Token.reused) ∨
           (isIntervalInPausedLocal c (proposedEndOf c step) s = false ∧
              isIntervalInPastLocal c (proposedEndOf c step) s.hist = false ∧
              tok = Token.interval c (proposedEndOf c step))))) := by
  unfold generateSingleIntervalLocal at h
  cases hc : findNextValidStartLocal fuel s start with
  | none => rw [hc] at h; cases h
  | some c =>
    rw [hc] at h
    refine ⟨c, rfl, ?_⟩
    simp only at h
    by_cases h1 : proposedEndOf c step > s.limit
    · rw [if_pos h1] at h
      left
      cases hn : findNextValidStartLocal fuel s 1 with
      | none => rw [hn] at h; cases h
      | some n =>
        rw [hn] at h
        simp only [Option.some.injEq, Prod.mk.injEq] at h
        exact ⟨h1, h.1.symm, by rw [h.2]⟩
    · rw [if_neg h1] at h
      right
      refine ⟨by omega, ?_⟩
      cases hn : findNextValidStartLocal fuel s (jsAdd (proposedEndOf c step) 1) with
      | none =>
        rw [hn] at h
        split at h
        · cases h
        · split at h <;> cases h
      | some n =>
        rw [hn] at h
        cases hpz : isIntervalInPausedLocal c (proposedEndOf c step) s with
        | true =>
          rw [hpz] at h
          simp only [if_true, Option.some.injEq, Prod.mk.injEq] at h
          exact ⟨by rw [h.2], Or.inl ⟨rfl, h.1.symm⟩⟩
        | false =>
          rw [hpz] at h
          cases hpt : isIntervalInPastLocal c (proposedEndOf c step) s.hist with
          | true =>
            rw [hpt] at h
            simp only [Bool.false_eq_true, if_false, if_true, Option.some.injEq,
              Prod.mk.injEq] at h
            exact ⟨by rw [h.2], Or.inr (Or.inl ⟨rfl, rfl, h.1.symm⟩)⟩
          | false =>
            rw [hpt] at h
            simp only [Bool.false_eq_true, if_false, Option.some.injEq, Prod.mk.injEq] at h
            exact ⟨by rw [h.2], Or.inr (Or.inr ⟨rfl, rfl, h.1.symm⟩)⟩


/-! ## The plan seen column by column -/

/-- One row: every session gets exactly one call of `generateSingleIntervalLocal`, on
its own cursor, and the call gives the session's token and its next cursor. -/
theorem generateRow_spec (fuel : Nat) :
    ∀ (ss : List Session) (pos : List Int) (row : List Token) (next : List Int),
      generateRow fuel ss pos = some (row, next) →
      row.length = ss.length ∧ next.length = ss.length ∧
      ∀ (k : Nat) (s : Session), ss[k]? = some s →
        ∃ p tok nx, pos[k]? = some p ∧
          generateSingleIntervalLocal fuel s p s.step = some (tok, nx) ∧
          row[k]? = some tok ∧ next[k]? = some nx := by
  intro ss
  induction ss with
  | nil =>
    intro pos row next h
    simp only [generateRow, Option.some.injEq, Prod.mk.injEq] at h
    obtain ⟨h1, h2⟩ := h
    subst h1; subst h2
    simp
  | cons s rest ih =>
    intro pos row next h
    cases pos with
    | nil => simp [generateRow] at h
    | cons p ps =>
      unfold generateRow at h
      cases hg : generateSingleIntervalLocal fuel s p s.step with
      | none => rw [hg] at h; cases h
      | some tn =>
        obtain ⟨tok, nx⟩ := tn
        rw [hg] at h
        simp only at h
        cases hr : generateRow fuel rest ps with
        | none => rw [hr] at h; cases h
        | some rn =>
          obtain ⟨row1, next1⟩ := rn
          rw [hr] at h
          simp only [Option.some.injEq, Prod.mk.injEq] at h
          obtain ⟨h1, h2⟩ := h
          subst h1; subst h2
          obtain ⟨i1, i2, i3⟩ := ih ps row1 next1 hr
          refine ⟨by simp [i1], by simp [i2], ?_⟩
          intro k s1 hk
          cases k with
          | zero =>
            simp only [List.getElem?_cons_zero, Option.some.injEq] at hk
            subst hk
            exact ⟨p, tok, nx, by simp, hg, by simp, by simp⟩
          | succ j =>
            simp only [List.getElem?_cons_succ] at hk
            obtain ⟨p1, tok1, nx1, j1, j2, j3, j4⟩ := i3 j s1 hk
            exact ⟨p1, tok1, nx1, by simpa using j1, j2, by simpa using j3, by simpa using j4⟩

/-- The rows of one pass: there are `drops` of them, each as long as the list of
sessions, and the tokens of session `k` over the rows are those of `sessionColumn`. -/
theorem generateRows_column (fuel : Nat) (ss : List Session) :
    ∀ (drops : Nat) (pos : List Int) (rows : List (List Token)),
      generateRows fuel ss drops pos = some rows →
      rows.length = drops ∧ (∀ row ∈ rows, row.length = ss.length) ∧
      ∀ (k : Nat) (s : Session) (p : Int), ss[k]? = some s → pos[k]? = some p →
        ∃ col, sessionColumn fuel s drops p = some col ∧
          rows.map (fun row => row[k]?) = col.map (fun c => some c.1) := by
  intro drops
  induction drops with
  | zero =>
    intro pos rows h
    simp only [generateRows, Option.some.injEq] at h
    subst h
    refine ⟨rfl, by simp, ?_⟩
    intro k s p _ _
    exact ⟨[], rfl, rfl⟩
  | succ n ih =>
    intro pos rows h
    unfold generateRows at h
    cases hr : generateRow fuel ss pos with
    | none => rw [hr] at h; cases h
    | some rn =>
      obtain ⟨row, next⟩ := rn
      rw [hr] at h
      simp only at h
      cases hrs : generateRows fuel ss n next with
      | none => rw [hrs] at h; cases h
      | some rest =>
        rw [hrs] at h
        simp only [Option.some.injEq] at h
        subst h
        obtain ⟨r1, _, r3⟩ := generateRow_spec fuel ss pos row next hr
        obtain ⟨i1, i2, i3⟩ := ih next rest hrs
        refine ⟨by simp [i1], ?_, ?_⟩
        · intro x hx
          rcases List.mem_cons.1 hx with hx | hx
          · rw [hx]; exact r1
          · exact i2 x hx
        · intro k s p hk hp
          obtain ⟨p1, tok, nx, j1, j2, j3, j4⟩ := r3 k s hk
          rw [hp] at j1
          simp only [Option.some.injEq] at j1
          subst j1
          obtain ⟨col, c1, c2⟩ := i3 k s nx hk j4
          refine ⟨(tok, nx) :: col, ?_, ?_⟩
          · simp [sessionColumn, j2, c1]
          · simp [j3, c2]

theorem initialPositions_spec (fuel : Nat) :
    ∀ (ss : List Session) (pos : List Int), initialPositions fuel ss = some pos →
      ∀ (k : Nat) (s : Session), ss[k]? = some s →
        ∃ p, pos[k]? = some p ∧ getNextStartPositionLocal fuel s = some p := by
  intro ss
  induction ss with
  | nil => intro pos _ k s hk; simp at hk
  | cons s rest ih =>
    intro pos h k s1 hk
    unfold initialPositions at h
    cases hg : getNextStartPositionLocal fuel s with
    | none => rw [hg] at h; cases h
    | some p =>
      rw [hg] at h
      simp only at h
      cases hi : initialPositions fuel rest with
      | none => rw [hi] at h; cases h
      | some ps =>
        rw [hi] at h
        simp only [Option.some.injEq] at h
        subst h
        cases k with
        | zero =>
          simp only [List.getElem?_cons_zero, Option.some.injEq] at hk
          subst hk
          exact ⟨p, by simp, hg⟩
        | succ j =>
          simp only [List.getElem?_cons_succ] at hk
          obtain ⟨p1, j1, j2⟩ := ih ps hi j s1 hk
          exact ⟨p1, by simpa using j1, j2⟩

/-- The plan of tokens: `numDrops` rows of one token per session, the column of
session `k` being the successive calls of `generateSingleIntervalLocal` for that
session, started at its initial cursor. -/
theorem generatePlanTokens_column (fuel : Nat) (numDrops : Int) (ss : List Session)
    (rows : List (List Token)) (h : generatePlanTokens fuel numDrops ss = some rows) :
    rows.length = numDrops.toNat ∧ (∀ row ∈ rows, row.length = ss.length) ∧
    ∀ (k : Nat) (s : Session), ss[k]? = some s →
      ∃ p col, getNextStartPositionLocal fuel s = some p ∧
        sessionColumn fuel s numDrops.toNat p = some col ∧
        rows.map (fun row => row[k]?) = col.map (fun c => some c.1) := by
  unfold generatePlanTokens at h
  cases hi : initialPositions fuel ss with
  | none => rw [hi] at h; cases h
  | some pos =>
    rw [hi] at h
    simp only at h
    obtain ⟨i1, i2, i3⟩ := generateRows_column fuel ss numDrops.toNat pos rows h
    refine ⟨i1, i2, ?_⟩
    intro k s hk
    obtain ⟨p, j1, j2⟩ := initialPositions_spec fuel ss pos hi k s hk
    obtain ⟨col, c1, c2⟩ := i3 k s p hk j1
    exact ⟨p, col, j2, c1, c2⟩

/-- Reading one cell of the plan in the column of its session. -/
theorem column_cell (rows : List (List Token)) (col : List (Token × Int)) (k r : Nat)
    (row : List Token) (tok : Token)
    (h : rows.map (fun row => row[k]?) = col.map (fun c => some c.1))
    (hr : rows[r]? = some row) (ht : row[k]? = some tok) :
    ∃ nx, col[r]? = some (tok, nx) := by
  have h1 : (rows.map (fun row => row[k]?))[r]? = some (some tok) := by
    rw [List.getElem?_map, hr]; simp [ht]
  rw [h, List.getElem?_map] at h1
  cases hc : col[r]? with
  | none => rw [hc] at h1; cases h1
  | some c =>
    rw [hc] at h1
    obtain ⟨c1, c2⟩ := c
    simp only [Option.map_some', Option.some.injEq] at h1
    subst h1
    exact ⟨c2, rfl⟩


/-! ## Invariants along one column -/

/-- An invariant of the cursor that every call preserves holds along the column, and
so does what each call guarantees about its token and next cursor. -/
theorem sessionColumn_invariant (fuel : Nat) (s : Session) (Inv : Int → Prop)
    (Q : Token → Int → Prop)
    (hstep : ∀ c tok nx, Inv c →
      generateSingleIntervalLocal fuel s c s.step = some (tok, nx) → Q tok nx ∧ Inv nx) :
    ∀ (drops : Nat) (c : Int) (col : List (Token × Int)), Inv c →
      sessionColumn fuel s drops c = some col → ∀ x ∈ col, Q x.1 x.2 := by
  intro drops
  induction drops with
  | zero =>
    intro c col _ h x hx
    simp only [sessionColumn, Option.some.injEq] at h
    subst h
    cases hx
  | succ n ih =>
    intro c col hc h x hx
    unfold sessionColumn at h
    cases hg : generateSingleIntervalLocal fuel s c s.step with
    | none => rw [hg] at h; cases h
    | some tn =>
      obtain ⟨tok, nx⟩ := tn
      rw [hg] at h
      simp only at h
      cases hr : sessionColumn fuel s n nx with
      | none => rw [hr] at h; cases h
      | some rest =>
        rw [hr] at h
        simp only [Option.some.injEq] at h
        subst h
        obtain ⟨q, i⟩ := hstep c tok nx hc hg
        rcases List.mem_cons.1 hx with hx | hx
        · subst hx; exact q
        · exact ih nx rest i hr x hx

/-- The first call of a column starts from the initial cursor; every later call starts
from the cursor the previous call returned. -/
theorem sessionColumn_calls (fuel : Nat) (s : Session) :
    ∀ (drops : Nat) (c : Int) (col : List (Token × Int)),
      sessionColumn fuel s drops c = some col →
      (∀ t n, col[0]? = some (t, n) →
        generateSingleIntervalLocal fuel s c s.step = some (t, n)) ∧
      (∀ m t1 n1 t2 n2, col[m]? = some (t1, n1) → col[m + 1]? = some (t2, n2) →
        generateSingleIntervalLocal fuel s n1 s.step = some (t2, n2)) := by
  intro drops
  induction drops with
  | zero =>
    intro c col h
    simp only [sessionColumn, Option.some.injEq] at h
    subst h
    simp
  | succ n ih =>
    intro c col h
    unfold sessionColumn at h
    cases hg : generateSingleIntervalLocal fuel s c s.step with
    | none => rw [hg] at h; cases h
    | some tn =>
      obtain ⟨tok, nx⟩ := tn
      rw [hg] at h
      simp only at h
      cases hr : sessionColumn fuel s n nx with
      | none => rw [hr] at h; cases h
      | some rest =>
        rw [hr] at h
        simp only [Option.some.injEq] at h
        subst h
        obtain ⟨i1, i2⟩ := ih nx rest hr
        constructor
        · intro t n1 h0
          simp only [List.getElem?_cons_zero, Option.some.injEq] at h0
          rw [h0]
        · intro m t1 n1 t2 n2 h1 h2
          simp only [List.getElem?_cons_succ] at h2
          cases m with
          | zero =>
            simp only [List.getElem?_cons_zero, Option.some.injEq, Prod.mk.injEq] at h1
            rw [← h1.2]
            exact i1 t2 n2 h2
          | succ j =>
            simp only [List.getElem?_cons_succ] at h1
            exact i2 j t1 n1 t2 n2 h1 h2

/-- A column has one entry per row. -/
theorem sessionColumn_length (fuel : Nat) (s : Session) :
    ∀ (drops : Nat) (c : Int) (col : List (Token × Int)),
      sessionColumn fuel s drops c = some col → col.length = drops := by
  intro drops
  induction drops with
  | zero =>
    intro c col h
    simp only [sessionColumn, Option.some.injEq] at h
    rw [← h]; rfl
  | succ n ih =>
    intro c col h
    unfold sessionColumn at h
    cases hg : generateSingleIntervalLocal fuel s c s.step with
    | none => rw [hg] at h; cases h
    | some tn =>
      obtain ⟨tok, nx⟩ := tn
      rw [hg] at h
      simp only at h
      cases hr : sessionColumn fuel s n nx with
      | none => rw [hr] at h; cases h
      | some rest =>
        rw [hr] at h
        simp only [Option.some.injEq] at h
        rw [← h, List.length_cons, ih nx rest hr]

/-- The next cursor of every call is a value returned by `findNextValidStartLocal`. -/
theorem generateSingleIntervalLocal_next (fuel : Nat) (s : Session) (start step : Int)
    (tok : Token) (next : Int)
    (h : generateSingleIntervalLocal fuel s start step = some (tok, next)) :
    ∃ x, findNextValidStartLocal fuel s x = some next := by
  obtain ⟨c, _, h1 | h1⟩ := generateSingleIntervalLocal_spec fuel s start step tok next h
  · exact ⟨1, h1.2.2⟩
  · exact ⟨_, h1.2.1⟩

theorem getNextStartPositionLocal_pos (fuel : Nat) (s : Session) (p : Int)
    (hp : ∀ q ∈ s.paused, 0 ≤ q.2) (hh : ∀ q ∈ s.hist, 0 ≤ q.2)
    (h : getNextStartPositionLocal fuel s = some p) : 1 ≤ p := by
  unfold getNextStartPositionLocal at h
  cases hl : s.hist.getLast? with
  | none =>
    rw [hl] at h
    simp only [Option.some.injEq] at h
    omega
  | some q =>
    obtain ⟨q1, q2⟩ := q
    rw [hl] at h
    simp only at h
    have h1 := hh _ (List.mem_of_getLast?_eq_some hl)
    simp only at h1
    refine findNextValidStartLocal_pos fuel s _ p hp ?_ h
    have hj := one_le_jsAdd_one q2 h1
    split <;> omega

/-- When the integers `c + step - 1` and `c + step` lie between `-2 ^ 53` and `2 ^ 53`,
the proposed end and the position after it are computed without rounding. -/
theorem proposedEndOf_eq (c step : Int) (h1 : -9007199254740992 ≤ c + step - 1)
    (h2 : c + step ≤ 9007199254740992) :
    proposedEndOf c step = c + step - 1 ∧ jsAdd (proposedEndOf c step) 1 = c + step := by
  have e : proposedEndOf c step = c + step - 1 := by
    unfold proposedEndOf
    rw [jsAdd_exact c step (by omega) h2, jsSub_exact _ _ (by omega) (by omega)]
  refine ⟨e, ?_⟩
  rw [e, jsAdd_exact _ _ (by omega) (by omega)]
  omega

/-- A proposed end of at most `2 ^ 53 - 2`, for a start and a step of at least `1`, was
computed without rounding. -/
theorem proposedEndOf_exact (c step : Int) (hc : 1 ≤ c) (hstep : 1 ≤ step)
    (h : proposedEndOf c step ≤ 9007199254740990) :
    c + step ≤ 9007199254740992 ∧ proposedEndOf c step = c + step - 1 := by
  have hsum : c + step ≤ 9007199254740992 := by
    by_contra hcon
    have h1 : 9007199254740992 ≤ jsAdd c step := roundDouble_ge_of_large (c + step) (by omega)
    have h2 : 9007199254740991 ≤ jsSub (jsAdd c step) 1 :=
      le_roundDouble 9007199254740991 (jsAdd c step - 1) (by omega) (by omega) (by omega)
    unfold proposedEndOf at h
    omega
  refine ⟨hsum, ?_⟩
  unfold proposedEndOf
  rw [jsAdd_exact c step (by omega) hsum, jsSub_exact _ _ (by omega) (by omega)]

/-- With a cursor of at least `1`, a step of at least `1`, paused ranges ending at `0`
or later and a limit of at most `2 ^ 53 - 2`, a call returns a next cursor of at least
`1`, and an interval token it emits starts at `1` or later, ends within the limit and
has the length of the step. -/
theorem generateSingleIntervalLocal_bounds (fuel : Nat) (s : Session) (c : Int)
    (tok : Token) (nx : Int) (hstep : 1 ≤ s.step) (hp : ∀ q ∈ s.paused, 0 ≤ q.2)
    (hlim : s.limit ≤ 9007199254740990)
    (hc : 1 ≤ c) (h : generateSingleIntervalLocal fuel s c s.step = some (tok, nx)) :
    (∀ a b, tok = Token.interval a b →
      1 ≤ a ∧ a ≤ b ∧ b ≤ s.limit ∧ b - a + 1 = s.step) ∧ 1 ≤ nx := by
  obtain ⟨c0, h0, h1 | h1⟩ := generateSingleIntervalLocal_spec fuel s c s.step tok nx h
  · obtain ⟨_, h2, h3⟩ := h1
    refine ⟨?_, findNextValidStartLocal_pos fuel s 1 nx hp (le_refl 1) h3⟩
    intro a b hab
    rw [h2] at hab
    cases hab
  · obtain ⟨h2, h3, h4⟩ := h1
    have hc0 := findNextValidStartLocal_pos fuel s c c0 hp hc h0
    obtain ⟨hsum, hex⟩ := proposedEndOf_exact c0 s.step hc0 hstep (by omega)
    have hnext : jsAdd (proposedEndOf c0 s.step) 1 = c0 + s.step := by
      rw [hex, jsAdd_exact _ _ (by omega) (by omega)]
      omega
    refine ⟨?_, findNextValidStartLocal_pos fuel s _ nx hp (by omega) h3⟩
    intro a b hab
    rcases h4 with ⟨_, h5⟩ | ⟨_, _, h5⟩ | ⟨_, _, h5⟩
    · rw [h5] at hab; cases hab
    · rw [h5] at hab; cases hab
    · rw [h5] at hab
      simp only [Token.interval.injEq] at hab
      obtain ⟨e1, e2⟩ := hab
      subst e1; subst e2
      refine ⟨hc0, by omega, h2, by omega⟩


/-! ## Interval tokens stay on the track and off the paused ranges -/

/-- C1, as stated, fails: with step `2`, limit `2 ^ 53 + 4` and the historical range
`[1, 2 ^ 53 - 1]` the first call starts at `2 ^ 53`, and the proposed end
`2 ^ 53 + 2 - 1` rounds to `2 ^ 53`: the token is `2 ^ 53`-`2 ^ 53`, of length `1`. -/
theorem interval_length_rounded_beyond_two_pow_53 :
    generatePlanTokens 0 1 [⟨2, 9007199254740996, [], [(1, 9007199254740991)]⟩] =
        some [[Token.interval 9007199254740992 9007199254740992]] ∧
      ¬ (∀ (fuel : Nat) (numDrops : Int) (ss : List Session) (rows : List (List Token))
        (k : Nat) (s : Session) (r : Nat) (row : List Token) (a b : Int),
        generatePlanTokens fuel numDrops ss = some rows → ss[k]? = some s → 1 ≤ s.step →
        (∀ q ∈ s.paused, 1 ≤ q.1 ∧ 1 ≤ q.2 ∧ q.1 ≤ q.2) →
        (∀ q ∈ s.hist, 1 ≤ q.1 ∧ 1 ≤ q.2 ∧ q.1 ≤ q.2) →
        rows[r]? = some row → row[k]? = some (Token.interval a b) →
        1 ≤ a ∧ a ≤ b ∧ b ≤ s.limit ∧ b - a + 1 = s.step) := by
  refine ⟨by decide, ?_⟩
  intro hall
  have := hall 0 1 [⟨2, 9007199254740996, [], [(1, 9007199254740991)]⟩]
    [[Token.interval 9007199254740992 9007199254740992]] 0
    ⟨2, 9007199254740996, [], [(1, 9007199254740991)]⟩ 0
    [Token.interval 9007199254740992 9007199254740992] 9007199254740992 9007199254740992
    (by decide) (by decide) (by decide) (by decide) (by decide) (by decide) (by decide)
  simp at this

/-- C1, amended: for a session with step at least `1`, limit at most `2 ^ 53 - 2` and
paused and historical ranges with endpoints at least `1` and start at most end, every
interval token `a-b` that `generatePlanWithData` puts in the column of that session
satisfies `1 ≤ a ≤ b ≤ limit` and `b - a + 1 = step`. -/
theorem interval_token_within_track (fuel : Nat) (numDrops : Int) (ss : List Session)
    (rows : List (List Token)) (k : Nat) (s : Session) (r : Nat) (row : List Token)
    (a b : Int)
    (hplan : generatePlanTokens fuel numDrops ss = some rows)
    (hk : ss[k]? = some s) (hstep : 1 ≤ s.step)
    (hlim : s.limit ≤ 9007199254740990)
    (hp : ∀ q ∈ s.paused, 1 ≤ q.1 ∧ 1 ≤ q.2 ∧ q.1 ≤ q.2)
    (hh : ∀ q ∈ s.hist, 1 ≤ q.1 ∧ 1 ≤ q.2 ∧ q.1 ≤ q.2)
    (hr : rows[r]? = some row) (ht : row[k]? = some (Token.interval a b)) :
    1 ≤ a ∧ a ≤ b ∧ b ≤ s.limit ∧ b - a + 1 = s.step := by
  obtain ⟨_, _, hcol⟩ := generatePlanTokens_column fuel numDrops ss rows hplan
  obtain ⟨p, col, h1, h2, h3⟩ := hcol k s hk
  obtain ⟨nx, h4⟩ := column_cell rows col k r row _ h3 hr ht
  have hp0 : ∀ q ∈ s.paused, 0 ≤ q.2 := fun q hq => by have := hp q hq; omega
  have hh0 : ∀ q ∈ s.hist, 0 ≤ q.2 := fun q hq => by have := hh q hq; omega
  have hp1 := getNextStartPositionLocal_pos fuel s p hp0 hh0 h1
  have key := sessionColumn_invariant fuel s (fun c => 1 ≤ c)
    (fun tok _ => ∀ a b, tok = Token.interval a b →
      1 ≤ a ∧ a ≤ b ∧ b ≤ s.limit ∧ b - a + 1 = s.step)
    (fun c tok nx hc hg =>
      generateSingleIntervalLocal_bounds fuel s c tok nx hstep hp0 hlim hc hg)
    numDrops.toNat p col hp1 h2 _ (List.getElem?_mem h4)
  exact key a b rfl

theorem interval_token_within_track_witness :
    generatePlanTokens 5 2 [⟨2, 10, [(3, 4)], [(1, 2)]⟩] =
        some [[Token.interval 5 6], [Token.interval 7 8]] ∧
      ((1 : Int) ≤ 7 ∧ (7 : Int) ≤ 8 ∧ (8 : Int) ≤ 10 ∧ (8 : Int) - 7 + 1 = 2) :=
  ⟨by decide,
   interval_token_within_track 5 2 [⟨2, 10, [(3, 4)], [(1, 2)]⟩]
     [[Token.interval 5 6], [Token.interval 7 8]] 0 ⟨2, 10, [(3, 4)], [(1, 2)]⟩ 1
     [Token.interval 7 8] 7 8 (by decide) (by decide) (by decide) (by decide) (by decide)
     (by decide) (by decide) (by decide)⟩

/-- C2: every interval token `a-b` emitted in the column of a session overlaps none of
the paused ranges of that session: no paused range `[ps, pe]` has `a ≤ pe` and
`ps ≤ b`. -/
theorem interval_token_avoids_paused (fuel : Nat) (numDrops : Int) (ss : List Session)
    (rows : List (List Token)) (k : Nat) (s : Session) (r : Nat) (row : List Token)
    (a b : Int)
    (hplan : generatePlanTokens fuel numDrops ss = some rows)
    (hk : ss[k]? = some s)
    (hr : rows[r]? = some row) (ht : row[k]? = some (Token.interval a b)) :
    ∀ q ∈ s.paused, ¬ (a ≤ q.2 ∧ q.1 ≤ b) := by
  obtain ⟨_, _, hcol⟩ := generatePlanTokens_column fuel numDrops ss rows hplan
  obtain ⟨p, col, h1, h2, h3⟩ := hcol k s hk
  obtain ⟨nx, h4⟩ := column_cell rows col k r row _ h3 hr ht
  have key := sessionColumn_invariant fuel s (fun _ => True)
    (fun tok _ => ∀ a b, tok = Token.interval a b →
      ∀ q ∈ s.paused, ¬ (a ≤ q.2 ∧ q.1 ≤ b))
    (fun c tok nx _ hg => by
      refine ⟨?_, trivial⟩
      intro a b hab q hq hov
      obtain ⟨c0, _, h5 | h5⟩ := generateSingleIntervalLocal_spec fuel s c s.step tok nx hg
      · rw [h5.2.1] at hab; cases hab
      · rcases h5.2.2 with ⟨_, h6⟩ | ⟨_, _, h6⟩ | ⟨h7, _, h6⟩
        · rw [h6] at hab; cases hab
        · rw [h6] at hab; cases hab
        · rw [h6] at hab
          simp only [Token.interval.injEq] at hab
          obtain ⟨e1, e2⟩ := hab
          subst e1; subst e2
          have h8 : isIntervalInPausedLocal c0 (proposedEndOf c0 s.step) s = true :=
            (isIntervalOverlappingLocal_iff _ _ _).2 ⟨q, hq, hov⟩
          rw [h7] at h8
          cases h8)
    numDrops.toNat p col trivial h2 _ (List.getElem?_mem h4)
  exact key a b rfl

theorem interval_token_avoids_paused_witness :
    generatePlanTokens 5 2 [⟨3, 9, [(2, 3), (7, 7)], []⟩] =
        some [[Token.pause], [Token.interval 4 6]] ∧
      ∀ q ∈ [((2 : Int), (3 : Int)), (7, 7)], ¬ ((4 : Int) ≤ q.2 ∧ q.1 ≤ (6 : Int)) :=
  ⟨by decide,
   interval_token_avoids_paused 5 2 [⟨3, 9, [(2, 3), (7, 7)], []⟩]
     [[Token.pause], [Token.interval 4 6]] 0 ⟨3, 9, [(2, 3), (7, 7)], []⟩ 1
     [Token.interval 4 6] 4 6 (by decide) (by decide) (by decide) (by decide)⟩


/-! ## A fully paused track -/

/-- With the single paused range `[1, 5]` on a track of limit `5`, every iteration of
the loop started at `1` comes back to `1` with `changed = true`. -/
theorem advanceLoop_full_cover (fuel : Nat) : advanceLoop 5 [(1, 5)] fuel 1 = none := by
  induction fuel with
  | zero => rfl
  | succ n ih =>
    have h : scanPass 5 [(1, 5)] 1 = some 1 := by decide
    simp only [advanceLoop, h]
    exact ih

/-- C4: on the session with limit `5` whose only paused range is `[1, 5]`, the loop of
`findNextValidStartLocal` started at `1` has not returned after any number of
iterations, and `generatePlanWithData` produces neither a plan nor a fault: no bound
on the loop exists. -/
theorem full_cover_never_returns (fuel : Nat) :
    findNextValidStartLocal fuel ⟨1, 5, [(1, 5)], []⟩ 1 = none ∧
      generatePlanWithData fuel 1 [⟨1, 5, [(1, 5)], []⟩] = none := by
  have h1 : findNextValidStartLocal fuel ⟨1, 5, [(1, 5)], []⟩ 1 = none := by
    have h0 : sortByStart [((1 : Int), (5 : Int))] = [(1, 5)] := by decide
    simp only [findNextValidStartLocal, List.length_singleton, one_ne_zero, if_false, h0]
    exact advanceLoop_full_cover fuel
  refine ⟨h1, ?_⟩
  have h2 : generatePlanTokens fuel 1 [⟨1, 5, [(1, 5)], []⟩] = none := by
    have h3 : (1 : Int).toNat = 1 := rfl
    simp [generatePlanTokens, initialPositions, getNextStartPositionLocal, h3, generateRows,
      generateRow, generateSingleIntervalLocal, h1]
  simp [generatePlanWithData, h2]

/-! ## The order of the tests in `generateSingleIntervalLocal` -/

/-- C5: whenever `generateSingleIntervalLocal` returns, with `c` the value of
`findNextValidStartLocal start` and `e` the code's `proposedEnd = c + step - 1` (the
double `proposedEndOf c step`), the token is `Limite` exactly
when `e > limit`, `pause` exactly when `e ≤ limit` and `[c, e]` overlaps a paused range,
`X` exactly when `e ≤ limit`, no paused range overlaps `[c, e]` and one historical
range contains it, and the interval `c-e` in the remaining case; the next cursor is
`findNextValidStartLocal 1` for `Limite` and `findNextValidStartLocal (e + 1)` for the
three other tokens. The sums are the ones the code computes on doubles; they are the
integers `c + step - 1` and `c + step` whenever these lie between `-2 ^ 53` and
`2 ^ 53`. -/
theorem token_decided_in_fixed_order (fuel : Nat) (s : Session) (start step : Int)
    (tok : Token) (next : Int)
    (h : generateSingleIntervalLocal fuel s start step = some (tok, next)) :
    ∃ c, findNextValidStartLocal fuel s start = some c ∧
      (-9007199254740992 ≤ c + step - 1 → c + step ≤ 9007199254740992 →
        proposedEndOf c step = c + step - 1 ∧ jsAdd (proposedEndOf c step) 1 = c + step) ∧
      (tok = Token.limite ↔ proposedEndOf c step > s.limit) ∧
      (tok = Token.pause ↔ proposedEndOf c step ≤ s.limit ∧
        ∃ q ∈ s.paused, c ≤ q.2 ∧ q.1 ≤ proposedEndOf c step) ∧
      (tok = Token.reused ↔ proposedEndOf c step ≤ s.limit ∧
        (¬ ∃ q ∈ s.paused, c ≤ q.2 ∧ q.1 ≤ proposedEndOf c step) ∧
        ∃ q ∈ s.hist, q.1 ≤ c ∧ proposedEndOf c step ≤ q.2) ∧
      (tok = Token.interval c (proposedEndOf c step) ↔ proposedEndOf c step ≤ s.limit ∧
        (¬ ∃ q ∈ s.paused, c ≤ q.2 ∧ q.1 ≤ proposedEndOf c step) ∧
        ¬ ∃ q ∈ s.hist, q.1 ≤ c ∧ proposedEndOf c step ≤ q.2) ∧
      (tok = Token.limite ∨ tok = Token.pause ∨ tok = Token.reused ∨
        tok = Token.interval c (proposedEndOf c step)) ∧
      (tok = Token.limite → findNextValidStartLocal fuel s 1 = some next) ∧
      (tok ≠ Token.limite →
        findNextValidStartLocal fuel s (jsAdd (proposedEndOf c step) 1) = some next) := by
  obtain ⟨c, hc, hrest⟩ := generateSingleIntervalLocal_spec fuel s start step tok next h
  refine ⟨c, hc, proposedEndOf_eq c step, ?_⟩
  have hov : ∀ b : Bool, isIntervalInPausedLocal c (proposedEndOf c step) s = b →
      (b = true ↔ ∃ q ∈ s.paused, c ≤ q.2 ∧ q.1 ≤ proposedEndOf c step) := by
    intro b hb
    rw [← hb]
    exact isIntervalOverlappingLocal_iff _ _ _
  have hpa : ∀ b : Bool, isIntervalInPastLocal c (proposedEndOf c step) s.hist = b →
      (b = true ↔ ∃ q ∈ s.hist, q.1 ≤ c ∧ proposedEndOf c step ≤ q.2) := by
    intro b hb
    rw [← hb]
    exact isIntervalInPastLocal_iff _ _ _
  rcases hrest with ⟨h1, h2, h3⟩ | ⟨h1, h3, ⟨h4, h2⟩ | ⟨h4, h5, h2⟩ | ⟨h4, h5, h2⟩⟩
  · subst h2
    refine ⟨by simp [h1], ?_, ?_, ?_, Or.inl rfl, fun _ => h3, fun hne => absurd rfl hne⟩
    · simp only [false_iff, reduceCtorEq]; intro hh; omega
    · simp only [false_iff, reduceCtorEq]; intro hh; omega
    · simp only [false_iff, reduceCtorEq]; intro hh; omega
  · subst h2
    have e := (hov true h4).1 rfl
    refine ⟨?_, ?_, ?_, ?_, Or.inr (Or.inl rfl), (fun hh => by cases hh), fun _ => h3⟩
    · simp only [false_iff, reduceCtorEq]; omega
    · simp only [true_iff]; exact ⟨h1, e⟩
    · simp only [false_iff, reduceCtorEq]; intro hh; exact hh.2.1 e
    · simp only [false_iff, reduceCtorEq]; intro hh; exact hh.2.1 e
  · subst h2
    have e : ¬ ∃ q ∈ s.paused, c ≤ q.2 ∧ q.1 ≤ proposedEndOf c step := fun hh => by
      have := (hov false h4).2 hh; cases this
    have e2 := (hpa true h5).1 rfl
    refine ⟨?_, ?_, ?_, ?_, Or.inr (Or.inr (Or.inl rfl)), (fun hh => by cases hh),
      fun _ => h3⟩
    · simp only [false_iff, reduceCtorEq]; omega
    · simp only [false_iff, reduceCtorEq]; intro hh; exact e hh.2
    · simp only [true_iff]; exact ⟨h1, e, e2⟩
    · simp only [false_iff, reduceCtorEq]; intro hh; exact hh.2.2 e2
  · subst h2
    have e : ¬ ∃ q ∈ s.paused, c ≤ q.2 ∧ q.1 ≤ proposedEndOf c step := fun hh => by
      have := (hov false h4).2 hh; cases this
    have e2 : ¬ ∃ q ∈ s.hist, q.1 ≤ c ∧ proposedEndOf c step ≤ q.2 := fun hh => by
      have := (hpa false h5).2 hh; cases this
    refine ⟨?_, ?_, ?_, ?_, Or.inr (Or.inr (Or.inr rfl)), (fun hh => by cases hh),
      fun _ => h3⟩
    · simp only [false_iff, reduceCtorEq]; omega
    · simp only [false_iff, reduceCtorEq]; intro hh; exact e hh.2
    · simp only [false_iff, reduceCtorEq]; intro hh; exact e2 hh.2.2
    · simp only [true_iff]; exact ⟨h1, e, e2⟩

theorem token_decided_in_fixed_order_witness :
    generateSingleIntervalLocal 5 ⟨3, 5, [(5, 9)], []⟩ 4 3 = some (Token.limite, 1) ∧
      ∃ c, findNextValidStartLocal 5 ⟨3, 5, [(5, 9)], []⟩ 4 = some c ∧
      (-9007199254740992 ≤ c + 3 - 1 → c + 3 ≤ 9007199254740992 →
        proposedEndOf c 3 = c + 3 - 1 ∧ jsAdd (proposedEndOf c 3) 1 = c + 3) ∧
      (Token.limite = Token.limite ↔ proposedEndOf c 3 > 5) ∧
      (Token.limite = Token.pause ↔ proposedEndOf c 3 ≤ 5 ∧
        ∃ q ∈ [((5 : Int), (9 : Int))], c ≤ q.2 ∧ q.1 ≤ proposedEndOf c 3) ∧
      (Token.limite = Token.reused ↔ proposedEndOf c 3 ≤ 5 ∧
        (¬ ∃ q ∈ [((5 : Int), (9 : Int))], c ≤ q.2 ∧ q.1 ≤ proposedEndOf c 3) ∧
        ∃ q ∈ ([] : List Range), q.1 ≤ c ∧ proposedEndOf c 3 ≤ q.2) ∧
      (Token.limite = Token.interval c (proposedEndOf c 3) ↔ proposedEndOf c 3 ≤ 5 ∧
        (¬ ∃ q ∈ [((5 : Int), (9 : Int))], c ≤ q.2 ∧ q.1 ≤ proposedEndOf c 3) ∧
        ¬ ∃ q ∈ ([] : List Range), q.1 ≤ c ∧ proposedEndOf c 3 ≤ q.2) ∧
      (Token.limite = Token.limite ∨ Token.limite = Token.pause ∨
        Token.limite = Token.reused ∨ Token.limite = Token.interval c (proposedEndOf c 3)) ∧
      (Token.limite = Token.limite →
        findNextValidStartLocal 5 ⟨3, 5, [(5, 9)], []⟩ 1 = some 1) ∧
      (Token.limite ≠ Token.limite →
        findNextValidStartLocal 5 ⟨3, 5, [(5, 9)], []⟩ (jsAdd (proposedEndOf c 3) 1) = some 1) :=
  ⟨by decide,
   token_decided_in_fixed_order 5 ⟨3, 5, [(5, 9)], []⟩ 4 3 Token.limite 1 (by decide)⟩


/-! ## Independence from the fuel -/

theorem findNextValidStartLocal_mono (fuel extra : Nat) (s : Session) (x r : Int)
    (h : findNextValidStartLocal fuel s x = some r) :
    findNextValidStartLocal (fuel + extra) s x = some r := by
  unfold findNextValidStartLocal at h ⊢
  by_cases h0 : s.paused.length = 0
  · rw [if_pos h0] at h ⊢; exact h
  · rw [if_neg h0] at h ⊢
    exact advanceLoop_mono _ _ fuel x r extra h

theorem generateSingleIntervalLocal_mono (fuel extra : Nat) (s : Session)
    (start step : Int) (tok : Token) (next : Int)
    (h : generateSingleIntervalLocal fuel s start step = some (tok, next)) :
    generateSingleIntervalLocal (fuel + extra) s start step = some (tok, next) := by
  obtain ⟨c, hc, hrest⟩ := generateSingleIntervalLocal_spec fuel s start step tok next h
  have hc1 := findNextValidStartLocal_mono fuel extra s start c hc
  unfold generateSingleIntervalLocal
  rw [hc1]
  simp only
  rcases hrest with ⟨h1, h2, h3⟩ | ⟨h1, h3, ⟨h4, h2⟩ | ⟨h4, h5, h2⟩ | ⟨h4, h5, h2⟩⟩
  · rw [if_pos h1, findNextValidStartLocal_mono fuel extra s _ _ h3, h2]
  · rw [if_neg (by omega), findNextValidStartLocal_mono fuel extra s _ _ h3, h4, h2]
    simp
  · rw [if_neg (by omega), findNextValidStartLocal_mono fuel extra s _ _ h3, h4, h5, h2]
    simp
  · rw [if_neg (by omega), findNextValidStartLocal_mono fuel extra s _ _ h3, h4, h5, h2]
    simp

theorem generateSingleIntervalLocal_det (f1 f2 : Nat) (s : Session) (start step : Int)
    (x y : Token × Int) (h1 : generateSingleIntervalLocal f1 s start step = some x)
    (h2 : generateSingleIntervalLocal f2 s start step = some y) : x = y := by
  have e1 := generateSingleIntervalLocal_mono f1 f2 s start step x.1 x.2 h1
  have e2 := generateSingleIntervalLocal_mono f2 f1 s start step y.1 y.2 h2
  rw [Nat.add_comm] at e2
  rw [e1] at e2
  exact Option.some.inj e2

theorem getNextStartPositionLocal_det (f1 f2 : Nat) (s : Session) (a b : Int)
    (h1 : getNextStartPositionLocal f1 s = some a)
    (h2 : getNextStartPositionLocal f2 s = some b) : a = b := by
  unfold getNextStartPositionLocal at h1 h2
  cases hl : s.hist.getLast? with
  | none =>
    rw [hl] at h1 h2
    rw [h1] at h2
    exact Option.some.inj h2
  | some q =>
    rw [hl] at h1 h2
    exact findNextValidStartLocal_det f1 f2 s _ a b h1 h2

theorem sessionColumn_det (f1 f2 : Nat) (s : Session) :
    ∀ (drops : Nat) (c : Int) (col1 col2 : List (Token × Int)),
      sessionColumn f1 s drops c = some col1 → sessionColumn f2 s drops c = some col2 →
      col1 = col2 := by
  intro drops
  induction drops with
  | zero =>
    intro c col1 col2 h1 h2
    simp only [sessionColumn, Option.some.injEq] at h1 h2
    rw [← h1, ← h2]
  | succ n ih =>
    intro c col1 col2 h1 h2
    unfold sessionColumn at h1 h2
    cases hg1 : generateSingleIntervalLocal f1 s c s.step with
    | none => rw [hg1] at h1; cases h1
    | some x =>
      cases hg2 : generateSingleIntervalLocal f2 s c s.step with
      | none => rw [hg2] at h2; cases h2
      | some y =>
        have e := generateSingleIntervalLocal_det f1 f2 s c s.step x y hg1 hg2
        subst e
        obtain ⟨tok, nx⟩ := x
        rw [hg1] at h1
        rw [hg2] at h2
        simp only at h1 h2
        cases hr1 : sessionColumn f1 s n nx with
        | none => rw [hr1] at h1; cases h1
        | some r1 =>
          cases hr2 : sessionColumn f2 s n nx with
          | none => rw [hr2] at h2; cases h2
          | some r2 =>
            rw [hr1] at h1
            rw [hr2] at h2
            simp only [Option.some.injEq] at h1 h2
            rw [← h1, ← h2, ih nx r1 r2 hr1 hr2]

/-! ## The cursor can leave the track -/

/-- C6: on the session with step `3`, limit `5` and the single paused range `[1, 2]`
(position `3` is on the track and unpaused), the first call of a pass, from the initial
cursor `1`, emits `3-5` and returns the next cursor `6`, above the limit; and
`findNextValidStartLocal 6` itself returns `6`. -/
theorem next_cursor_beyond_limit (fuel : Nat) :
    getNextStartPositionLocal (2 + fuel) ⟨3, 5, [(1, 2)], []⟩ = some 1 ∧
      generateSingleIntervalLocal (2 + fuel) ⟨3, 5, [(1, 2)], []⟩ 1 3 =
        some (Token.interval 3 5, 6) ∧
      findNextValidStartLocal (2 + fuel) ⟨3, 5, [(1, 2)], []⟩ 6 = some 6 ∧
      (∀ q ∈ [((1 : Int), (2 : Int))], ¬ (q.1 ≤ 3 ∧ 3 ≤ q.2)) ∧
      generatePlanWithData (2 + fuel) 2 [⟨3, 5, [(1, 2)], []⟩] = some ["3-5", "Limite"] := by
  have h1 : generateSingleIntervalLocal (2 + fuel) ⟨3, 5, [(1, 2)], []⟩ 1 3 =
      some (Token.interval 3 5, 6) :=
    generateSingleIntervalLocal_mono 2 fuel _ 1 3 _ _ (by decide)
  have h2 : generateSingleIntervalLocal (2 + fuel) ⟨3, 5, [(1, 2)], []⟩ 6 3 =
      some (Token.limite, 3) :=
    generateSingleIntervalLocal_mono 2 fuel _ 6 3 _ _ (by decide)
  refine ⟨rfl, h1, findNextValidStartLocal_mono 2 fuel _ 6 6 (by decide), by decide, ?_⟩
  have h3 : (2 : Int).toNat = 2 := rfl
  have h4 : generatePlanTokens (2 + fuel) 2 [⟨3, 5, [(1, 2)], []⟩] =
      some [[Token.interval 3 5], [Token.limite]] := by
    simp [generatePlanTokens, initialPositions, getNextStartPositionLocal, h3, generateRows,
      generateRow, h1, h2]
  rw [generatePlanWithData, h4]
  decide


/-! ## Independence of the sessions and shape of the plan -/

/-- C7: take two inputs of `generatePlanWithData` with the same drop count and the same
number of sessions that agree on every session except session `j`, and suppose that
generation returns a plan on both. Then in every row the token of every other session
`k ≠ j` is the same in the two plans. -/
theorem sessions_independent (fuel1 fuel2 : Nat) (numDrops : Int)
    (ss1 ss2 : List Session) (rows1 rows2 : List (List Token)) (j : Nat)
    (h1 : generatePlanTokens fuel1 numDrops ss1 = some rows1)
    (h2 : generatePlanTokens fuel2 numDrops ss2 = some rows2)
    (hlen : ss1.length = ss2.length)
    (hsame : ∀ k, k ≠ j → ss1[k]? = ss2[k]?) :
    ∀ (k : Nat), k ≠ j → ∀ (r : Nat) (row1 row2 : List Token),
      rows1[r]? = some row1 → rows2[r]? = some row2 → row1[k]? = row2[k]? := by
  intro k hkj r row1 row2 hr1 hr2
  obtain ⟨_, a2, a3⟩ := generatePlanTokens_column fuel1 numDrops ss1 rows1 h1
  obtain ⟨_, b2, b3⟩ := generatePlanTokens_column fuel2 numDrops ss2 rows2 h2
  by_cases hk : k < ss1.length
  · have e1 : ss1[k]? = some ss1[k] := List.getElem?_eq_getElem hk
    have e2 : ss2[k]? = some ss1[k] := by rw [← hsame k hkj]; exact e1
    obtain ⟨p1, col1, c1, c2, c3⟩ := a3 k _ e1
    obtain ⟨p2, col2, d1, d2, d3⟩ := b3 k _ e2
    have ep := getNextStartPositionLocal_det fuel1 fuel2 _ p1 p2 c1 d1
    subst ep
    have ec := sessionColumn_det fuel1 fuel2 _ _ p1 col1 col2 c2 d2
    subst ec
    have g1 : (rows1.map (fun row => row[k]?))[r]? = some (row1[k]?) := by
      rw [List.getElem?_map, hr1]; rfl
    have g2 : (rows2.map (fun row => row[k]?))[r]? = some (row2[k]?) := by
      rw [List.getElem?_map, hr2]; rfl
    rw [c3] at g1
    rw [d3, g1] at g2
    exact Option.some.inj g2
  · have l1 := a2 row1 (List.getElem?_mem hr1)
    have l2 := b2 row2 (List.getElem?_mem hr2)
    rw [List.getElem?_eq_none_iff.2 (by omega), List.getElem?_eq_none_iff.2 (by omega)]

theorem sessions_independent_witness :
    generatePlanTokens 5 2 [⟨2, 10, [], []⟩, ⟨3, 9, [], []⟩] =
        some [[Token.interval 1 2, Token.interval 1 3],
          [Token.interval 3 4, Token.interval 4 6]] ∧
      generatePlanTokens 7 2 [⟨2, 10, [], []⟩, ⟨3, 9, [(1, 1)], [(2, 4)]⟩] =
        some [[Token.interval 1 2, Token.interval 5 7],
          [Token.interval 3 4, Token.limite]] ∧
      ∀ (k : Nat), k ≠ 1 → ∀ (r : Nat) (row1 row2 : List Token),
        [[Token.interval 1 2, Token.interval 1 3],
          [Token.interval 3 4, Token.interval 4 6]][r]? = some row1 →
        [[Token.interval 1 2, Token.interval 5 7],
          [Token.interval 3 4, Token.limite]][r]? = some row2 → row1[k]? = row2[k]? :=
  ⟨by decide, by decide,
   sessions_independent 5 7 2 [⟨2, 10, [], []⟩, ⟨3, 9, [], []⟩]
     [⟨2, 10, [], []⟩, ⟨3, 9, [(1, 1)], [(2, 4)]⟩] _ _ 1 (by decide) (by decide) (by decide)
     (by
       intro k hk
       cases k with
       | zero => rfl
       | succ n =>
         cases n with
         | zero => exact absurd rfl hk
         | succ m => rfl)⟩

/-- C8: for a drop count `n ≥ 1` and an input with `m` sessions on which
`generatePlanWithData` returns a plan, the plan has exactly `n` rows; row `r` is the
tab-joined rendering of exactly `m` tokens, in session order, each of which renders as
`Limite`, `pause`, `X` or an interval `a-b`. A sentinel consumes its slot and is never
retried: every session has one cursor per row boundary, the first being its initial
cursor; the token of the session in row `r` is the token of the single call of
`generateSingleIntervalLocal` made at the cursor before row `r`, sentinel or not, and
the cursor after row `r` is the one that call returned. -/
theorem plan_shape (fuel : Nat) (numDrops : Int) (ss : List Session) (plan : List String)
    (hn : 1 ≤ numDrops) (h : generatePlanWithData fuel numDrops ss = some plan) :
    (plan.length : Int) = numDrops ∧
    ∃ rows, generatePlanTokens fuel numDrops ss = some rows ∧
      rows.length = plan.length ∧
      (∀ (r : Nat) (row : List Token), rows[r]? = some row →
        plan[r]? = some ("\t".intercalate (row.map Token.render)) ∧
        row.length = ss.length ∧
        ∀ tok ∈ row, tok.render = "Limite" ∨ tok.render = "pause" ∨ tok.render = "X" ∨
          ∃ a b : Int, tok.render = jsNumberToString a ++ "-" ++ jsNumberToString b) ∧
      ∀ (k : Nat) (s : Session), ss[k]? = some s →
        ∃ cursors : List Int, cursors.length = plan.length + 1 ∧
          getNextStartPositionLocal fuel s = cursors[0]? ∧
          ∀ (r : Nat) (row : List Token), rows[r]? = some row →
            ∃ tok c nx, row[k]? = some tok ∧ cursors[r]? = some c ∧
              cursors[r + 1]? = some nx ∧
              generateSingleIntervalLocal fuel s c s.step = some (tok, nx) := by
  unfold generatePlanWithData at h
  cases hp : generatePlanTokens fuel numDrops ss with
  | none => rw [hp] at h; cases h
  | some rows =>
    rw [hp] at h
    simp only [Option.map_some', Option.some.injEq] at h
    subst h
    obtain ⟨a1, a2, a3⟩ := generatePlanTokens_column fuel numDrops ss rows hp
    refine ⟨?_, rows, rfl, by simp, ?_, ?_⟩
    · rw [List.length_map, a1]
      exact Int.toNat_of_nonneg (by omega)
    · intro r row hr
      refine ⟨?_, a2 row (List.getElem?_mem hr), ?_⟩
      · rw [List.getElem?_map, hr]; rfl
      · intro tok _
        cases tok with
        | limite => exact Or.inl rfl
        | pause => exact Or.inr (Or.inl rfl)
        | reused => exact Or.inr (Or.inr (Or.inl rfl))
        | interval a b => exact Or.inr (Or.inr (Or.inr ⟨a, b, rfl⟩))
    · intro k s hk
      obtain ⟨p, col, c1, c2, c3⟩ := a3 k s hk
      have hcl := sessionColumn_length fuel s numDrops.toNat p col c2
      have hcalls := sessionColumn_calls fuel s numDrops.toNat p col c2
      refine ⟨p :: col.map (fun c => c.2), ?_, ?_, ?_⟩
      · rw [List.length_cons, List.length_map, List.length_map, hcl, a1]
      · rw [c1, List.getElem?_cons_zero]
      · intro r row hr
        have hlen : k < row.length := by
          rw [a2 row (List.getElem?_mem hr)]
          exact (List.getElem?_eq_some_iff.1 hk).1
        have ht : row[k]? = some row[k] := List.getElem?_eq_getElem hlen
        obtain ⟨nx, hc⟩ := column_cell rows col k r row _ c3 hr ht
        have hnx : (p :: col.map (fun c => c.2))[r + 1]? = some nx := by
          rw [List.getElem?_cons_succ, List.getElem?_map, hc]; rfl
        cases r with
        | zero =>
          exact ⟨row[k], p, nx, ht, List.getElem?_cons_zero, hnx, hcalls.1 _ _ hc⟩
        | succ r0 =>
          have hl : r0 < col.length := by
            have := (List.getElem?_eq_some_iff.1 hc).1
            omega
          have h0 : col[r0]? = some col[r0] := List.getElem?_eq_getElem hl
          refine ⟨row[k], col[r0].2, nx, ht, ?_, hnx,
            hcalls.2 r0 col[r0].1 col[r0].2 _ _ h0 hc⟩
          rw [List.getElem?_cons_succ, List.getElem?_map, h0]; rfl

theorem plan_shape_witness :
    generatePlanWithData 5 3 [⟨2, 4, [], []⟩, ⟨3, 5, [(1, 2)], []⟩] =
        some ["1-2\t3-5", "3-4\tLimite", "1-2\t3-5"] ∧
      ((["1-2\t3-5", "3-4\tLimite", "1-2\t3-5"].length : Int) = 3 ∧
      ∃ rows, generatePlanTokens 5 3 [⟨2, 4, [], []⟩, ⟨3, 5, [(1, 2)], []⟩] = some rows ∧
        rows.length = ["1-2\t3-5", "3-4\tLimite", "1-2\t3-5"].length ∧
        (∀ (r : Nat) (row : List Token), rows[r]? = some row →
          ["1-2\t3-5", "3-4\tLimite", "1-2\t3-5"][r]? =
              some ("\t".intercalate (row.map Token.render)) ∧
          row.length = [(⟨2, 4, [], []⟩ : Session), ⟨3, 5, [(1, 2)], []⟩].length ∧
          ∀ tok ∈ row, tok.render = "Limite" ∨ tok.render = "pause" ∨ tok.render = "X" ∨
            ∃ a b : Int, tok.render = jsNumberToString a ++ "-" ++ jsNumberToString b) ∧
        ∀ (k : Nat) (s : Session),
          [(⟨2, 4, [], []⟩ : Session), ⟨3, 5, [(1, 2)], []⟩][k]? = some s →
          ∃ cursors : List Int,
            cursors.length = ["1-2\t3-5", "3-4\tLimite", "1-2\t3-5"].length + 1 ∧
            getNextStartPositionLocal 5 s = cursors[0]? ∧
            ∀ (r : Nat) (row : List Token), rows[r]? = some row →
              ∃ tok c nx, row[k]? = some tok ∧ cursors[r]? = some c ∧
                cursors[r + 1]? = some nx ∧
                generateSingleIntervalLocal 5 s c s.step = some (tok, nx)) :=
  ⟨by decide,
   plan_shape 5 3 [⟨2, 4, [], []⟩, ⟨3, 5, [(1, 2)], []⟩]
     ["1-2\t3-5", "3-4\tLimite", "1-2\t3-5"] (by decide) (by decide)⟩

/-! ## The value returned by `findNextValidStartLocal` -/

/-- C9: whenever `findNextValidStartLocal` returns a value `r`, no paused range
`[ps, pe]` of the session has `ps ≤ r ≤ pe`. -/
theorem result_outside_paused (fuel : Nat) (s : Session) (start r : Int)
    (h : findNextValidStartLocal fuel s start = some r) :
    ∀ q ∈ s.paused, ¬ (q.1 ≤ r ∧ r ≤ q.2) :=
  findNextValidStartLocal_not_paused fuel s start r h

theorem result_outside_paused_witness :
    findNextValidStartLocal 5 ⟨1, 9, [(4, 6), (1, 3), (9, 12)], []⟩ 9 = some 7 ∧
      ∀ q ∈ [((4 : Int), (6 : Int)), (1, 3), (9, 12)], ¬ (q.1 ≤ (7 : Int) ∧ (7 : Int) ≤ q.2) :=
  ⟨by decide,
   result_outside_paused 5 ⟨1, 9, [(4, 6), (1, 3), (9, 12)], []⟩ 9 7 (by decide)⟩

/-- C10, as stated, fails: without paused ranges and with limit `5`, the start `0` is
returned unchanged, not wrapped to `1`. -/
theorem start_below_one_not_wrapped :
    findNextValidStartLocal 0 ⟨1, 5, [], []⟩ 0 = some 0 ∧
      ¬ (∀ (fuel : Nat) (s : Session) (start : Int), s.paused = [] →
        findNextValidStartLocal fuel s start =
          some (if 1 ≤ start ∧ start ≤ s.limit then start else 1)) := by
  refine ⟨by decide, ?_⟩
  intro hall
  have := hall 0 ⟨1, 5, [], []⟩ 0 rfl
  revert this
  decide

/-- C10, amended: for a session with no paused ranges and every integer start `s`,
`findNextValidStartLocal s` returns `s` if `s ≤ limit` and `1` otherwise, whatever the
fuel; for `s ≥ 1` that is `s` if `1 ≤ s ≤ limit` and `1` otherwise. -/
theorem no_paused_identity_or_wrap (fuel : Nat) (s : Session) (start : Int)
    (h : s.paused = []) :
    findNextValidStartLocal fuel s start = some (if start ≤ s.limit then start else 1) ∧
      (1 ≤ start → findNextValidStartLocal fuel s start =
        some (if 1 ≤ start ∧ start ≤ s.limit then start else 1)) := by
  have e : findNextValidStartLocal fuel s start =
      some (if start ≤ s.limit then start else 1) := by
    unfold findNextValidStartLocal
    rw [h]
    simp only [List.length_nil, if_true, Option.some.injEq]
    split <;> split <;> omega
  refine ⟨e, ?_⟩
  intro h1
  rw [e]
  simp only [h1, true_and]

theorem no_paused_identity_or_wrap_witness :
    findNextValidStartLocal 0 ⟨2, 5, [], [(1, 4)]⟩ 7 =
        some (if (7 : Int) ≤ 5 then 7 else 1) ∧
      ((1 : Int) ≤ 7 → findNextValidStartLocal 0 ⟨2, 5, [], [(1, 4)]⟩ 7 =
        some (if (1 : Int) ≤ 7 ∧ (7 : Int) ≤ 5 then 7 else 1)) :=
  no_paused_identity_or_wrap 0 ⟨2, 5, [], [(1, 4)]⟩ 7 rfl


/-! ## Transferring a plan between two inputs -/

/-- If every call made for a session of the first input gives the same result for the
matching session of the second input, a row generated on the first input is generated
on the second. -/
theorem generateRow_transfer (f1 f2 : Nat) (ss1 ss2 : List Session)
    (hrel : List.Forall₂ (fun s1 s2 =>
      (∀ x y, generateSingleIntervalLocal f1 s1 x s1.step = some y →
        generateSingleIntervalLocal f2 s2 x s2.step = some y) ∧
      (∀ p, getNextStartPositionLocal f1 s1 = some p →
        getNextStartPositionLocal f2 s2 = some p)) ss1 ss2) :
    ∀ (pos : List Int) (res : List Token × List Int),
      generateRow f1 ss1 pos = some res → generateRow f2 ss2 pos = some res := by
  induction hrel with
  | nil => intro pos res h; simpa [generateRow] using h
  | cons hab _ ih =>
    intro pos res h
    cases pos with
    | nil => simp [generateRow] at h
    | cons p ps =>
      unfold generateRow at h ⊢
      rename_i a b l1 l2 _
      cases hg : generateSingleIntervalLocal f1 a p a.step with
      | none => rw [hg] at h; cases h
      | some tn =>
        rw [hg] at h
        rw [hab.1 p tn hg]
        obtain ⟨tok, nx⟩ := tn
        simp only at h ⊢
        cases hr : generateRow f1 l1 ps with
        | none => rw [hr] at h; cases h
        | some rn =>
          rw [hr] at h
          rw [ih ps rn hr]
          exact h

theorem generateRows_transfer (f1 f2 : Nat) (ss1 ss2 : List Session)
    (hrel : List.Forall₂ (fun s1 s2 =>
      (∀ x y, generateSingleIntervalLocal f1 s1 x s1.step = some y →
        generateSingleIntervalLocal f2 s2 x s2.step = some y) ∧
      (∀ p, getNextStartPositionLocal f1 s1 = some p →
        getNextStartPositionLocal f2 s2 = some p)) ss1 ss2) :
    ∀ (drops : Nat) (pos : List Int) (rows : List (List Token)),
      generateRows f1 ss1 drops pos = some rows →
      generateRows f2 ss2 drops pos = some rows := by
  intro drops
  induction drops with
  | zero => intro pos rows h; simpa [generateRows] using h
  | succ n ih =>
    intro pos rows h
    unfold generateRows at h ⊢
    cases hr : generateRow f1 ss1 pos with
    | none => rw [hr] at h; cases h
    | some rn =>
      rw [hr] at h
      rw [generateRow_transfer f1 f2 ss1 ss2 hrel pos rn hr]
      obtain ⟨row, next⟩ := rn
      simp only at h ⊢
      cases hrs : generateRows f1 ss1 n next with
      | none => rw [hrs] at h; cases h
      | some rest =>
        rw [hrs] at h
        rw [ih next rest hrs]
        exact h

theorem initialPositions_transfer (f1 f2 : Nat) (ss1 ss2 : List Session)
    (hrel : List.Forall₂ (fun s1 s2 =>
      (∀ x y, generateSingleIntervalLocal f1 s1 x s1.step = some y →
        generateSingleIntervalLocal f2 s2 x s2.step = some y) ∧
      (∀ p, getNextStartPositionLocal f1 s1 = some p →
        getNextStartPositionLocal f2 s2 = some p)) ss1 ss2) :
    ∀ (pos : List Int), initialPositions f1 ss1 = some pos →
      initialPositions f2 ss2 = some pos := by
  induction hrel with
  | nil => intro pos h; simpa [initialPositions] using h
  | cons hab _ ih =>
    intro pos h
    rename_i a b l1 l2 _
    unfold initialPositions at h ⊢
    cases hg : getNextStartPositionLocal f1 a with
    | none => rw [hg] at h; cases h
    | some p =>
      rw [hg] at h
      rw [hab.2 p hg]
      simp only at h ⊢
      cases hi : initialPositions f1 l1 with
      | none => rw [hi] at h; cases h
      | some ps =>
        rw [hi] at h
        rw [ih ps hi]
        exact h

/-- A plan generated on the first input is generated on the second input when the
calls made for matching sessions agree. -/
theorem generatePlanTokens_transfer (f1 f2 : Nat) (numDrops : Int) (ss1 ss2 : List Session)
    (hrel : List.Forall₂ (fun s1 s2 =>
      (∀ x y, generateSingleIntervalLocal f1 s1 x s1.step = some y →
        generateSingleIntervalLocal f2 s2 x s2.step = some y) ∧
      (∀ p, getNextStartPositionLocal f1 s1 = some p →
        getNextStartPositionLocal f2 s2 = some p)) ss1 ss2)
    (rows : List (List Token)) (h : generatePlanTokens f1 numDrops ss1 = some rows) :
    generatePlanTokens f2 numDrops ss2 = some rows := by
  unfold generatePlanTokens at h ⊢
  cases hi : initialPositions f1 ss1 with
  | none => rw [hi] at h; cases h
  | some pos =>
    rw [hi] at h
    rw [initialPositions_transfer f1 f2 ss1 ss2 hrel pos hi]
    exact generateRows_transfer f1 f2 ss1 ss2 hrel numDrops.toNat pos rows h

theorem getNextStartPositionLocal_mono (fuel extra : Nat) (s : Session) (p : Int)
    (h : getNextStartPositionLocal fuel s = some p) :
    getNextStartPositionLocal (fuel + extra) s = some p := by
  unfold getNextStartPositionLocal at h ⊢
  cases hl : s.hist.getLast? with
  | none => rw [hl] at h; simpa using h
  | some q =>
    rw [hl] at h
    exact findNextValidStartLocal_mono fuel extra s _ p h

/-- More fuel does not change a generated plan. -/
theorem generatePlanTokens_mono (fuel extra : Nat) (numDrops : Int) (ss : List Session)
    (rows : List (List Token)) (h : generatePlanTokens fuel numDrops ss = some rows) :
    generatePlanTokens (fuel + extra) numDrops ss = some rows := by
  refine generatePlanTokens_transfer fuel (fuel + extra) numDrops ss ss ?_ rows h
  have hall : ∀ l : List Session, List.Forall₂ (fun s1 s2 =>
      (∀ x y, generateSingleIntervalLocal fuel s1 x s1.step = some y →
        generateSingleIntervalLocal (fuel + extra) s2 x s2.step = some y) ∧
      (∀ p, getNextStartPositionLocal fuel s1 = some p →
        getNextStartPositionLocal (fuel + extra) s2 = some p)) l l := by
    intro l
    induction l with
    | nil => exact List.Forall₂.nil
    | cons a l ih =>
      refine List.Forall₂.cons ⟨?_, ?_⟩ ih
      · intro x y hy
        exact generateSingleIntervalLocal_mono fuel extra a x a.step y.1 y.2 hy
      · intro p hp
        exact getNextStartPositionLocal_mono fuel extra a p hp
  exact hall ss

theorem generatePlanWithData_mono (fuel extra : Nat) (numDrops : Int) (ss : List Session)
    (plan : List String) (h : generatePlanWithData fuel numDrops ss = some plan) :
    generatePlanWithData (fuel + extra) numDrops ss = some plan := by
  unfold generatePlanWithData at h ⊢
  cases hp : generatePlanTokens fuel numDrops ss with
  | none => rw [hp] at h; cases h
  | some rows =>
    rw [hp] at h
    rw [generatePlanTokens_mono fuel extra numDrops ss rows hp]
    exact h

/-! ## Sessions without paused ranges -/

/-- Without paused and historical ranges, a call at a cursor `c ≥ 1` whose proposed
interval fits below the limit and whose sum `c + step` is at most `2 ^ 53` emits that
interval; the next cursor is the position after it, or `1` when that position is beyond
the limit. -/
theorem generateSingleIntervalLocal_free (fuel : Nat) (s : Session) (c step : Int)
    (hp : s.paused = []) (hh : s.hist = []) (hc : 1 ≤ c) (hstep : 1 ≤ step)
    (hex : c + step ≤ 9007199254740992) (hfit : c + step - 1 ≤ s.limit) :
    generateSingleIntervalLocal fuel s c step =
      some (Token.interval c (c + step - 1), if c + step ≤ s.limit then c + step else 1) := by
  have h1 : findNextValidStartLocal fuel s c = some c := by
    simp only [findNextValidStartLocal, hp, List.length_nil, if_true, Option.some.injEq]
    split <;> omega
  have hpe : proposedEndOf c step = c + step - 1 := by
    unfold proposedEndOf
    rw [jsAdd_exact c step (by omega) hex, jsSub_exact _ _ (by omega) (by omega)]
  have hnx : jsAdd (c + step - 1) 1 = c + step := by
    rw [jsAdd_exact _ _ (by omega) (by omega)]
    omega
  have h2 : findNextValidStartLocal fuel s (c + step) =
      some (if c + step ≤ s.limit then c + step else 1) := by
    simp only [findNextValidStartLocal, hp, List.length_nil, if_true, Option.some.injEq]
    split <;> split <;> omega
  have h3 : ¬ (c + step - 1 > s.limit) := by omega
  simp only [generateSingleIntervalLocal, h1, hpe, hnx, h2, if_neg h3, isIntervalInPausedLocal,
    hp, hh, isIntervalOverlappingLocal, isIntervalInPastLocal, Bool.false_eq_true, if_false]

theorem getNextStartPositionLocal_no_hist (fuel : Nat) (s : Session) (hh : s.hist = []) :
    getNextStartPositionLocal fuel s = some 1 := by
  simp [getNextStartPositionLocal, hh]

/-- Without paused and historical ranges, the rows whose interval still fits below the
limit and ends below `2 ^ 53` hold the successive intervals of length `step` counted
from `1`. -/
theorem sessionColumn_free_prefix (fuel : Nat) (s : Session) (drops : Nat)
    (col : List (Token × Int)) (hp : s.paused = []) (hh : s.hist = [])
    (hstep : 1 ≤ s.step) (h : sessionColumn fuel s drops 1 = some col) :
    ∀ (i : Nat), i < drops → ((i : Int) + 1) * s.step ≤ s.limit →
      ((i : Int) + 1) * s.step < 9007199254740992 →
      col[i]? = some (Token.interval ((i : Int) * s.step + 1) (((i : Int) + 1) * s.step),
        if ((i : Int) + 1) * s.step + 1 ≤ s.limit then ((i : Int) + 1) * s.step + 1 else 1) := by
  have hlen := sessionColumn_length fuel s drops 1 col h
  obtain ⟨c1, c2⟩ := sessionColumn_calls fuel s drops 1 col h
  intro i
  induction i with
  | zero =>
    intro hi hfit hsmall
    simp only [Nat.cast_zero, zero_add, one_mul, zero_mul] at hfit hsmall ⊢
    have h0 : col[0]? = some col[0] := List.getElem?_eq_getElem (by omega)
    have hcall := c1 col[0].1 col[0].2 h0
    rw [generateSingleIntervalLocal_free fuel s 1 s.step hp hh (le_refl 1) hstep (by omega)
      (by omega)] at hcall
    obtain ⟨g1, g2⟩ := Prod.mk.inj (Option.some.inj hcall)
    rw [h0]
    refine congrArg some (Prod.ext ?_ ?_)
    · rw [← g1, Token.interval.injEq]
      exact ⟨rfl, by omega⟩
    · rw [← g2]
      show (if 1 + s.step ≤ s.limit then 1 + s.step else 1) =
        if s.step + 1 ≤ s.limit then s.step + 1 else 1
      split <;> split <;> omega
  | succ j ih =>
    intro hi hfit hsmall
    have e1 : ((j : Int) + 1 + 1) * s.step = ((j : Int) + 1) * s.step + s.step := by ring
    have e2 : ((j : Int) + 1) * s.step = (j : Int) * s.step + s.step := by ring
    have hj0 : (0 : Int) ≤ (j : Int) * s.step :=
      mul_nonneg (Int.ofNat_nonneg j) (by omega)
    simp only [Nat.cast_add, Nat.cast_one] at hfit hsmall ⊢
    have hprev := ih (by omega) (by omega) (by omega)
    rw [if_pos (by omega)] at hprev
    have h1 : col[j + 1]? = some col[j + 1] := List.getElem?_eq_getElem (by omega)
    have hcall := c2 j _ _ col[j + 1].1 col[j + 1].2 hprev h1
    rw [generateSingleIntervalLocal_free fuel s _ s.step hp hh (by omega) hstep (by omega)
      (by omega)] at hcall
    obtain ⟨g1, g2⟩ := Prod.mk.inj (Option.some.inj hcall)
    rw [h1]
    refine congrArg some (Prod.ext ?_ ?_)
    · rw [← g1, Token.interval.injEq]
      exact ⟨rfl, by omega⟩
    · rw [← g2]
      show (if (↑j + 1) * s.step + 1 + s.step ≤ s.limit then (↑j + 1) * s.step + 1 + s.step
          else 1) =
        if (↑j + 1 + 1) * s.step + 1 ≤ s.limit then (↑j + 1 + 1) * s.step + 1 else 1
      split <;> split <;> omega

/-- C11, as stated, fails: with step and limit both `2 ^ 53` and no paused or historical
ranges, row `0` satisfies `(0 + 1) * step ≤ limit`, but the sum `1 + 2 ^ 53` rounds to
`2 ^ 53` and the token is `1`-`2 ^ 53 - 1`, not `1`-`2 ^ 53`. -/
theorem free_session_token_rounded_at_two_pow_53 :
    generatePlanWithData 0 1 [⟨9007199254740992, 9007199254740992, [], []⟩] =
        some ["1-9007199254740991"] ∧
    ¬ (∀ (fuel : Nat) (numDrops : Int) (ss : List Session) (rows : List (List Token))
        (k : Nat) (s : Session) (i : Nat),
        generatePlanTokens fuel numDrops ss = some rows → ss[k]? = some s →
        s.paused = [] → s.hist = [] → 1 ≤ s.step →
        (i : Int) < numDrops → ((i : Int) + 1) * s.step ≤ s.limit →
        ∃ row, rows[i]? = some row ∧
          row[k]? =
            some (Token.interval ((i : Int) * s.step + 1) (((i : Int) + 1) * s.step))) := by
  refine ⟨by decide, ?_⟩
  intro hall
  have := hall 0 1 [⟨9007199254740992, 9007199254740992, [], []⟩]
    [[Token.interval 1 9007199254740991]] 0 ⟨9007199254740992, 9007199254740992, [], []⟩ 0
    (by decide) (by decide) rfl rfl (by decide) (by decide) (by decide)
  revert this
  decide

/-- C11, amended: for a session with no paused and no historical ranges, step `s ≥ 1`
and limit `L`, and every row index `i` below the drop count with `(i + 1) * s ≤ L` and
`(i + 1) * s < 2 ^ 53`, the token of the session in row `i` is the interval
`(i * s + 1)-((i + 1) * s)`; with step `2`, limit `10` and three drops the plan is
`1-2`, `3-4`, `5-6`. -/
theorem free_session_tokens (fuel : Nat) (numDrops : Int) (ss : List Session)
    (rows : List (List Token)) (k : Nat) (s : Session) (i : Nat)
    (hplan : generatePlanTokens fuel numDrops ss = some rows) (hk : ss[k]? = some s)
    (hp : s.paused = []) (hh : s.hist = []) (hstep : 1 ≤ s.step)
    (hi : (i : Int) < numDrops) (hfit : ((i : Int) + 1) * s.step ≤ s.limit)
    (hsmall : ((i : Int) + 1) * s.step < 9007199254740992) :
    (∃ row, rows[i]? = some row ∧
      row[k]? = some (Token.interval ((i : Int) * s.step + 1) (((i : Int) + 1) * s.step))) ∧
    generatePlanWithData fuel 3 [⟨2, 10, [], []⟩] = some ["1-2", "3-4", "5-6"] := by
  constructor
  · obtain ⟨a1, a2, a3⟩ := generatePlanTokens_column fuel numDrops ss rows hplan
    obtain ⟨p, col, c1, c2, c3⟩ := a3 k s hk
    rw [getNextStartPositionLocal_no_hist fuel s hh] at c1
    simp only [Option.some.injEq] at c1
    subst c1
    have hin : i < numDrops.toNat := by omega
    have hcol := sessionColumn_free_prefix fuel s numDrops.toNat col hp hh hstep c2 i hin hfit
      hsmall
    have hr : rows[i]? = some rows[i] := List.getElem?_eq_getElem (by omega)
    refine ⟨rows[i], hr, ?_⟩
    have g1 : (rows.map (fun row => row[k]?))[i]? = some (rows[i][k]?) := by
      rw [List.getElem?_map, hr]; rfl
    rw [c3, List.getElem?_map, hcol] at g1
    simp only [Option.map_some', Option.some.injEq] at g1
    exact g1.symm
  · have h0 := generatePlanWithData_mono 0 fuel 3 [⟨2, 10, [], []⟩] ["1-2", "3-4", "5-6"]
      (by decide)
    rw [Nat.zero_add] at h0
    exact h0

theorem free_session_tokens_witness :
    generatePlanTokens 0 3 [⟨2, 10, [], []⟩] =
        some [[Token.interval 1 2], [Token.interval 3 4], [Token.interval 5 6]] ∧
      ((∃ row, [[Token.interval 1 2], [Token.interval 3 4], [Token.interval 5 6]][1]? =
          some row ∧
        row[0]? = some (Token.interval (((1 : Nat) : Int) * 2 + 1) ((((1 : Nat) : Int) + 1) * 2))) ∧
      generatePlanWithData 0 3 [⟨2, 10, [], []⟩] = some ["1-2", "3-4", "5-6"]) :=
  ⟨by decide,
   free_session_tokens 0 3 [⟨2, 10, [], []⟩]
     [[Token.interval 1 2], [Token.interval 3 4], [Token.interval 5 6]] 0 ⟨2, 10, [], []⟩ 1
     (by decide) (by decide) rfl rfl (by decide) (by decide) (by decide) (by decide)⟩

/-- C12, as stated, fails: with step and limit both `5` and no paused or historical
ranges, row `1` holds the interval `1-5` again, not `Limite`. -/
theorem step_equal_limit_no_limite :
    ¬ (∀ (fuel : Nat) (numDrops : Int) (ss : List Session) (rows : List (List Token))
        (k : Nat) (s : Session) (r : Nat) (row : List Token),
        generatePlanTokens fuel numDrops ss = some rows → ss[k]? = some s →
        s.paused = [] → s.hist = [] → s.step = s.limit → 1 ≤ s.limit →
        rows[r]? = some row →
        row[k]? = some (if r % 2 = 0 then Token.interval 1 s.limit else Token.limite)) := by
  intro hall
  have := hall 0 2 [⟨5, 5, [], []⟩] [[Token.interval 1 5], [Token.interval 1 5]] 0
    ⟨5, 5, [], []⟩ 1 [Token.interval 1 5] (by decide) (by decide) rfl rfl rfl (by decide)
    (by decide)
  revert this
  decide

/-- C12, amended: for a session with step equal to its limit `L`, `1 ≤ L < 2 ^ 53`, and
no paused or historical ranges, the token of the session is the interval `1-L` in every
row: after each call the cursor wraps straight back to `1`, and no `Limite` is emitted.
At `L = 2 ^ 53` the sum `1 + L` is rounded and the rows are `1`-`2 ^ 53 - 1`, `Limite`,
`1`-`2 ^ 53 - 1`. -/
theorem step_equal_limit_tokens (fuel : Nat) (numDrops : Int) (ss : List Session)
    (rows : List (List Token)) (k : Nat) (s : Session) (r : Nat) (row : List Token)
    (hplan : generatePlanTokens fuel numDrops ss = some rows) (hk : ss[k]? = some s)
    (hp : s.paused = []) (hh : s.hist = []) (hstep : s.step = s.limit)
    (hlim : 1 ≤ s.limit) (hsmall : s.limit < 9007199254740992)
    (hr : rows[r]? = some row) :
    row[k]? = some (Token.interval 1 s.limit) ∧
    generatePlanWithData fuel 3 [⟨9007199254740992, 9007199254740992, [], []⟩] =
      some ["1-9007199254740991", "Limite", "1-9007199254740991"] := by
  constructor
  · obtain ⟨_, a2, a3⟩ := generatePlanTokens_column fuel numDrops ss rows hplan
    obtain ⟨p, col, c1, c2, c3⟩ := a3 k s hk
    rw [getNextStartPositionLocal_no_hist fuel s hh] at c1
    simp only [Option.some.injEq] at c1
    subst c1
    have hlen : k < row.length := by
      rw [a2 row (List.getElem?_mem hr)]
      exact (List.getElem?_eq_some_iff.1 hk).1
    have ht : row[k]? = some row[k] := List.getElem?_eq_getElem hlen
    obtain ⟨nx, hc⟩ := column_cell rows col k r row _ c3 hr ht
    have key := sessionColumn_invariant fuel s (fun c => c = 1)
      (fun tok _ => tok = Token.interval 1 s.limit)
      (fun c tok nx hc hg => by
        subst hc
        rw [generateSingleIntervalLocal_free fuel s 1 s.step hp hh (le_refl 1) (by omega)
          (by omega) (by omega)] at hg
        obtain ⟨g1, g2⟩ := Prod.mk.inj (Option.some.inj hg)
        refine ⟨?_, ?_⟩
        · show tok = Token.interval 1 s.limit
          rw [← g1, Token.interval.injEq]
          exact ⟨rfl, by omega⟩
        · show nx = 1
          rw [← g2, if_neg (by omega)])
      numDrops.toNat 1 col rfl c2 _ (List.getElem?_mem hc)
    rw [ht]
    exact congrArg some key
  · have h0 := generatePlanWithData_mono 0 fuel 3
      [⟨9007199254740992, 9007199254740992, [], []⟩]
      ["1-9007199254740991", "Limite", "1-9007199254740991"] (by decide)
    rw [Nat.zero_add] at h0
    exact h0

theorem step_equal_limit_tokens_witness :
    generatePlanTokens 0 3 [⟨4, 4, [], []⟩] =
        some [[Token.interval 1 4], [Token.interval 1 4], [Token.interval 1 4]] ∧
      ([Token.interval 1 4][0]? = some (Token.interval 1 4) ∧
      generatePlanWithData 0 3 [⟨9007199254740992, 9007199254740992, [], []⟩] =
        some ["1-9007199254740991", "Limite", "1-9007199254740991"]) :=
  ⟨by decide,
   step_equal_limit_tokens 0 3 [⟨4, 4, [], []⟩]
     [[Token.interval 1 4], [Token.interval 1 4], [Token.interval 1 4]] 0 ⟨4, 4, [], []⟩ 1
     [Token.interval 1 4] (by decide) (by decide) rfl rfl rfl (by decide) (by decide)
     (by decide)⟩

/-! ## An empty track -/

theorem advanceLoop_empty_track (fuel : Nat) : advanceLoop 0 [(1, 5)] fuel 1 = none := by
  induction fuel with
  | zero => rfl
  | succ n ih =>
    have h : scanPass 0 [(1, 5)] 1 = some 1 := by decide
    simp only [advanceLoop, h]
    exact ih

/-- C13: on the session with limit `0`, step `1` and the single paused range `[1, 5]`,
the loop of `findNextValidStartLocal` started at `1` has not returned after any number
of iterations, so no call for that session returns and `generatePlanWithData` produces
no plan: the session gets no `Limite` token. -/
theorem empty_track_never_returns (fuel : Nat) :
    findNextValidStartLocal fuel ⟨1, 0, [(1, 5)], []⟩ 1 = none ∧
      generateSingleIntervalLocal fuel ⟨1, 0, [(1, 5)], []⟩ 1 1 = none ∧
      generatePlanWithData fuel 1 [⟨1, 0, [(1, 5)], []⟩] = none := by
  have h1 : findNextValidStartLocal fuel ⟨1, 0, [(1, 5)], []⟩ 1 = none := by
    have h0 : sortByStart [((1 : Int), (5 : Int))] = [(1, 5)] := by decide
    simp only [findNextValidStartLocal, List.length_singleton, one_ne_zero, if_false, h0]
    exact advanceLoop_empty_track fuel
  have h2 : generateSingleIntervalLocal fuel ⟨1, 0, [(1, 5)], []⟩ 1 1 = none := by
    simp [generateSingleIntervalLocal, h1]
  refine ⟨h1, h2, ?_⟩
  have h3 : generatePlanTokens fuel 1 [⟨1, 0, [(1, 5)], []⟩] = none := by
    have h4 : (1 : Int).toNat = 1 := rfl
    simp [generatePlanTokens, initialPositions, getNextStartPositionLocal, h4, generateRows,
      generateRow, h2]
  simp [generatePlanWithData, h3]

/-! ## The initial cursor and the historical test -/

/-- C15: `getNextStartPositionLocal` returns `1` when the session has no historical
ranges; otherwise, with `lastEnd` the end of the last historical range in the given
order, it returns `findNextValidStartLocal s0` where `s0 = 1` if `lastEnd ≥ limit` and
`s0 = lastEnd + 1` otherwise, the sum being the one the code computes on doubles, which
is the integer `lastEnd + 1` whenever that integer lies between `-2 ^ 53` and `2 ^ 53`. -/
theorem initial_cursor (fuel : Nat) (s : Session) :
    (s.hist = [] → getNextStartPositionLocal fuel s = some 1) ∧
    (∀ (earlier : List Range) (lastStart lastEnd : Int),
      s.hist = earlier ++ [(lastStart, lastEnd)] →
      getNextStartPositionLocal fuel s =
          findNextValidStartLocal fuel s (if lastEnd ≥ s.limit then 1 else jsAdd lastEnd 1) ∧
        (-9007199254740992 ≤ lastEnd + 1 → lastEnd + 1 ≤ 9007199254740992 →
          getNextStartPositionLocal fuel s =
            findNextValidStartLocal fuel s (if lastEnd ≥ s.limit then 1 else lastEnd + 1))) := by
  constructor
  · intro h
    exact getNextStartPositionLocal_no_hist fuel s h
  · intro earlier lastStart lastEnd h
    have key : getNextStartPositionLocal fuel s =
        findNextValidStartLocal fuel s (if lastEnd ≥ s.limit then 1 else jsAdd lastEnd 1) := by
      simp [getNextStartPositionLocal, h]
    refine ⟨key, ?_⟩
    intro h1 h2
    rw [key, jsAdd_exact lastEnd 1 h1 h2]

theorem initial_cursor_witness :
    getNextStartPositionLocal 0 ⟨2, 20, [(1, 2)], []⟩ = some 1 ∧
      (getNextStartPositionLocal 3 ⟨2, 20, [], [(5, 9), (1, 3)]⟩ =
        findNextValidStartLocal 3 ⟨2, 20, [], [(5, 9), (1, 3)]⟩
          (if (3 : Int) ≥ 20 then 1 else jsAdd 3 1) ∧
      getNextStartPositionLocal 3 ⟨2, 20, [], [(5, 9), (1, 3)]⟩ =
        findNextValidStartLocal 3 ⟨2, 20, [], [(5, 9), (1, 3)]⟩
          (if (3 : Int) ≥ 20 then 1 else 3 + 1)) :=
  ⟨(initial_cursor 0 ⟨2, 20, [(1, 2)], []⟩).1 rfl,
   ((initial_cursor 3 ⟨2, 20, [], [(5, 9), (1, 3)]⟩).2 [(5, 9)] 1 3 rfl).1,
   ((initial_cursor 3 ⟨2, 20, [], [(5, 9), (1, 3)]⟩).2 [(5, 9)] 1 3 rfl).2 (by decide)
     (by decide)⟩

/-- C16: `isIntervalInPastLocal a b` is true exactly when one single historical range
`[hs, he]` of the session has `hs ≤ a` and `b ≤ he`; the range `[2, 5]`, covered only
by the union of `[1, 3]` and `[4, 6]`, is not flagged, nor is `[2, 5]` against `[3, 9]`,
which it only partially overlaps. -/
theorem past_means_inside_one_range (a b : Int) (s : Session) :
    (isIntervalInPastLocal a b s.hist = true ↔ ∃ q ∈ s.hist, q.1 ≤ a ∧ b ≤ q.2) ∧
      isIntervalInPastLocal 2 5 [(1, 3), (4, 6)] = false ∧
      isIntervalInPastLocal 2 5 [(3, 9)] = false :=
  ⟨isIntervalInPastLocal_iff a b s.hist, by decide, by decide⟩


/-! ## The loop described without the order of the ranges -/

theorem firstContaining_eq_none_iff_not_in (x : Int) (l : List Range) :
    firstContaining x l = none ↔ ¬ inPausedRange l x := by
  rw [firstContaining_eq_none_iff]
  unfold inPausedRange
  constructor
  · rintro h ⟨q, hq, h1⟩
    exact h q hq h1
  · intro h q hq h1
    exact h ⟨q, hq, h1⟩

theorem inPausedRange_sortByStart (l : List Range) (x : Int) :
    inPausedRange (sortByStart l) x ↔ inPausedRange l x := by
  unfold inPausedRange
  constructor
  · rintro ⟨q, hq, h⟩
    exact ⟨q, (mem_sortByStart q l).1 hq, h⟩
  · rintro ⟨q, hq, h⟩
    exact ⟨q, (mem_sortByStart q l).2 hq, h⟩

theorem rangesEndingFrom_le_length (l : List Range) (x : Int) :
    rangesEndingFrom l x ≤ l.length :=
  List.countP_le_length _

theorem rangesEndingFrom_mono (l : List Range) (x y : Int) (h : x ≤ y) :
    rangesEndingFrom l y ≤ rangesEndingFrom l x := by
  unfold rangesEndingFrom
  apply List.countP_mono_left
  intro q _ hq
  simp only [decide_eq_true_eq] at hq ⊢
  omega

/-- Moving past the end of a range that ends at `x` or later leaves fewer ranges. -/
theorem rangesEndingFrom_lt (l : List Range) (q : Range) (x y : Int) (hq : q ∈ l)
    (hx : x ≤ q.2) (hy : q.2 < y) :
    rangesEndingFrom l y < rangesEndingFrom l x := by
  induction l with
  | nil => cases hq
  | cons a rest ih =>
    have hxy : x ≤ y := by omega
    have hrest := rangesEndingFrom_mono rest x y hxy
    unfold rangesEndingFrom at hrest ih ⊢
    rcases List.mem_cons.1 hq with h | h
    · subst h
      rw [List.countP_cons_of_neg _ _ (by simp only [decide_eq_true_eq]; omega),
        List.countP_cons_of_pos _ _ (by simp only [decide_eq_true_eq]; omega)]
      omega
    · have := ih h
      rw [List.countP_cons, List.countP_cons]
      by_cases h1 : y ≤ a.2
      · have h2 : x ≤ a.2 := by omega
        simp only [h1, h2, decide_True, if_true]
        omega
      · simp only [h1, decide_False, Bool.false_eq_true, if_false]
        split <;> omega

/-- The range found by the scan from a paused position. -/
theorem firstContaining_of_in (x : Int) (l : List Range) (h : inPausedRange l x) :
    ∃ q, firstContaining x l = some q ∧ q ∈ l ∧ q.1 ≤ x ∧ x ≤ q.2 := by
  cases hf : firstContaining x l with
  | none => exact absurd h ((firstContaining_eq_none_iff_not_in x l).1 hf)
  | some q => exact ⟨q, rfl, firstContaining_some x l q hf⟩

/-- Under `SafeEnds` the position after a range is either beyond the limit, for the
rounded sum as for the exact one, or within the limit and computed exactly. -/
theorem jsAdd_end_cases (limit : Int) (l : List Range) (q : Range) (hs : SafeEnds limit l)
    (hq : q ∈ l) :
    (jsAdd q.2 1 > limit ∧ q.2 + 1 > limit) ∨
    (¬ jsAdd q.2 1 > limit ∧ ¬ q.2 + 1 > limit ∧ jsAdd q.2 1 = q.2 + 1) := by
  obtain ⟨h1, h2⟩ := hs q hq
  by_cases hb : q.2 < 9007199254740992
  · have he : jsAdd q.2 1 = q.2 + 1 := jsAdd_exact q.2 1 (by omega) (by omega)
    rw [he]
    by_cases hw : q.2 + 1 > limit
    · exact Or.inl ⟨hw, hw⟩
    · exact Or.inr ⟨hw, hw, rfl⟩
  · have hl : limit < 9007199254740992 := by
      rcases h2 with h2 | h2
      · exact absurd h2 hb
      · exact h2
    have hr : 9007199254740992 ≤ jsAdd q.2 1 :=
      le_roundDouble 9007199254740992 (q.2 + 1) (by omega) (by omega) (by omega)
    exact Or.inl ⟨by omega, by omega⟩

theorem safeEnds_sortByStart (limit : Int) (l : List Range) (hs : SafeEnds limit l) :
    SafeEnds limit (sortByStart l) :=
  fun q hq => hs q ((mem_sortByStart q l).1 hq)

/-- The loop climbs from `x` to the first unpaused position `u` when `u` is within
the limit; one iteration per range that ends at `x` or later suffices, plus one. -/
theorem advanceLoop_climb (limit : Int) (l : List Range) (hs : SafeEnds limit l) :
    ∀ (k : Nat) (x u : Int), rangesEndingFrom l x ≤ k → x ≤ u → u ≤ limit →
      ¬ inPausedRange l u → (∀ y, x ≤ y → y < u → inPausedRange l y) →
      advanceLoop limit l (k + 1) x = some u := by
  intro k
  induction k with
  | zero =>
    intro x u hk hxu hul hu hcov
    by_cases hx : x = u
    · subst hx
      exact advanceLoop_of_not_contained limit l 0 x
        ((firstContaining_eq_none_iff_not_in x l).2 hu)
    · obtain ⟨q, _, hq, h1, h2⟩ := firstContaining_of_in x l (hcov x (le_refl x) (by omega))
      have := rangesEndingFrom_lt l q x (q.2 + 1) hq h2 (by omega)
      omega
  | succ n ih =>
    intro x u hk hxu hul hu hcov
    by_cases hx : x = u
    · subst hx
      exact advanceLoop_of_not_contained limit l (n + 1) x
        ((firstContaining_eq_none_iff_not_in x l).2 hu)
    · obtain ⟨q, hf, hq, h1, h2⟩ := firstContaining_of_in x l (hcov x (le_refl x) (by omega))
      have hqu : q.2 < u := by
        by_contra hcon
        exact hu ⟨q, hq, by omega, by omega⟩
      have hm := rangesEndingFrom_lt l q x (q.2 + 1) hq h2 (by omega)
      have hstep : scanPass limit l x = some (q.2 + 1) := by
        rcases jsAdd_end_cases limit l q hs hq with ⟨_, hc⟩ | ⟨hc1, _, hc2⟩
        · omega
        · obtain ⟨q1, q2⟩ := q
          simp only [scanPass, hf]
          simp only at hc1 hc2
          rw [if_neg hc1, hc2]
      have hrec := ih (q.2 + 1) u (by omega) (by omega) hul hu
        (fun y hy1 hy2 => hcov y (by omega) hy2)
      rw [advanceLoop, hstep]
      exact hrec

/-- When every position from the paused `x` to the limit is paused, the loop reaches
the wrap block after at least one and at most `k` iterations. -/
theorem advanceLoop_reaches_wrap (limit : Int) (l : List Range) (hs : SafeEnds limit l) :
    ∀ (k : Nat) (x : Int), rangesEndingFrom l x ≤ k → inPausedRange l x →
      (∀ y, x ≤ y → y ≤ limit → inPausedRange l y) →
      ∃ j, 1 ≤ j ∧ j ≤ k ∧
        ∀ F, advanceLoop limit l (j + F) x = advanceLoop limit l F (wrapToStart limit l) := by
  intro k
  induction k with
  | zero =>
    intro x hk hx _
    obtain ⟨q, _, hq, _, h2⟩ := firstContaining_of_in x l hx
    have := rangesEndingFrom_lt l q x (q.2 + 1) hq h2 (by omega)
    omega
  | succ n ih =>
    intro x hk hx hcov
    obtain ⟨q, hf, hq, h1, h2⟩ := firstContaining_of_in x l hx
    have hm := rangesEndingFrom_lt l q x (q.2 + 1) hq h2 (by omega)
    rcases jsAdd_end_cases limit l q hs hq with ⟨hc, _⟩ | ⟨hc1, hw, hc2⟩
    · refine ⟨1, le_refl 1, by omega, ?_⟩
      intro F
      have hstep : scanPass limit l x = some (wrapToStart limit l) := by
        obtain ⟨q1, q2⟩ := q
        simp only [scanPass, hf]
        simp only at hc
        rw [if_pos hc]
      rw [Nat.add_comm, advanceLoop, hstep]
    · have hstep : scanPass limit l x = some (q.2 + 1) := by
        obtain ⟨q1, q2⟩ := q
        simp only [scanPass, hf]
        simp only at hc1 hc2
        rw [if_neg hc1, hc2]
      obtain ⟨j, hj1, hj2, hj3⟩ := ih (q.2 + 1) (by omega)
        (hcov (q.2 + 1) (by omega) (by omega))
        (fun y hy1 hy2 => hcov y (by omega) hy2)
      refine ⟨j + 1, by omega, by omega, ?_⟩
      intro F
      have e : j + 1 + F = (j + F) + 1 := by omega
      rw [e, advanceLoop, hstep]
      exact hj3 F

/-- The value the wrap block leaves: `1`, or the position after the first range that
contains `1` when that position is within the limit. -/
theorem wrapToStart_cases (limit : Int) (l : List Range) (hs : SafeEnds limit l) :
    (¬ inPausedRange l 1 ∧ wrapToStart limit l = 1) ∨
    (∃ q, q ∈ l ∧ q.1 ≤ 1 ∧ 1 ≤ q.2 ∧
      ((q.2 + 1 > limit ∧ wrapToStart limit l = 1) ∨
       (q.2 + 1 ≤ limit ∧ wrapToStart limit l = q.2 + 1))) := by
  unfold wrapToStart
  cases hf : firstContaining 1 l with
  | none => exact Or.inl ⟨(firstContaining_eq_none_iff_not_in 1 l).1 hf, rfl⟩
  | some q =>
    obtain ⟨hq, h1, h2⟩ := firstContaining_some 1 l q hf
    have hcases := jsAdd_end_cases limit l q hs hq
    obtain ⟨q1, q2⟩ := q
    right
    refine ⟨(q1, q2), hq, h1, h2, ?_⟩
    simp only at hcases ⊢
    rcases hcases with ⟨hc, hw⟩ | ⟨hc1, hw, hc2⟩
    · exact Or.inl ⟨hw, by rw [if_pos hc]⟩
    · exact Or.inr ⟨by omega, by rw [if_neg hc1, hc2]⟩

/-- After the wrap the loop comes to rest at the first unpaused position from `1` on,
when that position is `1` or within the limit. -/
theorem advanceLoop_after_wrap (limit : Int) (l : List Range) (hs : SafeEnds limit l)
    (v : Int) (hv : ¬ inPausedRange l v) (h1 : 1 ≤ v) (hlim : v = 1 ∨ v ≤ limit)
    (hcov : ∀ y, 1 ≤ y → y < v → inPausedRange l y) :
    advanceLoop limit l (l.length + 1) (wrapToStart limit l) = some v := by
  rcases wrapToStart_cases limit l hs with ⟨hn, hw⟩ | ⟨q, hq, hq1, hq2, hw⟩
  · have hv1 : v = 1 := by
      by_contra hne
      exact hn (hcov 1 (le_refl 1) (by omega))
    rw [hw, hv1]
    exact advanceLoop_of_not_contained limit l l.length 1
      ((firstContaining_eq_none_iff_not_in 1 l).2 hn)
  · have hqv : q.2 < v := by
      by_contra hcon
      exact hv ⟨q, hq, by omega, by omega⟩
    have hvl : v ≤ limit := by omega
    rcases hw with ⟨hw1, _⟩ | ⟨_, hw2⟩
    · omega
    · rw [hw2]
      exact advanceLoop_climb limit l hs l.length (q.2 + 1) v
        (rangesEndingFrom_le_length l _) (by omega) hvl hv
        (fun y hy1 hy2 => hcov y (by omega) hy2)

/-- When the search can come to rest, the loop returns the resting value within
`2 * length + 1` iterations. -/
theorem advanceLoop_of_nextValid (limit : Int) (l : List Range) (hs : SafeEnds limit l)
    (x v : Int) (h : NextValid limit l x v) :
    advanceLoop limit l (2 * l.length + 1) x = some v := by
  rcases h with ⟨hx, hv⟩ | ⟨hx, h1, h2, h3, h4⟩ | ⟨hx, hcov, h3, h4, h5, h6⟩
  · rw [hv]
    exact advanceLoop_of_not_contained limit l (2 * l.length) x
      ((firstContaining_eq_none_iff_not_in x l).2 hx)
  · have := advanceLoop_climb limit l hs l.length x v (rangesEndingFrom_le_length l x) h1 h2
      h3 h4
    have e : 2 * l.length + 1 = (l.length + 1) + l.length := by omega
    rw [e]
    exact advanceLoop_mono limit l _ x v _ this
  · obtain ⟨j, hj1, hj2, hj3⟩ := advanceLoop_reaches_wrap limit l hs l.length x
      (rangesEndingFrom_le_length l x) hx hcov
    have hafter := advanceLoop_after_wrap limit l hs v h3 h4 h5 h6
    have hsum := hj3 (l.length + 1)
    rw [hafter] at hsum
    have e : 2 * l.length + 1 = (j + (l.length + 1)) + (l.length - j) := by omega
    rw [e]
    exact advanceLoop_mono limit l _ x v _ hsum

/-- When the search cannot come to rest, the loop has not returned after any number
of iterations. -/
theorem advanceLoop_of_noNextValid (limit : Int) (l : List Range) (hs : SafeEnds limit l) :
    ∀ (fuel : Nat) (x : Int), NoNextValid limit l x → advanceLoop limit l fuel x = none := by
  intro fuel
  induction fuel using Nat.strong_induction_on with
  | _ fuel ih =>
    intro x h
    obtain ⟨hx, hcov, h1, hall⟩ := h
    obtain ⟨j, hj1, _, hj3⟩ := advanceLoop_reaches_wrap limit l hs l.length x
      (rangesEndingFrom_le_length l x) hx hcov
    have hw : NoNextValid limit l (wrapToStart limit l) := by
      rcases wrapToStart_cases limit l hs with ⟨hn, _⟩ | ⟨q, hq, hq1, hq2, hw⟩
      · exact absurd h1 hn
      · rcases hw with ⟨_, hw1⟩ | ⟨hw2, hw3⟩
        · rw [hw1]
          exact ⟨h1, hall, h1, hall⟩
        · rw [hw3]
          exact ⟨hall _ (by omega) hw2, fun y hy1 hy2 => hall y (by omega) hy2, h1, hall⟩
    by_cases hf : j ≤ fuel
    · have e : fuel = j + (fuel - j) := by omega
      rw [e, hj3]
      exact ih (fuel - j) (by omega) _ hw
    · cases hres : advanceLoop limit l fuel x with
      | none => rfl
      | some r =>
        have hm := advanceLoop_mono limit l fuel x r (j - fuel) hres
        have e : fuel + (j - fuel) = j + 0 := by omega
        rw [e, hj3] at hm
        simp [advanceLoop] at hm


theorem exists_least_unpaused (l : List Range) (a limit : Int)
    (h : ∃ y, a ≤ y ∧ y ≤ limit ∧ ¬ inPausedRange l y) :
    ∃ v, a ≤ v ∧ v ≤ limit ∧ ¬ inPausedRange l v ∧
      ∀ y, a ≤ y → y < v → inPausedRange l y := by
  obtain ⟨v, ⟨hv1, hv2, hv3⟩, hmin⟩ :=
    Int.exists_least_of_bdd (P := fun y => a ≤ y ∧ y ≤ limit ∧ ¬ inPausedRange l y)
      ⟨a, fun z hz => hz.1⟩ h
  refine ⟨v, hv1, hv2, hv3, ?_⟩
  intro y hy1 hy2
  by_contra hcon
  have := hmin y ⟨hy1, by omega, hcon⟩
  omega

/-- From every position the search either comes to rest at some value or never does. -/
theorem nextValid_or_not (limit : Int) (l : List Range) (x : Int) :
    (∃ v, NextValid limit l x v) ∨ NoNextValid limit l x := by
  by_cases hx : inPausedRange l x
  · by_cases hcov : ∀ y, x ≤ y → y ≤ limit → inPausedRange l y
    · by_cases h1 : inPausedRange l 1
      · by_cases hall : ∀ y, 1 ≤ y → y ≤ limit → inPausedRange l y
        · exact Or.inr ⟨hx, hcov, h1, hall⟩
        · have hex : ∃ y, 1 ≤ y ∧ y ≤ limit ∧ ¬ inPausedRange l y := by
            by_contra hcon
            apply hall
            intro y hy1 hy2
            by_contra hy3
            exact hcon ⟨y, hy1, hy2, hy3⟩
          obtain ⟨v, hv1, hv2, hv3, hv4⟩ := exists_least_unpaused l 1 limit hex
          exact Or.inl ⟨v, Or.inr (Or.inr ⟨hx, hcov, hv3, hv1, Or.inr hv2, hv4⟩)⟩
      · exact Or.inl ⟨1, Or.inr (Or.inr ⟨hx, hcov, h1, le_refl 1, Or.inl rfl,
          fun y hy1 hy2 => by omega⟩)⟩
    · have hex : ∃ y, x ≤ y ∧ y ≤ limit ∧ ¬ inPausedRange l y := by
        by_contra hcon
        apply hcov
        intro y hy1 hy2
        by_contra hy3
        exact hcon ⟨y, hy1, hy2, hy3⟩
      obtain ⟨v, hv1, hv2, hv3, hv4⟩ := exists_least_unpaused l x limit hex
      exact Or.inl ⟨v, Or.inr (Or.inl ⟨hx, hv1, hv2, hv3, hv4⟩)⟩
  · exact Or.inl ⟨x, Or.inl ⟨hx, rfl⟩⟩

theorem nextValid_congr (limit : Int) (l1 l2 : List Range) (x v : Int)
    (h : ∀ y, inPausedRange l1 y ↔ inPausedRange l2 y) (hv : NextValid limit l1 x v) :
    NextValid limit l2 x v := by
  rcases hv with ⟨hx, hv⟩ | ⟨hx, h1, h2, h3, h4⟩ | ⟨hx, hcov, h3, h4, h5, h6⟩
  · exact Or.inl ⟨fun hc => hx ((h x).2 hc), hv⟩
  · exact Or.inr (Or.inl ⟨(h x).1 hx, h1, h2, fun hc => h3 ((h v).2 hc),
      fun y hy1 hy2 => (h y).1 (h4 y hy1 hy2)⟩)
  · exact Or.inr (Or.inr ⟨(h x).1 hx, fun y hy1 hy2 => (h y).1 (hcov y hy1 hy2),
      fun hc => h3 ((h v).2 hc), h4, h5, fun y hy1 hy2 => (h y).1 (h6 y hy1 hy2)⟩)

theorem noNextValid_congr (limit : Int) (l1 l2 : List Range) (x : Int)
    (h : ∀ y, inPausedRange l1 y ↔ inPausedRange l2 y) (hv : NoNextValid limit l1 x) :
    NoNextValid limit l2 x := by
  obtain ⟨hx, hcov, h1, hall⟩ := hv
  exact ⟨(h x).1 hx, fun y hy1 hy2 => (h y).1 (hcov y hy1 hy2), (h 1).1 h1,
    fun y hy1 hy2 => (h y).1 (hall y hy1 hy2)⟩

theorem length_sortByStart (l : List Range) : (sortByStart l).length = l.length :=
  List.length_insertionSort _ l

/-- With a non-empty paused list, `findNextValidStartLocal` returns the value at which
the search comes to rest, within `2 * length + 1` iterations of its loop. -/
theorem findNextValidStartLocal_of_nextValid (s : Session) (x v : Int)
    (hs : SafeEnds s.limit s.paused) (hne : s.paused ≠ [])
    (h : NextValid s.limit s.paused x v) :
    findNextValidStartLocal (2 * s.paused.length + 1) s x = some v := by
  unfold findNextValidStartLocal
  rw [if_neg (by rw [List.length_eq_zero]; exact hne), ← length_sortByStart s.paused]
  exact advanceLoop_of_nextValid s.limit (sortByStart s.paused)
    (safeEnds_sortByStart s.limit s.paused hs) x v
    (nextValid_congr s.limit _ _ x v
      (fun y => (inPausedRange_sortByStart s.paused y).symm) h)

/-- With a non-empty paused list, `findNextValidStartLocal` never returns when the
search cannot come to rest. -/
theorem findNextValidStartLocal_of_noNextValid (s : Session) (x : Int)
    (hs : SafeEnds s.limit s.paused) (hne : s.paused ≠ [])
    (h : NoNextValid s.limit s.paused x) (fuel : Nat) :
    findNextValidStartLocal fuel s x = none := by
  unfold findNextValidStartLocal
  rw [if_neg (by rw [List.length_eq_zero]; exact hne)]
  exact advanceLoop_of_noNextValid s.limit (sortByStart s.paused)
    (safeEnds_sortByStart s.limit s.paused hs) fuel x
    (noNextValid_congr s.limit _ _ x
      (fun y => (inPausedRange_sortByStart s.paused y).symm) h)

/-- The value returned by `findNextValidStartLocal` depends on the paused list only
through the set of its ranges, as long as the sums of the loop are exact: on a session
with the same limit and the same ranges, in any order, the same value is returned within
`2 * length + 1` iterations. -/
theorem findNextValidStartLocal_congr (s1 s2 : Session) (hlim : s1.limit = s2.limit)
    (hmem : ∀ q, q ∈ s1.paused ↔ q ∈ s2.paused) (hs : SafeEnds s1.limit s1.paused)
    (fuel : Nat) (x r : Int)
    (h : findNextValidStartLocal fuel s1 x = some r) :
    findNextValidStartLocal (2 * s2.paused.length + 1) s2 x = some r := by
  by_cases hne : s1.paused = []
  · have hne2 : s2.paused = [] := by
      apply List.eq_nil_iff_forall_not_mem.2
      intro q hq
      have := (hmem q).2 hq
      rw [hne] at this
      cases this
    unfold findNextValidStartLocal at h ⊢
    rw [hne] at h
    rw [hne2, ← hlim]
    exact h
  · have hne2 : s2.paused ≠ [] := by
      intro hc
      apply hne
      apply List.eq_nil_iff_forall_not_mem.2
      intro q hq
      have := (hmem q).1 hq
      rw [hc] at this
      cases this
    have hin : ∀ y, inPausedRange s1.paused y ↔ inPausedRange s2.paused y := by
      intro y
      unfold inPausedRange
      constructor
      · rintro ⟨q, hq, h1⟩
        exact ⟨q, (hmem q).1 hq, h1⟩
      · rintro ⟨q, hq, h1⟩
        exact ⟨q, (hmem q).2 hq, h1⟩
    have hs2 : SafeEnds s2.limit s2.paused := by
      rw [← hlim]
      exact fun q hq => hs q ((hmem q).2 hq)
    rcases nextValid_or_not s1.limit s1.paused x with ⟨v, hv⟩ | hno
    · have h1 := findNextValidStartLocal_of_nextValid s1 x v hs hne hv
      have e := findNextValidStartLocal_det _ _ s1 x r v h h1
      subst e
      have hv2 := nextValid_congr s1.limit _ _ x r hin hv
      rw [hlim] at hv2
      exact findNextValidStartLocal_of_nextValid s2 x r hs2 hne2 hv2
    · rw [findNextValidStartLocal_of_noNextValid s1 x hs hne hno fuel] at h
      cases h


/-! ## Termination when some position of the track is free -/

theorem findNextValidStartLocal_mono_le (f1 f2 : Nat) (hle : f1 ≤ f2) (s : Session)
    (x r : Int) (h : findNextValidStartLocal f1 s x = some r) :
    findNextValidStartLocal f2 s x = some r := by
  have := findNextValidStartLocal_mono f1 (f2 - f1) s x r h
  have e : f1 + (f2 - f1) = f2 := by omega
  rw [e] at this
  exact this

/-- A session with a free position on its track and exact sums in the loop: every call
of `findNextValidStartLocal` returns within `2 * length + 1` iterations. -/
theorem findNextValidStartLocal_total (s : Session) (hs : SafeEnds s.limit s.paused)
    (hfree : ∃ u, 1 ≤ u ∧ u ≤ s.limit ∧ ¬ inPausedRange s.paused u) (x : Int) :
    ∃ r, findNextValidStartLocal (2 * s.paused.length + 1) s x = some r := by
  by_cases hne : s.paused = []
  · exact ⟨if x > s.limit then 1 else x,
      by simp only [findNextValidStartLocal, hne, List.length_nil, if_true]⟩
  · rcases nextValid_or_not s.limit s.paused x with ⟨v, hv⟩ | hno
    · exact ⟨v, findNextValidStartLocal_of_nextValid s x v hs hne hv⟩
    · obtain ⟨u, hu1, hu2, hu3⟩ := hfree
      exact absurd (hno.2.2.2 u hu1 hu2) hu3

theorem generateSingleIntervalLocal_total (fuel : Nat) (s : Session)
    (h : ∀ x, ∃ r, findNextValidStartLocal fuel s x = some r) (start step : Int) :
    ∃ y, generateSingleIntervalLocal fuel s start step = some y := by
  obtain ⟨c, hc⟩ := h start
  obtain ⟨n1, hn1⟩ := h 1
  obtain ⟨n2, hn2⟩ := h (jsAdd (proposedEndOf c step) 1)
  unfold generateSingleIntervalLocal
  rw [hc]
  simp only [hn1, hn2]
  split
  · exact ⟨_, rfl⟩
  · split
    · exact ⟨_, rfl⟩
    · split
      · exact ⟨_, rfl⟩
      · exact ⟨_, rfl⟩

theorem getNextStartPositionLocal_total (fuel : Nat) (s : Session)
    (h : ∀ x, ∃ r, findNextValidStartLocal fuel s x = some r) :
    ∃ p, getNextStartPositionLocal fuel s = some p := by
  unfold getNextStartPositionLocal
  cases s.hist.getLast? with
  | none => exact ⟨1, rfl⟩
  | some q => exact h _

theorem initialPositions_total (fuel : Nat) :
    ∀ (ss : List Session),
      (∀ s ∈ ss, ∀ x, ∃ r, findNextValidStartLocal fuel s x = some r) →
      ∃ pos, initialPositions fuel ss = some pos ∧ pos.length = ss.length := by
  intro ss
  induction ss with
  | nil => intro _; exact ⟨[], rfl, rfl⟩
  | cons s rest ih =>
    intro h
    obtain ⟨p, hp⟩ := getNextStartPositionLocal_total fuel s (h s (List.mem_cons_self _ _))
    obtain ⟨ps, hps, hlen⟩ := ih (fun t ht => h t (List.mem_cons_of_mem _ ht))
    exact ⟨p :: ps, by simp [initialPositions, hp, hps], by simp [hlen]⟩

theorem generateRow_total (fuel : Nat) :
    ∀ (ss : List Session) (pos : List Int),
      (∀ s ∈ ss, ∀ x, ∃ r, findNextValidStartLocal fuel s x = some r) →
      pos.length = ss.length → ∃ res, generateRow fuel ss pos = some res := by
  intro ss
  induction ss with
  | nil => intro pos _ _; exact ⟨([], []), by simp [generateRow]⟩
  | cons s rest ih =>
    intro pos h hlen
    cases pos with
    | nil => simp at hlen
    | cons p ps =>
      obtain ⟨y, hy⟩ := generateSingleIntervalLocal_total fuel s
        (h s (List.mem_cons_self _ _)) p s.step
      obtain ⟨res, hres⟩ := ih ps (fun t ht => h t (List.mem_cons_of_mem _ ht))
        (by simpa using hlen)
      exact ⟨(y.1 :: res.1, y.2 :: res.2), by simp [generateRow, hy, hres]⟩

theorem generateRows_total (fuel : Nat) (ss : List Session)
    (h : ∀ s ∈ ss, ∀ x, ∃ r, findNextValidStartLocal fuel s x = some r) :
    ∀ (drops : Nat) (pos : List Int), pos.length = ss.length →
      ∃ rows, generateRows fuel ss drops pos = some rows := by
  intro drops
  induction drops with
  | zero => intro pos _; exact ⟨[], rfl⟩
  | succ n ih =>
    intro pos hlen
    obtain ⟨res, hres⟩ := generateRow_total fuel ss pos h hlen
    obtain ⟨row, next⟩ := res
    obtain ⟨_, hnext, _⟩ := generateRow_spec fuel ss pos row next hres
    obtain ⟨rows, hrows⟩ := ih next hnext
    exact ⟨row :: rows, by simp [generateRows, hres, hrows]⟩

/-- When every call of `findNextValidStartLocal` returns with the given fuel on every
session, `generatePlanWithData` returns a plan with that fuel. -/
theorem generatePlanWithData_total (fuel : Nat) (numDrops : Int) (ss : List Session)
    (h : ∀ s ∈ ss, ∀ x, ∃ r, findNextValidStartLocal fuel s x = some r) :
    ∃ plan, generatePlanWithData fuel numDrops ss = some plan := by
  obtain ⟨pos, hpos, hlen⟩ := initialPositions_total fuel ss h
  obtain ⟨rows, hrows⟩ := generateRows_total fuel ss h numDrops.toNat pos hlen
  exact ⟨rows.map renderRow, by simp [generatePlanWithData, generatePlanTokens, hpos, hrows]⟩

theorem le_fuelBound (ss : List Session) (s : Session) (hs : s ∈ ss) :
    2 * s.paused.length + 1 ≤ fuelBound ss := by
  induction ss with
  | nil => cases hs
  | cons a rest ih =>
    unfold fuelBound
    rcases List.mem_cons.1 hs with h | h
    · subst h; omega
    · have := ih h; omega

/-- A position that one iteration of the loop maps to itself is never left. -/
theorem advanceLoop_stuck (limit : Int) (l : List Range) (x : Int)
    (h : scanPass limit l x = some x) : ∀ fuel, advanceLoop limit l fuel x = none := by
  intro fuel
  induction fuel with
  | zero => rfl
  | succ n ih =>
    simp only [advanceLoop, h]
    exact ih

/-- A position that one iteration of the loop maps to a position that is never left. -/
theorem advanceLoop_into_stuck (limit : Int) (l : List Range) (x y : Int)
    (h1 : scanPass limit l x = some y) (h2 : scanPass limit l y = some y) :
    ∀ fuel, advanceLoop limit l fuel x = none := by
  intro fuel
  cases fuel with
  | zero => rfl
  | succ n =>
    simp only [advanceLoop, h1]
    exact advanceLoop_stuck limit l y h2 n

/-- C19, as stated, fails: on the session with limit `2 ^ 53 + 2` whose only paused
range is `[1, 2 ^ 53]`, position `2 ^ 53 + 2` is on the track and inside no paused
range, yet the sum `2 ^ 53 + 1` of line 77 rounds back to `2 ^ 53`, the candidate stays
inside the range and the loop started at `1` has not returned after any number of
iterations; `generatePlanWithData` produces no plan. -/
theorem rounded_sum_never_leaves_range :
    (1 ≤ (9007199254740994 : Int) ∧
      ∀ q ∈ [((1 : Int), (9007199254740992 : Int))],
        ¬ (q.1 ≤ 9007199254740994 ∧ 9007199254740994 ≤ q.2)) ∧
    (∀ fuel, findNextValidStartLocal fuel
      ⟨1, 9007199254740994, [(1, 9007199254740992)], []⟩ 1 = none) ∧
    (∀ fuel, generatePlanWithData fuel 1
      [⟨1, 9007199254740994, [(1, 9007199254740992)], []⟩] = none) ∧
    ¬ (∀ (s : Session),
        (∃ u, 1 ≤ u ∧ u ≤ s.limit ∧ ∀ q ∈ s.paused, ¬ (q.1 ≤ u ∧ u ≤ q.2)) →
        ∀ start : Int, ∃ fuel r, findNextValidStartLocal fuel s start = some r) := by
  have h1 : ∀ fuel, findNextValidStartLocal fuel
      ⟨1, 9007199254740994, [(1, 9007199254740992)], []⟩ 1 = none := by
    intro fuel
    have h0 : sortByStart [((1 : Int), (9007199254740992 : Int))] =
        [(1, 9007199254740992)] := by decide
    simp only [findNextValidStartLocal, List.length_singleton, one_ne_zero, if_false, h0]
    exact advanceLoop_into_stuck 9007199254740994 [(1, 9007199254740992)] 1
      9007199254740992 (by decide) (by decide) fuel
  refine ⟨⟨by decide, by decide⟩, h1, ?_, ?_⟩
  · intro fuel
    have h2 : generatePlanTokens fuel 1
        [⟨1, 9007199254740994, [(1, 9007199254740992)], []⟩] = none := by
      have h3 : (1 : Int).toNat = 1 := rfl
      simp [generatePlanTokens, initialPositions, getNextStartPositionLocal, h3, generateRows,
        generateRow, generateSingleIntervalLocal, h1]
    simp [generatePlanWithData, h2]
  · intro hall
    obtain ⟨fuel, r, hr⟩ := hall ⟨1, 9007199254740994, [(1, 9007199254740992)], []⟩
      ⟨9007199254740994, by decide, by decide, by decide⟩ 1
    rw [h1 fuel] at hr
    cases hr

/-- C19, amended: in a session with a position `u`, `1 ≤ u ≤ limit`, inside no paused
range, whose paused ranges end at `-2 ^ 53` or later and, unless the limit is below
`2 ^ 53`, below `2 ^ 53`, `findNextValidStartLocal` returns for every integer start,
within `2 * n + 1` iterations of its loop for `n` paused ranges (two climbs through the
ranges, around one wrap); hence `generatePlanWithData` returns a plan for every drop
count when every session is such a session. -/
theorem terminates_with_free_position (s : Session) (ss : List Session)
    (hs : ∃ u, 1 ≤ u ∧ u ≤ s.limit ∧ ∀ q ∈ s.paused, ¬ (q.1 ≤ u ∧ u ≤ q.2))
    (hsafe : SafeEnds s.limit s.paused)
    (hss : ∀ t ∈ ss, (∃ u, 1 ≤ u ∧ u ≤ t.limit ∧ ∀ q ∈ t.paused, ¬ (q.1 ≤ u ∧ u ≤ q.2)) ∧
      SafeEnds t.limit t.paused) :
    (∀ (start : Int) (extra : Nat),
      ∃ r, findNextValidStartLocal (2 * s.paused.length + 1 + extra) s start = some r) ∧
    (∀ (numDrops : Int) (extra : Nat),
      ∃ plan, generatePlanWithData (fuelBound ss + extra) numDrops ss = some plan) := by
  have hconv : ∀ t : Session,
      (∃ u, 1 ≤ u ∧ u ≤ t.limit ∧ ∀ q ∈ t.paused, ¬ (q.1 ≤ u ∧ u ≤ q.2)) →
      ∃ u, 1 ≤ u ∧ u ≤ t.limit ∧ ¬ inPausedRange t.paused u := by
    rintro t ⟨u, h1, h2, h3⟩
    refine ⟨u, h1, h2, ?_⟩
    rintro ⟨q, hq, hc⟩
    exact h3 q hq hc
  constructor
  · intro start extra
    obtain ⟨r, hr⟩ := findNextValidStartLocal_total s hsafe (hconv s hs) start
    exact ⟨r, findNextValidStartLocal_mono _ extra s start r hr⟩
  · intro numDrops extra
    apply generatePlanWithData_total
    intro t ht x
    obtain ⟨r, hr⟩ := findNextValidStartLocal_total t (hss t ht).2 (hconv t (hss t ht).1) x
    exact ⟨r, findNextValidStartLocal_mono_le _ _
      (by have := le_fuelBound ss t ht; omega) t x r hr⟩

theorem terminates_with_free_position_witness :
    (∀ (start : Int) (extra : Nat),
      ∃ r, findNextValidStartLocal
        (2 * (⟨2, 6, [(1, 2), (5, 9)], []⟩ : Session).paused.length + 1 + extra)
        ⟨2, 6, [(1, 2), (5, 9)], []⟩ start = some r) ∧
    (∀ (numDrops : Int) (extra : Nat),
      ∃ plan, generatePlanWithData
        (fuelBound [⟨2, 6, [(1, 2), (5, 9)], []⟩, ⟨1, 3, [], [(1, 1)]⟩] + extra) numDrops
        [⟨2, 6, [(1, 2), (5, 9)], []⟩, ⟨1, 3, [], [(1, 1)]⟩] = some plan) :=
  terminates_with_free_position ⟨2, 6, [(1, 2), (5, 9)], []⟩
    [⟨2, 6, [(1, 2), (5, 9)], []⟩, ⟨1, 3, [], [(1, 1)]⟩]
    ⟨3, by decide, by decide, by decide⟩ (by unfold SafeEnds; decide)
    (by
      intro t ht
      simp only [List.mem_cons, List.mem_singleton, List.not_mem_nil, or_false] at ht
      rcases ht with h | h
      · subst h; exact ⟨⟨3, by decide, by decide, by decide⟩, by unfold SafeEnds; decide⟩
      · subst h; exact ⟨⟨1, by decide, by decide, by decide⟩, by unfold SafeEnds; decide⟩)

/-- C20, as stated, fails: on the session with limit `2 ^ 53 + 2` whose only paused
range is `[2, 2 ^ 53]`, position `1` is unpaused and the start `3` is on the track; the
least unpaused position from `3` on is `2 ^ 53 + 1`, within the limit, as is the next
double `2 ^ 53 + 2`, but the sum `2 ^ 53 + 1` of line 77 rounds back to `2 ^ 53` and the
loop has not returned after any number of iterations. -/
theorem rounded_sum_returns_no_position :
    ¬ inPausedRange [((2 : Int), (9007199254740992 : Int))] 1 ∧
    ¬ inPausedRange [((2 : Int), (9007199254740992 : Int))] 9007199254740994 ∧
    (3 ≤ (9007199254740993 : Int) ∧ (9007199254740993 : Int) ≤ 9007199254740994 ∧
      ¬ inPausedRange [((2 : Int), (9007199254740992 : Int))] 9007199254740993 ∧
      ∀ y : Int, 3 ≤ y → y < 9007199254740993 →
        inPausedRange [((2 : Int), (9007199254740992 : Int))] y) ∧
    ∀ fuel, findNextValidStartLocal fuel
      ⟨1, 9007199254740994, [(2, 9007199254740992)], []⟩ 3 = none := by
  refine ⟨?_, ?_, ⟨by decide, by decide, ?_, ?_⟩, ?_⟩
  · rintro ⟨q, hq, h1, h2⟩
    simp only [List.mem_singleton] at hq
    subst hq
    simp at h1
  · rintro ⟨q, hq, h1, h2⟩
    simp only [List.mem_singleton] at hq
    subst hq
    simp at h2
  · rintro ⟨q, hq, h1, h2⟩
    simp only [List.mem_singleton] at hq
    subst hq
    simp at h2
  · intro y hy1 hy2
    exact ⟨(2, 9007199254740992), List.mem_singleton.2 rfl, by simp only; omega,
      by simp only; omega⟩
  · intro fuel
    have h0 : sortByStart [((2 : Int), (9007199254740992 : Int))] =
        [(2, 9007199254740992)] := by decide
    simp only [findNextValidStartLocal, List.length_singleton, one_ne_zero, if_false, h0]
    exact advanceLoop_into_stuck 9007199254740994 [(2, 9007199254740992)] 3
      9007199254740992 (by decide) (by decide) fuel

/-- C20, amended: for a start `x ≤ limit`, in particular `1 ≤ x ≤ limit`, in a session
with an unpaused position on its track whose paused ranges end at `-2 ^ 53` or later
and, unless the limit is below `2 ^ 53`, below `2 ^ 53`, `findNextValidStartLocal`
returns the cyclically next unpaused position: the least unpaused `p` with
`x ≤ p ≤ limit` if there is one, and otherwise the least unpaused `p` with
`1 ≤ p ≤ limit`. The value is the same for every fuel with which the loop returns. -/
theorem next_valid_is_cyclic_least (s : Session) (x : Int) (hx2 : x ≤ s.limit)
    (hsafe : SafeEnds s.limit s.paused)
    (hfree : ∃ u, 1 ≤ u ∧ u ≤ s.limit ∧ ¬ inPausedRange s.paused u) :
    ∃ r, findNextValidStartLocal (2 * s.paused.length + 1) s x = some r ∧
      (∀ fuel r0, findNextValidStartLocal fuel s x = some r0 → r0 = r) ∧
      ¬ inPausedRange s.paused r ∧
      ((∃ p, x ≤ p ∧ p ≤ s.limit ∧ ¬ inPausedRange s.paused p) →
        x ≤ r ∧ r ≤ s.limit ∧
        ∀ p, x ≤ p → p ≤ s.limit → ¬ inPausedRange s.paused p → r ≤ p) ∧
      ((¬ ∃ p, x ≤ p ∧ p ≤ s.limit ∧ ¬ inPausedRange s.paused p) →
        1 ≤ r ∧ r ≤ s.limit ∧
        ∀ p, 1 ≤ p → p ≤ s.limit → ¬ inPausedRange s.paused p → r ≤ p) := by
  have hleast : ∀ (a v : Int), (∀ y, a ≤ y → y < v → inPausedRange s.paused y) →
      ∀ p, a ≤ p → ¬ inPausedRange s.paused p → v ≤ p := by
    intro a v hcov p hp1 hp2
    by_contra hcon
    exact hp2 (hcov p hp1 (by omega))
  by_cases hex : ∃ p, x ≤ p ∧ p ≤ s.limit ∧ ¬ inPausedRange s.paused p
  · obtain ⟨v, hv1, hv2, hv3, hv4⟩ := exists_least_unpaused s.paused x s.limit hex
    have hret : findNextValidStartLocal (2 * s.paused.length + 1) s x = some v := by
      by_cases hne : s.paused = []
      · have hvx : v = x := by
          by_contra hc
          obtain ⟨q, hq, _⟩ := hv4 x (le_refl x) (by omega)
          rw [hne] at hq
          cases hq
        simp only [findNextValidStartLocal, hne, List.length_nil, if_true, hvx,
          Option.some.injEq]
        rw [if_neg (by omega)]
      · apply findNextValidStartLocal_of_nextValid s x v hsafe hne
        by_cases hpx : inPausedRange s.paused x
        · exact Or.inr (Or.inl ⟨hpx, hv1, hv2, hv3, hv4⟩)
        · have hvx : v = x := by
            by_contra hc
            exact hpx (hv4 x (le_refl x) (by omega))
          exact Or.inl ⟨hpx, hvx⟩
    refine ⟨v, hret, fun fuel r0 h0 => findNextValidStartLocal_det _ _ s x r0 v h0 hret,
      hv3, ?_, fun hno => absurd hex hno⟩
    intro _
    exact ⟨hv1, hv2, fun p hp1 _ hp3 => hleast x v hv4 p hp1 hp3⟩
  · have hcov : ∀ y, x ≤ y → y ≤ s.limit → inPausedRange s.paused y := by
      intro y hy1 hy2
      by_contra hy3
      exact hex ⟨y, hy1, hy2, hy3⟩
    have hne : s.paused ≠ [] := by
      intro hc
      obtain ⟨q, hq, _⟩ := hcov x (le_refl x) hx2
      rw [hc] at hq
      cases hq
    obtain ⟨v, hv1, hv2, hv3, hv4⟩ := exists_least_unpaused s.paused 1 s.limit hfree
    have hret : findNextValidStartLocal (2 * s.paused.length + 1) s x = some v :=
      findNextValidStartLocal_of_nextValid s x v hsafe hne
        (Or.inr (Or.inr ⟨hcov x (le_refl x) hx2, hcov, hv3, hv1, Or.inr hv2, hv4⟩))
    refine ⟨v, hret, fun fuel r0 h0 => findNextValidStartLocal_det _ _ s x r0 v h0 hret,
      hv3, fun hyes => absurd hyes hex, ?_⟩
    intro _
    exact ⟨hv1, hv2, fun p hp1 _ hp3 => hleast 1 v hv4 p hp1 hp3⟩

theorem next_valid_is_cyclic_least_witness :
    ∃ r, findNextValidStartLocal
        (2 * (⟨1, 6, [(5, 9), (1, 2)], []⟩ : Session).paused.length + 1)
        ⟨1, 6, [(5, 9), (1, 2)], []⟩ 5 = some r ∧
      (∀ fuel r0, findNextValidStartLocal fuel ⟨1, 6, [(5, 9), (1, 2)], []⟩ 5 = some r0 →
        r0 = r) ∧
      ¬ inPausedRange [(5, 9), (1, 2)] r ∧
      ((∃ p, 5 ≤ p ∧ p ≤ 6 ∧ ¬ inPausedRange [(5, 9), (1, 2)] p) →
        5 ≤ r ∧ r ≤ 6 ∧
        ∀ p, 5 ≤ p → p ≤ 6 → ¬ inPausedRange [(5, 9), (1, 2)] p → r ≤ p) ∧
      ((¬ ∃ p, 5 ≤ p ∧ p ≤ 6 ∧ ¬ inPausedRange [(5, 9), (1, 2)] p) →
        1 ≤ r ∧ r ≤ 6 ∧
        ∀ p, 1 ≤ p → p ≤ 6 → ¬ inPausedRange [(5, 9), (1, 2)] p → r ≤ p) :=
  next_valid_is_cyclic_least ⟨1, 6, [(5, 9), (1, 2)], []⟩ 5 (by decide)
    (by unfold SafeEnds; decide)
    ⟨3, by decide, by decide, by
      rintro ⟨q, hq, h1, h2⟩
      simp only [List.mem_cons, List.mem_singleton, List.not_mem_nil, or_false] at hq
      rcases hq with h | h <;> subst h <;> simp at h1 h2⟩


/-! ## Intervals of one column until the track is used up -/

/-- When some position from `x` to the limit is unpaused and the sums of the loop are
exact, a value returned from `x` lies between `x` and that position. -/
theorem findNextValidStartLocal_ge_of_free (fuel : Nat) (s : Session) (x y r : Int)
    (hsafe : SafeEnds s.limit s.paused) (hxy : x ≤ y) (hy : y ≤ s.limit)
    (hfree : ¬ inPausedRange s.paused y)
    (h : findNextValidStartLocal fuel s x = some r) : x ≤ r ∧ r ≤ y := by
  by_cases hne : s.paused = []
  · simp only [findNextValidStartLocal, hne, List.length_nil, if_true, Option.some.injEq] at h
    rw [if_neg (by omega)] at h
    omega
  · obtain ⟨v, hv1, hv2, hv3, hv4⟩ := exists_least_unpaused s.paused x s.limit
      ⟨y, hxy, hy, hfree⟩
    have hvy : v ≤ y := by
      by_contra hcon
      exact hfree (hv4 y hxy (by omega))
    have hnv : NextValid s.limit s.paused x v := by
      by_cases hpx : inPausedRange s.paused x
      · exact Or.inr (Or.inl ⟨hpx, hv1, hv2, hv3, hv4⟩)
      · have hvx : v = x := by
          by_contra hc
          exact hpx (hv4 x (le_refl x) (by omega))
        exact Or.inl ⟨hpx, hvx⟩
    have hret := findNextValidStartLocal_of_nextValid s x v hsafe hne hnv
    have e := findNextValidStartLocal_det _ _ s x r v h hret
    omega

/-- What every call of a column made at a cursor of at least `1` leaves behind, for a
step of at least `1`, a limit of at most `2 ^ 53 - 2` and paused ranges that end at `0`
or later: a next cursor of at least `1` that `findNextValidStartLocal` maps to itself,
and, after an interval token `a-b`, the value returned from `b + 1`. -/
theorem generateSingleIntervalLocal_leaves (fuel : Nat) (s : Session) (c : Int)
    (tok : Token) (nx : Int) (hstep : 1 ≤ s.step) (hp : ∀ q ∈ s.paused, 0 ≤ q.2)
    (hlim : s.limit ≤ 9007199254740990) (hc : 1 ≤ c)
    (h : generateSingleIntervalLocal fuel s c s.step = some (tok, nx)) :
    1 ≤ nx ∧ findNextValidStartLocal fuel s nx = some nx ∧
      ∀ a b, tok = Token.interval a b →
        findNextValidStartLocal fuel s a = some a ∧ b = a + s.step - 1 ∧ b ≤ s.limit ∧
        findNextValidStartLocal fuel s (b + 1) = some nx := by
  obtain ⟨hb, hnx⟩ := generateSingleIntervalLocal_bounds fuel s c tok nx hstep hp hlim hc h
  obtain ⟨x, hx⟩ := generateSingleIntervalLocal_next fuel s c s.step tok nx h
  refine ⟨hnx, findNextValidStartLocal_idem fuel s x nx hx, ?_⟩
  intro a b hab
  obtain ⟨b1, b2, b3, b4⟩ := hb a b hab
  obtain ⟨c0, h0, h1 | h1⟩ := generateSingleIntervalLocal_spec fuel s c s.step tok nx h
  · obtain ⟨_, h2, _⟩ := h1
    rw [h2] at hab
    cases hab
  · obtain ⟨_, h3, h4⟩ := h1
    rcases h4 with ⟨_, h5⟩ | ⟨_, _, h5⟩ | ⟨_, _, h5⟩
    · rw [h5] at hab; cases hab
    · rw [h5] at hab; cases hab
    · rw [h5] at hab
      simp only [Token.interval.injEq] at hab
      obtain ⟨e1, e2⟩ := hab
      rw [e2, jsAdd_exact b 1 (by omega) (by omega)] at h3
      refine ⟨?_, by omega, b3, h3⟩
      rw [← e1]
      exact findNextValidStartLocal_idem fuel s c c0 h0

/-- A call made at a cursor `n0 ≥ 1` that `findNextValidStartLocal` maps to itself,
while some position from `n0 + step` to the limit is unpaused, returns a next cursor of
at least `n0 + step`, and an interval token it emits starts at `n0`. -/
theorem generateSingleIntervalLocal_advances (fuel : Nat) (s : Session) (n0 : Int)
    (tok : Token) (nx : Int) (hstep : 1 ≤ s.step) (hsafe : SafeEnds s.limit s.paused)
    (hlim : s.limit ≤ 9007199254740990) (hn0 : 1 ≤ n0)
    (hid : findNextValidStartLocal fuel s n0 = some n0)
    (hfree : ∃ y, n0 + s.step ≤ y ∧ y ≤ s.limit ∧ ¬ inPausedRange s.paused y)
    (h : generateSingleIntervalLocal fuel s n0 s.step = some (tok, nx)) :
    n0 + s.step ≤ nx := by
  obtain ⟨y, hy1, hy2, hy3⟩ := hfree
  obtain ⟨c0, h0, h1 | h1⟩ := generateSingleIntervalLocal_spec fuel s n0 s.step tok nx h
  · rw [hid] at h0
    simp only [Option.some.injEq] at h0
    subst h0
    obtain ⟨h2, _, _⟩ := h1
    have := (proposedEndOf_eq n0 s.step (by omega) (by omega)).1
    omega
  · rw [hid] at h0
    simp only [Option.some.injEq] at h0
    subst h0
    obtain ⟨h2, h3, _⟩ := h1
    obtain ⟨_, hex⟩ := proposedEndOf_exact n0 s.step hn0 hstep (by omega)
    rw [hex, jsAdd_exact _ _ (by omega) (by omega)] at h3
    have := findNextValidStartLocal_ge_of_free fuel s (n0 + s.step - 1 + 1) y nx hsafe
      (by omega) hy2 hy3 h3
    omega

/-- C3, as stated, fails: with step `2` and limit `4` the cursor wraps after two rows
and the rows `0` and `2` of the column both hold `1-2`. -/
theorem interval_tokens_repeat_after_wrap :
    ¬ (∀ (fuel : Nat) (numDrops : Int) (ss : List Session) (rows : List (List Token))
        (k r1 r2 : Nat) (row1 row2 : List Token) (a b c d : Int),
        generatePlanTokens fuel numDrops ss = some rows → r1 ≠ r2 →
        rows[r1]? = some row1 → rows[r2]? = some row2 →
        row1[k]? = some (Token.interval a b) → row2[k]? = some (Token.interval c d) →
        b < c ∨ d < a) := by
  intro hall
  have := hall 5 3 [⟨2, 4, [], []⟩]
    [[Token.interval 1 2], [Token.interval 3 4], [Token.interval 1 2]] 0 0 2
    [Token.interval 1 2] [Token.interval 1 2] 1 2 1 2 (by decide) (by decide) (by decide)
    (by decide) (by decide) (by decide)
  omega

/-- C3, amended: take a session with step at least `1`, limit at most `2 ^ 53 - 2` and
paused and historical ranges with endpoints at least `1` and start at most end. Its
column is the list of tokens of `sessionColumn`, each with the next cursor its call
returned, and two interval tokens `a-b` at row `i` and `c-d` at a later row `j` satisfy
`b < c`, hence are disjoint, unless the track was used up in between: no position after
`b` up to the limit is unpaused, or at some row `m` from `i` on, before row `j - 1`, with
next cursor `n0`, no position from `n0 + step` up to the limit is unpaused (the call of
row `m + 1`, which starts at `n0`, emits `Limite` or pushes the cursor back to the
start). -/
theorem interval_tokens_disjoint_until_exhausted (fuel : Nat) (numDrops : Int)
    (ss : List Session) (rows : List (List Token)) (k : Nat) (s : Session)
    (hplan : generatePlanTokens fuel numDrops ss = some rows) (hk : ss[k]? = some s)
    (hstep : 1 ≤ s.step) (hlim : s.limit ≤ 9007199254740990)
    (hp : ∀ q ∈ s.paused, 1 ≤ q.1 ∧ 1 ≤ q.2 ∧ q.1 ≤ q.2)
    (hh : ∀ q ∈ s.hist, 1 ≤ q.1 ∧ 1 ≤ q.2 ∧ q.1 ≤ q.2) :
    ∃ p col, getNextStartPositionLocal fuel s = some p ∧
      sessionColumn fuel s numDrops.toNat p = some col ∧
      rows.map (fun row => row[k]?) = col.map (fun c => some c.1) ∧
      ∀ (i j : Nat) (a b c d ni nj : Int), i < j →
        col[i]? = some (Token.interval a b, ni) →
        col[j]? = some (Token.interval c d, nj) →
        b < c ∨
        (∀ y, b < y → y ≤ s.limit → inPausedRange s.paused y) ∨
        ∃ (m : Nat) (t : Token) (n0 : Int), i ≤ m ∧ m + 1 < j ∧ col[m]? = some (t, n0) ∧
          ∀ y, n0 + s.step ≤ y → y ≤ s.limit → inPausedRange s.paused y := by
  obtain ⟨_, _, hcol⟩ := generatePlanTokens_column fuel numDrops ss rows hplan
  obtain ⟨p, col, h1, h2, h3⟩ := hcol k s hk
  refine ⟨p, col, h1, h2, h3, ?_⟩
  have hp0 : ∀ q ∈ s.paused, 0 ≤ q.2 := fun q hq => by have := hp q hq; omega
  have hh0 : ∀ q ∈ s.hist, 0 ≤ q.2 := fun q hq => by have := hh q hq; omega
  have hsafe : SafeEnds s.limit s.paused := fun q hq => by
    have := hp q hq
    exact ⟨by omega, Or.inr (by omega)⟩
  have hp1 := getNextStartPositionLocal_pos fuel s p hp0 hh0 h1
  have hinv := sessionColumn_invariant fuel s (fun c => 1 ≤ c)
    (fun tok nx => 1 ≤ nx ∧ findNextValidStartLocal fuel s nx = some nx ∧
      ∀ a b, tok = Token.interval a b →
        findNextValidStartLocal fuel s a = some a ∧ b = a + s.step - 1 ∧ b ≤ s.limit ∧
        findNextValidStartLocal fuel s (b + 1) = some nx)
    (fun c tok nx hc hg =>
      ⟨generateSingleIntervalLocal_leaves fuel s c tok nx hstep hp0 hlim hc hg,
       (generateSingleIntervalLocal_leaves fuel s c tok nx hstep hp0 hlim hc hg).1⟩)
    numDrops.toNat p col hp1 h2
  obtain ⟨_, hcalls⟩ := sessionColumn_calls fuel s numDrops.toNat p col h2
  intro i j a b c d ni nj hij hi hj
  by_cases hE1 : ∀ y, b < y → y ≤ s.limit → inPausedRange s.paused y
  · exact Or.inr (Or.inl hE1)
  by_cases hE2 : ∃ (m : Nat) (t : Token) (n0 : Int), i ≤ m ∧ m + 1 < j ∧
      col[m]? = some (t, n0) ∧ ∀ y, n0 + s.step ≤ y → y ≤ s.limit → inPausedRange s.paused y
  · exact Or.inr (Or.inr hE2)
  left
  have hfree1 : ∃ y, b + 1 ≤ y ∧ y ≤ s.limit ∧ ¬ inPausedRange s.paused y := by
    by_contra hcon
    apply hE1
    intro y hy1 hy2
    by_contra hy3
    exact hcon ⟨y, by omega, hy2, hy3⟩
  have hfree2 : ∀ (m : Nat) (t : Token) (n0 : Int), i ≤ m → m + 1 < j →
      col[m]? = some (t, n0) →
      ∃ y, n0 + s.step ≤ y ∧ y ≤ s.limit ∧ ¬ inPausedRange s.paused y := by
    intro m t n0 hm1 hm2 hm3
    by_contra hcon
    apply hE2
    refine ⟨m, t, n0, hm1, hm2, hm3, ?_⟩
    intro y hy1 hy2
    by_contra hy3
    exact hcon ⟨y, hy1, hy2, hy3⟩
  have hclimb : ∀ (g : Nat), i + g < j → ∀ t n, col[i + g]? = some (t, n) → b < n := by
    intro g
    induction g with
    | zero =>
      intro _ t n hg
      rw [Nat.add_zero, hi] at hg
      simp only [Option.some.injEq, Prod.mk.injEq] at hg
      obtain ⟨_, _, hq⟩ := hinv _ (List.getElem?_mem hi)
      obtain ⟨_, _, _, hq4⟩ := hq a b rfl
      obtain ⟨y, hy1, hy2, hy3⟩ := hfree1
      have := findNextValidStartLocal_ge_of_free fuel s (b + 1) y ni hsafe hy1 hy2 hy3 hq4
      omega
    | succ g ih =>
      intro hlt t n hg
      have hlen : i + g < col.length := by
        obtain ⟨hl, _⟩ := List.getElem?_eq_some_iff.1 hg
        omega
      obtain ⟨⟨t0, n0⟩, h0⟩ : ∃ x, col[i + g]? = some x :=
        ⟨col[i + g], List.getElem?_eq_getElem hlen⟩
      have hprev := ih (by omega) t0 n0 h0
      obtain ⟨hq1, hq2, _⟩ := hinv _ (List.getElem?_mem h0)
      have hcall := hcalls (i + g) t0 n0 t n h0 hg
      have := generateSingleIntervalLocal_advances fuel s n0 t n hstep hsafe hlim hq1 hq2
        (hfree2 (i + g) t0 n0 (by omega) (by omega) h0) hcall
      omega
  obtain ⟨g, rfl⟩ : ∃ g, j = i + g + 1 := ⟨j - i - 1, by omega⟩
  have hlen : i + g < col.length := by
    obtain ⟨hl, _⟩ := List.getElem?_eq_some_iff.1 hj
    omega
  obtain ⟨⟨t0, n0⟩, h0⟩ : ∃ x, col[i + g]? = some x :=
    ⟨col[i + g], List.getElem?_eq_getElem hlen⟩
  have hn0 := hclimb g (by omega) t0 n0 h0
  obtain ⟨_, hq2, _⟩ := hinv _ (List.getElem?_mem h0)
  have hcall := hcalls (i + g) t0 n0 _ nj h0 hj
  obtain ⟨c1, hc1, hrest⟩ := generateSingleIntervalLocal_spec fuel s n0 s.step _ nj hcall
  rw [hq2] at hc1
  simp only [Option.some.injEq] at hc1
  subst hc1
  rcases hrest with ⟨_, h5, _⟩ | ⟨_, _, ⟨_, h5⟩ | ⟨_, _, h5⟩ | ⟨_, _, h5⟩⟩
  · cases h5
  · cases h5
  · cases h5
  · simp only [Token.interval.injEq] at h5
    omega

theorem interval_tokens_disjoint_until_exhausted_witness :
    generatePlanTokens 5 3 [⟨2, 10, [(3, 4)], []⟩] =
        some [[Token.interval 1 2], [Token.interval 5 6], [Token.interval 7 8]] ∧
      ∃ p col, getNextStartPositionLocal 5 ⟨2, 10, [(3, 4)], []⟩ = some p ∧
        sessionColumn 5 ⟨2, 10, [(3, 4)], []⟩ (3 : Int).toNat p = some col ∧
        [[Token.interval 1 2], [Token.interval 5 6], [Token.interval 7 8]].map
            (fun row => row[0]?) = col.map (fun c => some c.1) ∧
        ∀ (i j : Nat) (a b c d ni nj : Int), i < j →
          col[i]? = some (Token.interval a b, ni) →
          col[j]? = some (Token.interval c d, nj) →
          b < c ∨
          (∀ y, b < y → y ≤ 10 → inPausedRange [(3, 4)] y) ∨
          ∃ (m : Nat) (t : Token) (n0 : Int), i ≤ m ∧ m + 1 < j ∧ col[m]? = some (t, n0) ∧
            ∀ y, n0 + 2 ≤ y → y ≤ 10 → inPausedRange [(3, 4)] y :=
  ⟨by decide,
   interval_tokens_disjoint_until_exhausted 5 3 [⟨2, 10, [(3, 4)], []⟩]
     [[Token.interval 1 2], [Token.interval 5 6], [Token.interval 7 8]] 0
     ⟨2, 10, [(3, 4)], []⟩ (by decide) (by decide) (by decide) (by decide) (by decide)
     (by decide)⟩

/-! ## The order of the paused ranges -/

theorem isIntervalInPausedLocal_congr (s1 s2 : Session)
    (hmem : ∀ q, q ∈ s1.paused ↔ q ∈ s2.paused) (a b : Int) :
    isIntervalInPausedLocal a b s1 = isIntervalInPausedLocal a b s2 := by
  have h1 := isIntervalOverlappingLocal_iff a b s1.paused
  have h2 := isIntervalOverlappingLocal_iff a b s2.paused
  have h3 : (∃ r ∈ s1.paused, a ≤ r.2 ∧ r.1 ≤ b) ↔ (∃ r ∈ s2.paused, a ≤ r.2 ∧ r.1 ≤ b) := by
    constructor
    · rintro ⟨r, hr, h⟩
      exact ⟨r, (hmem r).1 hr, h⟩
    · rintro ⟨r, hr, h⟩
      exact ⟨r, (hmem r).2 hr, h⟩
  unfold isIntervalInPausedLocal
  cases h4 : isIntervalOverlappingLocal a b s1.paused with
  | true =>
    exact (h2.2 (h3.1 (h1.1 h4))).symm
  | false =>
    cases h5 : isIntervalOverlappingLocal a b s2.paused with
    | true => rw [h1.2 (h3.2 (h2.1 h5))] at h4; cases h4
    | false => rfl

/-- A call gives the same result on two sessions with the same limit, the same
historical ranges and the same set of paused ranges, once `findNextValidStartLocal`
does. -/
theorem generateSingleIntervalLocal_congr (f1 f2 : Nat) (s1 s2 : Session)
    (hfn : ∀ x r, findNextValidStartLocal f1 s1 x = some r →
      findNextValidStartLocal f2 s2 x = some r)
    (hlim : s1.limit = s2.limit) (hhist : s1.hist = s2.hist)
    (hmem : ∀ q, q ∈ s1.paused ↔ q ∈ s2.paused) (start step : Int) (y : Token × Int)
    (h : generateSingleIntervalLocal f1 s1 start step = some y) :
    generateSingleIntervalLocal f2 s2 start step = some y := by
  obtain ⟨tok, next⟩ := y
  obtain ⟨c, hc, hrest⟩ := generateSingleIntervalLocal_spec f1 s1 start step tok next h
  have hp := isIntervalInPausedLocal_congr s1 s2 hmem c (proposedEndOf c step)
  unfold generateSingleIntervalLocal
  rw [hfn start c hc]
  simp only
  rcases hrest with ⟨h1, h2, h3⟩ | ⟨h1, h3, ⟨h4, h2⟩ | ⟨h4, h5, h2⟩ | ⟨h4, h5, h2⟩⟩
  · rw [if_pos (by omega), hfn _ _ h3, h2]
  · rw [if_neg (by omega), hfn _ _ h3, ← hp, h4, h2]
    simp
  · rw [if_neg (by omega), hfn _ _ h3, ← hp, ← hhist, h4, h5, h2]
    simp
  · rw [if_neg (by omega), hfn _ _ h3, ← hp, ← hhist, h4, h5, h2]
    simp

theorem getNextStartPositionLocal_congr (f1 f2 : Nat) (s1 s2 : Session)
    (hfn : ∀ x r, findNextValidStartLocal f1 s1 x = some r →
      findNextValidStartLocal f2 s2 x = some r)
    (hlim : s1.limit = s2.limit) (hhist : s1.hist = s2.hist) (p : Int)
    (h : getNextStartPositionLocal f1 s1 = some p) :
    getNextStartPositionLocal f2 s2 = some p := by
  unfold getNextStartPositionLocal at h ⊢
  rw [← hhist, ← hlim]
  cases hl : s1.hist.getLast? with
  | none => rw [hl] at h; exact h
  | some q =>
    rw [hl] at h
    exact hfn _ _ h

theorem forall₂_of_getElem {α β : Type} (R : α → β → Prop) :
    ∀ (l1 : List α) (l2 : List β), l1.length = l2.length →
      (∀ (k : Nat) (a : α) (b : β), l1[k]? = some a → l2[k]? = some b → R a b) → List.Forall₂ R l1 l2 := by
  intro l1
  induction l1 with
  | nil =>
    intro l2 hlen _
    cases l2 with
    | nil => exact List.Forall₂.nil
    | cons b l2 => simp at hlen
  | cons a l1 ih =>
    intro l2 hlen h
    cases l2 with
    | nil => simp at hlen
    | cons b l2 =>
      refine List.Forall₂.cons (h 0 a b (by simp) (by simp)) (ih l2 (by simpa using hlen) ?_)
      intro k x y hx hy
      exact h (k + 1) x y (by simpa using hx) (by simpa using hy)

/-- A plan generated on one input is generated, with enough fuel, on every input that
differs from it only in the order of the paused ranges of its sessions, as long as the
sums of the loop are exact. -/
theorem generatePlanWithData_paused_perm (ss1 ss2 : List Session)
    (hlen : ss1.length = ss2.length)
    (hrel : ∀ (k : Nat) (s1 s2 : Session), ss1[k]? = some s1 → ss2[k]? = some s2 →
      s1.step = s2.step ∧ s1.limit = s2.limit ∧ s1.hist = s2.hist ∧
      s1.paused.Perm s2.paused ∧ SafeEnds s1.limit s1.paused)
    (fuel : Nat) (numDrops : Int) (plan : List String)
    (h : generatePlanWithData fuel numDrops ss1 = some plan) :
    generatePlanWithData (fuel + fuelBound ss2) numDrops ss2 = some plan := by
  unfold generatePlanWithData at h ⊢
  cases hp : generatePlanTokens fuel numDrops ss1 with
  | none => rw [hp] at h; cases h
  | some rows =>
    rw [hp] at h
    have key : generatePlanTokens (fuel + fuelBound ss2) numDrops ss2 = some rows := by
      refine generatePlanTokens_transfer fuel (fuel + fuelBound ss2) numDrops ss1 ss2 ?_ rows hp
      apply forall₂_of_getElem _ ss1 ss2 hlen
      intro k a b ha hb
      obtain ⟨h1, h2, h3, h4, hsafe⟩ := hrel k a b ha hb
      have hfn : ∀ x r, findNextValidStartLocal fuel a x = some r →
          findNextValidStartLocal (fuel + fuelBound ss2) b x = some r := by
        intro x r hr
        have := findNextValidStartLocal_congr a b h2 (fun q => h4.mem_iff) hsafe fuel x r hr
        exact findNextValidStartLocal_mono_le _ _
          (by have := le_fuelBound ss2 b (List.getElem?_mem hb); omega) b x r this
      refine ⟨?_, ?_⟩
      · intro x y hy
        rw [← h1]
        exact generateSingleIntervalLocal_congr _ _ a b hfn h2 h3 (fun q => h4.mem_iff)
          x a.step y hy
      · intro p hp0
        exact getNextStartPositionLocal_congr _ _ a b hfn h2 h3 p hp0
    rw [key]
    exact h

/-- C14, as stated, fails: on a track of limit `2 ^ 53 + 8` the paused list
`[1, 2 ^ 53 + 2], [1, 2 ^ 53]` sends the start `1` to `2 ^ 53 + 4` and gives a plan,
while its permutation `[1, 2 ^ 53], [1, 2 ^ 53 + 2]` never returns: the stable sort keeps
the given order of two ranges with the same start, the loop leaves through the first of
them, and `2 ^ 53 + 1` rounds back to `2 ^ 53`. -/
theorem paused_order_matters_beyond_two_pow_53 :
    [((1 : Int), (9007199254740994 : Int)), (1, 9007199254740992)].Perm
      [(1, 9007199254740992), (1, 9007199254740994)] ∧
    findNextValidStartLocal 2
      ⟨1, 9007199254741000, [(1, 9007199254740994), (1, 9007199254740992)], []⟩ 1 =
        some 9007199254740996 ∧
    (∀ fuel, findNextValidStartLocal fuel
      ⟨1, 9007199254741000, [(1, 9007199254740992), (1, 9007199254740994)], []⟩ 1 = none) ∧
    generatePlanWithData 2 1
      [⟨1, 9007199254741000, [(1, 9007199254740994), (1, 9007199254740992)], []⟩] =
        some ["9007199254740996-9007199254740996"] ∧
    (∀ fuel, generatePlanWithData fuel 1
      [⟨1, 9007199254741000, [(1, 9007199254740992), (1, 9007199254740994)], []⟩] = none) := by
  have h1 : ∀ fuel, findNextValidStartLocal fuel
      ⟨1, 9007199254741000, [(1, 9007199254740992), (1, 9007199254740994)], []⟩ 1 = none := by
    intro fuel
    have h0 : sortByStart [((1 : Int), (9007199254740992 : Int)), (1, 9007199254740994)] =
        [(1, 9007199254740992), (1, 9007199254740994)] := by decide
    have hl : ([((1 : Int), (9007199254740992 : Int)), (1, 9007199254740994)].length = 0) =
        False := by simp
    simp only [findNextValidStartLocal, hl, if_false, h0]
    exact advanceLoop_into_stuck 9007199254741000
      [(1, 9007199254740992), (1, 9007199254740994)] 1 9007199254740992 (by decide)
      (by decide) fuel
  refine ⟨by decide, by decide, h1, by decide, ?_⟩
  intro fuel
  have h2 : generatePlanTokens fuel 1
      [⟨1, 9007199254741000, [(1, 9007199254740992), (1, 9007199254740994)], []⟩] = none := by
    have h3 : (1 : Int).toNat = 1 := rfl
    simp [generatePlanTokens, initialPositions, getNextStartPositionLocal, h3, generateRows,
      generateRow, generateSingleIntervalLocal, h1]
  simp [generatePlanWithData, h2]

/-- C14, amended: when two inputs differ only in the order of the paused ranges of their
sessions (the paused list of each session is a permutation of the other, ranges that
overlap or share a start included) and the paused ranges end at `-2 ^ 53` or later and,
unless the limit is below `2 ^ 53`, below `2 ^ 53`, `findNextValidStartLocal` returns
the same value for every start, and `generatePlanWithData` returns the same plan:
whatever one input returns for some number of loop iterations, the other returns too. -/
theorem paused_order_irrelevant (ss1 ss2 : List Session) (hlen : ss1.length = ss2.length)
    (hrel : ∀ (k : Nat) (s1 s2 : Session), ss1[k]? = some s1 → ss2[k]? = some s2 →
      s1.step = s2.step ∧ s1.limit = s2.limit ∧ s1.hist = s2.hist ∧
      s1.paused.Perm s2.paused ∧ SafeEnds s1.limit s1.paused) :
    (∀ (k : Nat) (s1 s2 : Session), ss1[k]? = some s1 → ss2[k]? = some s2 → ∀ (start r : Int),
      ((∃ fuel, findNextValidStartLocal fuel s1 start = some r) ↔
        (∃ fuel, findNextValidStartLocal fuel s2 start = some r))) ∧
    (∀ (numDrops : Int) (plan : List String),
      ((∃ fuel, generatePlanWithData fuel numDrops ss1 = some plan) ↔
        (∃ fuel, generatePlanWithData fuel numDrops ss2 = some plan))) := by
  have hrel2 : ∀ (k : Nat) (s2 s1 : Session), ss2[k]? = some s2 → ss1[k]? = some s1 →
      s2.step = s1.step ∧ s2.limit = s1.limit ∧ s2.hist = s1.hist ∧
      s2.paused.Perm s1.paused ∧ SafeEnds s2.limit s2.paused := by
    intro k s2 s1 h2 h1
    obtain ⟨a, b, c, d, e⟩ := hrel k s1 s2 h1 h2
    refine ⟨a.symm, b.symm, c.symm, d.symm, ?_⟩
    rw [← b]
    exact fun q hq => e q (d.mem_iff.2 hq)
  constructor
  · intro k s1 s2 h1 h2 start r
    obtain ⟨_, hl, _, hp, hsafe⟩ := hrel k s1 s2 h1 h2
    obtain ⟨_, _, _, _, hsafe2⟩ := hrel2 k s2 s1 h2 h1
    constructor
    · rintro ⟨fuel, hf⟩
      exact ⟨_, findNextValidStartLocal_congr s1 s2 hl (fun q => hp.mem_iff) hsafe fuel start r
        hf⟩
    · rintro ⟨fuel, hf⟩
      exact ⟨_, findNextValidStartLocal_congr s2 s1 hl.symm (fun q => hp.symm.mem_iff) hsafe2
        fuel start r hf⟩
  · intro numDrops plan
    constructor
    · rintro ⟨fuel, hf⟩
      exact ⟨_, generatePlanWithData_paused_perm ss1 ss2 hlen hrel fuel numDrops plan hf⟩
    · rintro ⟨fuel, hf⟩
      exact ⟨_, generatePlanWithData_paused_perm ss2 ss1 hlen.symm hrel2 fuel numDrops plan hf⟩

theorem paused_order_irrelevant_witness :
    generatePlanWithData 5 3 [⟨2, 9, [(3, 4), (3, 6), (1, 1)], []⟩] =
        some ["pause", "7-8", "Limite"] ∧
      generatePlanWithData 5 3 [⟨2, 9, [(1, 1), (3, 6), (3, 4)], []⟩] =
        some ["pause", "7-8", "Limite"] ∧
      ((∀ (k : Nat) (s1 s2 : Session), [(⟨2, 9, [(3, 4), (3, 6), (1, 1)], []⟩ : Session)][k]? = some s1 →
        [(⟨2, 9, [(1, 1), (3, 6), (3, 4)], []⟩ : Session)][k]? = some s2 →
        ∀ (start r : Int),
        ((∃ fuel, findNextValidStartLocal fuel s1 start = some r) ↔
          (∃ fuel, findNextValidStartLocal fuel s2 start = some r))) ∧
      (∀ (numDrops : Int) (plan : List String),
        ((∃ fuel, generatePlanWithData fuel numDrops
            [⟨2, 9, [(3, 4), (3, 6), (1, 1)], []⟩] = some plan) ↔
          (∃ fuel, generatePlanWithData fuel numDrops
            [⟨2, 9, [(1, 1), (3, 6), (3, 4)], []⟩] = some plan)))) :=
  ⟨by decide, by decide,
   paused_order_irrelevant [⟨2, 9, [(3, 4), (3, 6), (1, 1)], []⟩]
     [⟨2, 9, [(1, 1), (3, 6), (3, 4)], []⟩] rfl
     (by
       intro k s1 s2 h1 h2
       cases k with
       | zero =>
         simp only [List.getElem?_cons_zero, Option.some.injEq] at h1 h2
         subst h1; subst h2
         exact ⟨rfl, rfl, rfl, by decide, by unfold SafeEnds; decide⟩
       | succ n => simp at h1)⟩

/-! ## The text handler -/

/-- C17, as stated, fails: with a blank text and drop count `0` the handler reports the
empty input, and with the one-line text `abc` and drop count `-1` a parsing error, not
the drop-count fault. -/
theorem drops_fault_not_for_every_text :
    handleGeneratePlan 0 "" 0 = some Outcome.emptyInput ∧
      handleGeneratePlan 0 "abc" (-1) =
        some (Outcome.parsingError ParseError.tooFewLines) ∧
      ¬ (∀ (fuel : Nat) (inputText : String) (dropsCount : Int), dropsCount ≤ 0 →
        handleGeneratePlan fuel inputText dropsCount = some Outcome.invalidDrops) := by
  refine ⟨by decide, by decide, ?_⟩
  intro hall
  have := hall 0 "" 0 (le_refl 0)
  revert this
  decide

/-- C17, amended: for every input text and every drop count `≤ 0`, `handleGeneratePlan`
ends with a message and never with a plan, empty or partial; the message is the
drop-count fault whenever the text is not blank and parses, the blank-text warning and
the parsing errors being reported first. `generatePlanWithData` itself makes no such
check: called with a drop count `≤ 0`, it returns the empty plan once the initial
cursors are computed. -/
theorem nonpositive_drops_give_no_plan (fuel : Nat) (inputText : String)
    (dropsCount : Int) (h : dropsCount ≤ 0) :
    (∃ out, handleGeneratePlan fuel inputText dropsCount = some out) ∧
    (∀ plan, handleGeneratePlan fuel inputText dropsCount ≠ some (Outcome.generated plan)) ∧
    (∀ ss, (jsTrim inputText.data).isEmpty = false →
      parseInput inputText.data = Except.ok ss →
      handleGeneratePlan fuel inputText dropsCount = some Outcome.invalidDrops) ∧
    (∀ ss pos, initialPositions fuel ss = some pos →
      generatePlanWithData fuel dropsCount ss = some []) := by
  have hcases : handleGeneratePlan fuel inputText dropsCount = some Outcome.emptyInput ∨
      (∃ e, handleGeneratePlan fuel inputText dropsCount = some (Outcome.parsingError e)) ∨
      handleGeneratePlan fuel inputText dropsCount = some Outcome.invalidDrops := by
    unfold handleGeneratePlan
    by_cases hb : (jsTrim inputText.data).isEmpty = true
    · left; rw [if_pos hb]
    · right
      rw [if_neg hb]
      cases parseInput inputText.data with
      | error e => exact Or.inl ⟨e, rfl⟩
      | ok ss => right; simp only [if_pos h]
  refine ⟨?_, ?_, ?_, ?_⟩
  · rcases hcases with h1 | ⟨e, h1⟩ | h1 <;> exact ⟨_, h1⟩
  · intro plan hp
    rcases hcases with h1 | ⟨e, h1⟩ | h1 <;> rw [h1] at hp <;> cases hp
  · intro ss hb hparse
    unfold handleGeneratePlan
    rw [if_neg (by rw [hb]; decide), hparse]
    simp only [if_pos h]
  · intro ss pos hpos
    have hz : dropsCount.toNat = 0 := by omega
    simp [generatePlanWithData, generatePlanTokens, hpos, hz, generateRows]

theorem nonpositive_drops_give_no_plan_witness :
    (∃ out, handleGeneratePlan 5 "2\nA\n1-2\n9" (-3) = some out) ∧
    (∀ plan, handleGeneratePlan 5 "2\nA\n1-2\n9" (-3) ≠ some (Outcome.generated plan)) ∧
    (∀ ss, (jsTrim "2\nA\n1-2\n9".data).isEmpty = false →
      parseInput "2\nA\n1-2\n9".data = Except.ok ss →
      handleGeneratePlan 5 "2\nA\n1-2\n9" (-3) = some Outcome.invalidDrops) ∧
    (∀ ss pos, initialPositions 5 ss = some pos →
      generatePlanWithData 5 (-3) ss = some []) :=
  nonpositive_drops_give_no_plan 5 "2\nA\n1-2\n9" (-3) (by decide)

theorem parsePausedCell_ordered (raw : Option (List Char)) (q : Range)
    (h : parsePausedCell raw = some (some q)) : q.1 ≤ q.2 := by
  unfold parsePausedCell at h
  simp only at h
  split at h
  · cases h
  · split at h
    · split at h
      · split at h
        · cases h
        · simp only [Option.some.injEq] at h
          rw [← h]
          simp only
          omega
      · cases h
    · split at h
      · cases h
      · simp only [Option.some.injEq] at h
        rw [← h]

theorem parsePausedCells_ordered :
    ∀ (count : Nat) (parts : List (List Char)) (cells : List (Option Range)),
      parsePausedCells count parts = some cells →
      ∀ q, some q ∈ cells → q.1 ≤ q.2 := by
  intro count
  induction count with
  | zero =>
    intro parts cells h q hq
    simp only [parsePausedCells, Option.some.injEq] at h
    rw [← h] at hq
    cases hq
  | succ n ih =>
    intro parts cells h q hq
    unfold parsePausedCells at h
    cases hc : parsePausedCell parts.head? with
    | none => rw [hc] at h; cases h
    | some cell =>
      rw [hc] at h
      simp only at h
      cases hr : parsePausedCells n parts.tail with
      | none => rw [hr] at h; cases h
      | some rest =>
        rw [hr] at h
        simp only [Option.some.injEq] at h
        rw [← h] at hq
        rcases List.mem_cons.1 hq with h1 | h1
        · rw [← h1] at hc
          exact parsePausedCell_ordered _ q hc
        · exact ih parts.tail rest hr q h1

theorem parsePausedLines_ordered (count : Nat) :
    ∀ (lines : List (List Char)) (rows : List (List (Option Range))),
      parsePausedLines count lines = some rows →
      ∀ row ∈ rows, ∀ q, some q ∈ row → q.1 ≤ q.2 := by
  intro lines
  induction lines with
  | nil =>
    intro rows h row hrow
    simp only [parsePausedLines, Option.some.injEq] at h
    rw [← h] at hrow
    cases hrow
  | cons line rest ih =>
    intro rows h row hrow q hq
    unfold parsePausedLines at h
    cases hc : parsePausedCells count (jsSplit '\t' line) with
    | none => rw [hc] at h; cases h
    | some cells =>
      rw [hc] at h
      simp only at h
      cases hr : parsePausedLines count rest with
      | none => rw [hr] at h; cases h
      | some more =>
        rw [hr] at h
        simp only [Option.some.injEq] at h
        rw [← h] at hrow
        rcases List.mem_cons.1 hrow with h1 | h1
        · rw [h1] at hq
          exact parsePausedCells_ordered count _ cells hc q hq
        · exact ih more hr row h1 q hq

theorem mem_columnRanges (i : Nat) (rows : List (List (Option Range))) (q : Range)
    (h : q ∈ columnRanges i rows) : ∃ row ∈ rows, some q ∈ row := by
  unfold columnRanges at h
  obtain ⟨row, hrow, hq⟩ := List.mem_filterMap.1 h
  refine ⟨row, hrow, ?_⟩
  cases hc : row[i]? with
  | none => rw [hc] at hq; cases hq
  | some cell =>
    rw [hc] at hq
    simp only [Option.join] at hq
    rw [← hq]
    exact List.getElem?_mem hc

theorem buildSessions_paused (limits : List Int) (paused hist : List (List (Option Range))) :
    ∀ (steps : List Int) (i : Nat) (s : Session),
      s ∈ buildSessions limits paused hist i steps →
      ∃ j, s.paused = columnRanges j paused := by
  intro steps
  induction steps with
  | nil => intro i s h; simp [buildSessions] at h
  | cons step rest ih =>
    intro i s h
    unfold buildSessions at h
    rcases List.mem_cons.1 h with h1 | h1
    · exact ⟨i, by rw [h1]⟩
    · exact ih (i + 1) s h1

/-- Every paused range that the parsing step hands to the generator has its start at
most its end. -/
theorem parseInput_paused_ordered (text : List Char) (ss : List Session)
    (h : parseInput text = Except.ok ss) :
    ∀ s ∈ ss, ∀ q ∈ s.paused, q.1 ≤ q.2 := by
  unfold parseInput at h
  simp only at h
  split at h
  · cases h
  · split at h
    · cases h
    · split at h
      · cases h
      · split at h
        · cases h
        · split at h
          · cases h
          · rename_i paused hp
            simp only [Except.ok.injEq] at h
            intro s hs q hq
            rw [← h] at hs
            obtain ⟨j, hj⟩ := buildSessions_paused _ _ _ _ _ s hs
            rw [hj] at hq
            obtain ⟨row, hrow, hmem⟩ := mem_columnRanges j paused q hq
            exact parsePausedLines_ordered _ _ paused hp row hrow q hmem

/-- C18: the text with steps `1`, one session `A`, the historical cell `5-3` and the
limit `9` parses without error, and the inverted pair `[5, 3]` is handed to
`generatePlanWithData`, which returns a plan; the same cell `5-3` in a paused line is
rejected with a parsing error. -/
theorem inverted_history_reaches_generator :
    parseInput "1\nA\n5-3\n9".data = Except.ok [⟨1, 9, [], [(5, 3)]⟩] ∧
      handleGeneratePlan 5 "1\nA\n5-3\n9" 1 = some (Outcome.generated ["4-4"]) ∧
      parseInput "1\t1\nA\tB\n9\t9\n5-3\tx".data = Except.error ParseError.invalidPaused :=
  ⟨rfl, by decide, rfl⟩

/-- The sessions on which the loop of `findNextValidStartLocal` misbehaves are handed
to the generator by the parsing step: a fully paused track, a paused range below an
unpaused track, and a paused position `1` on an empty track, each as the first of two
sessions. -/
theorem misbehaving_sessions_parse :
    parseInput "1\t1\nA\tB\n5\t5\n1-5\tx".data =
        Except.ok [⟨1, 5, [(1, 5)], []⟩, ⟨1, 5, [], []⟩] ∧
      parseInput "3\t1\nA\tB\n5\t5\n1-2\tx".data =
        Except.ok [⟨3, 5, [(1, 2)], []⟩, ⟨1, 5, [], []⟩] ∧
      parseInput "1\t1\nA\tB\n0\t5\n1-5\tx".data =
        Except.ok [⟨1, 0, [(1, 5)], []⟩, ⟨1, 5, [], []⟩] :=
  ⟨rfl, rfl, rfl⟩

/-- The limits line is the bottom-most line with one cell per session whose cells all
pass `parseInt`, which reads the leading digits of a cell: in the text with the lines
`1`, `A`, `x`, `9`, `5-3` the line `5-3` is the limits line, the limit is `5` and the
plan for two drops is `1-1`, `2-2`. The cells are read as doubles: the limit
`9007199254740993` is `2 ^ 53`, the paused cell `9007199254740993-9007199254740992` is
the range `[2 ^ 53, 2 ^ 53]`, and the numbers beyond `2 ^ 53` reach the generator, which
prints `9007199254740992-9007199254740992` for step `2` and `1-1e+21` for step and
limit `1e21`. -/
theorem large_numbers_from_the_text :
    handleGeneratePlan 5 "1\nA\nx\n9\n5-3" 2 = some (Outcome.generated ["1-1", "2-2"]) ∧
    parseInput "1\nA\nx\n9007199254740993".data =
      Except.ok [⟨1, 9007199254740992, [], []⟩] ∧
    parseInput "1\t1\nA\tB\n9\t9\n9007199254740993-9007199254740992\tx".data =
      Except.ok [⟨1, 9, [(9007199254740992, 9007199254740992)], []⟩, ⟨1, 9, [], []⟩] ∧
    handleGeneratePlan 0 "2\nA\n1-9007199254740991\n9007199254740996" 1 =
      some (Outcome.generated ["9007199254740992-9007199254740992"]) ∧
    handleGeneratePlan 0 "1000000000000000000000\nA\nx\n1000000000000000000000" 1 =
      some (Outcome.generated ["1-1e+21"]) :=
  ⟨by decide, rfl, rfl, by decide, by decide⟩

end PlanGenerator
